import Mathlib

/-!
# high-performance-cache: LRU engine and cache facade

A shallow embedding of `include/lru_cache.h` (class template `cache::LRUCache`)
and `src/cache.cpp` (class `cache::Cache`), followed by theorems about them.

Conventions of the embedding

* Every operation runs atomically: the facade and the engine take an exclusive
  lock around each public method, so a method is a function from state to state.
* `std::list<std::pair<Key, Value>>` is a Lean list of nodes, head first; a node
  carries the identity (`addr`) that a `std::list` iterator denotes, so that the
  index `cache_map_` can hold iterators exactly as in the source.
* `std::unordered_map<Key, iterator>` is an association list from keys to node
  identities.
* `size_t` arithmetic that can wrap is written with an explicit `% SIZE_T`.
* An operation returns `none` where the C++ has no defined result: dereferencing
  an iterator that designates no live node, `std::prev(end())` of an empty list,
  or a loop that does not finish within its fuel.
* `std::string` is `String`; `size()` is `String.length` (one `Char` per byte).
-/

namespace cache

/-- Number of values of `size_t` (64-bit targets). -/
def SIZE_T : Nat := 2 ^ 64

/-! ## `std::list` with iterators -/

/-- One node of `access_order_`: the pair `(first, second)` it stores and the
identity `addr` by which iterators refer to it. -/
structure ListNode (K V : Type) where
  addr : Nat
  first : K
  second : V
deriving DecidableEq, Repr

section Engine

variable {K V : Type} [DecidableEq K]

/-- Dereference of a list iterator: the live node with identity `it`, if any. -/
def list_deref (l : List (ListNode K V)) (it : Nat) : Option (ListNode K V) :=
  l.find? (fun n => n.addr = it)

/-- `l.erase(it)`: unlink the node with identity `it`. -/
def list_erase (l : List (ListNode K V)) (it : Nat) : List (ListNode K V) :=
  l.filter (fun n => n.addr ≠ it)

/-- Identity given to a newly allocated node: one that no live node has. -/
def list_fresh (l : List (ListNode K V)) : Nat :=
  (l.map (fun n => n.addr)).foldr max 0 + 1

/-! ## `std::unordered_map<Key, iterator>` -/

/-- `m.find(key)`: the iterator stored under `key`, if any. -/
def map_find (m : List (K × Nat)) (key : K) : Option Nat :=
  (m.find? (fun p => p.1 = key)).map (fun p => p.2)

/-- `m.erase(key)`. -/
def map_erase (m : List (K × Nat)) (key : K) : List (K × Nat) :=
  m.filter (fun p => p.1 ≠ key)

/-- `m[key] = it`: overwrite the binding of `key`, or add one. -/
def map_assign (m : List (K × Nat)) (key : K) (it : Nat) : List (K × Nat) :=
  match map_find m key with
  | some _ => m.map (fun p => if p.1 = key then (key, it) else p)
  | none => (key, it) :: m

/-! ## `LRUCache<Key, Value>` (include/lru_cache.h) -/

/-- State of `cache::LRUCache<Key, Value>` (the mutex is not modelled: each
method holds it for its whole body). -/
structure LRUCache (K V : Type) where
  access_order_ : List (ListNode K V)
  cache_map_ : List (K × Nat)
  capacity_ : Nat
deriving DecidableEq, Repr

namespace LRUCache

/-- `explicit LRUCache(size_t capacity) : capacity_(capacity) {}` -/
def new (capacity : Nat) : LRUCache K V :=
  { access_order_ := [], cache_map_ := [], capacity_ := capacity }

/-- `std::optional<Value> get(const Key& key)`: on a hit, splice the node to
the front and return a copy of its value. -/
def get (c : LRUCache K V) (key : K) : Option (Option V × LRUCache K V) :=
  match map_find c.cache_map_ key with
  | none => some (none, c)
  | some it =>
    match list_deref c.access_order_ it with
    | none => none
    | some n =>
      some (some n.second,
        { c with access_order_ := n :: list_erase c.access_order_ it })

/-- The three statements shared by `put` and `set_capacity`:
`auto lru_it = std::prev(access_order_.end()); cache_map_.erase(lru_it->first);
access_order_.erase(lru_it);`. Undefined on an empty list. -/
def erase_lru (c : LRUCache K V) : Option (LRUCache K V) :=
  match c.access_order_.getLast? with
  | none => none
  | some lru_it =>
    some { c with
      cache_map_ := map_erase c.cache_map_ lru_it.first
      access_order_ := c.access_order_.dropLast }

/-- `void put(const Key& key, Value value)`. -/
def put (c : LRUCache K V) (key : K) (value : V) : Option (LRUCache K V) :=
  match map_find c.cache_map_ key with
  | some it =>
    match list_deref c.access_order_ it with
    | none => none
    | some n =>
      some { c with
        access_order_ := { n with second := value } :: list_erase c.access_order_ it }
  | none =>
    (if c.cache_map_.length ≥ c.capacity_ then erase_lru c else some c).bind fun c1 =>
      let it := list_fresh c1.access_order_
      some { c1 with
        access_order_ := ⟨it, key, value⟩ :: c1.access_order_
        cache_map_ := map_assign c1.cache_map_ key it }

/-- `bool remove(const Key& key)`. -/
def remove (c : LRUCache K V) (key : K) : Option (Bool × LRUCache K V) :=
  match map_find c.cache_map_ key with
  | none => some (false, c)
  | some it =>
    match list_deref c.access_order_ it with
    | none => none
    | some _ =>
      some (true,
        { c with
          access_order_ := list_erase c.access_order_ it
          cache_map_ := map_erase c.cache_map_ key })

/-- `void clear()`. -/
def clear (c : LRUCache K V) : LRUCache K V :=
  { c with cache_map_ := [], access_order_ := [] }

/-- `size_t size() const`: `cache_map_.size()`. -/
def size (c : LRUCache K V) : Nat := c.cache_map_.length

/-- `size_t capacity() const`. -/
def capacity (c : LRUCache K V) : Nat := c.capacity_

/-- The loop `while (cache_map_.size() > capacity_) { ...erase the tail... }`
of `set_capacity`, run for at most `fuel` iterations. -/
def set_capacity_loop : Nat → LRUCache K V → Option (LRUCache K V)
  | 0, _ => none
  | fuel + 1, c =>
    if c.cache_map_.length > c.capacity_ then
      (erase_lru c).bind (set_capacity_loop fuel)
    else some c

/-- `void set_capacity(size_t capacity)`. Every iteration of the loop unlinks
one list node, so `access_order_.length + 1` iterations are enough for it to
finish or to reach the undefined `std::prev(end())` of an empty list. -/
def set_capacity (c : LRUCache K V) (capacity : Nat) : Option (LRUCache K V) :=
  set_capacity_loop (c.access_order_.length + 1) { c with capacity_ := capacity }

end LRUCache

end Engine

/-! ## `Cache` (include/cache.h, src/cache.cpp) -/

/-- `struct CacheEntry`: `timestamp` is the reading of `steady_clock::now()`,
which the embedding receives as an argument of the operation that takes it. -/
structure CacheEntry where
  key : String
  value : String
  timestamp : Nat
  access_count : Nat
deriving DecidableEq, Repr

/-- State of `cache::Cache`. The members `allocator_` and `entry_pool_` are
constructed and never used by any method, and are left out. -/
structure Cache where
  lru_cache_ : LRUCache String CacheEntry
  hits_ : Nat
  misses_ : Nat
  max_capacity_ : Nat
  current_memory_usage_ : Nat
deriving DecidableEq, Repr

namespace Cache

/-- `Cache::Cache(size_t max_capacity)`: the engine starts with room for 10000
entries, all counters at zero. -/
def new (max_capacity : Nat) : Cache :=
  { lru_cache_ := LRUCache.new 10000
    hits_ := 0
    misses_ := 0
    max_capacity_ := max_capacity
    current_memory_usage_ := 0 }

/-- `key.size() + value.size() + sizeof(CacheEntry)`; `sizeof_entry` stands for
`sizeof(CacheEntry)`, which depends on the platform. The lengths of two strings
that exist in memory cannot make this sum wrap. -/
def entry_size (sizeof_entry : Nat) (key value : String) : Nat :=
  key.length + value.length + sizeof_entry

/-- `size_t target_usage = max_capacity_ * 0.8;`: the product is taken in
`double` and truncated. For `max_capacity_ < 2 ^ 50` the result is the floor of
four fifths of `max_capacity_`, which is what the embedding computes. -/
def target_usage (c : Cache) : Nat := c.max_capacity_ * 4 / 5

/-- The `while` loop of `evict_if_needed`, run for at most `fuel` iterations. -/
def evict_loop : Nat → Cache → Option Cache
  | 0, _ => none
  | fuel + 1, c =>
    if c.current_memory_usage_ > c.target_usage ∧ c.lru_cache_.size > 0 then
      let current_size := c.lru_cache_.size
      if current_size > 1 then
        (c.lru_cache_.set_capacity (current_size - 1)).bind fun l =>
          let estimated_reduction := 50
          evict_loop fuel
            { c with
              lru_cache_ := l
              current_memory_usage_ :=
                if c.current_memory_usage_ > estimated_reduction then
                  c.current_memory_usage_ - estimated_reduction
                else 0 }
      else some c
    else some c

/-- One iteration of the loop of `evict_if_needed` that stays in the loop: the
statements under `if (current_size > 1)`. -/
def evict_step (c : Cache) : Option Cache :=
  let current_size := c.lru_cache_.size
  (c.lru_cache_.set_capacity (current_size - 1)).bind fun l =>
    let estimated_reduction := 50
    some
      { c with
        lru_cache_ := l
        current_memory_usage_ :=
          if c.current_memory_usage_ > estimated_reduction then
            c.current_memory_usage_ - estimated_reduction
          else 0 }

/-- `bool Cache::evict_if_needed()`. An iteration that does not leave the loop
lowers the engine's size, so `size + 1` iterations are enough. -/
def evict_if_needed (c : Cache) : Option (Bool × Cache) :=
  (evict_loop (c.lru_cache_.size + 1) c).map fun c1 =>
    (decide (c1.current_memory_usage_ ≤ c1.target_usage), c1)

/-- `bool Cache::set(const std::string& key, const std::string& value)`;
`now` is the clock reading taken by the `CacheEntry` constructor. -/
def set (sizeof_entry : Nat) (c : Cache) (key value : String) (now : Nat) :
    Option (Bool × Cache) :=
  let entry_size := entry_size sizeof_entry key value
  if entry_size > c.max_capacity_ then some (false, c)
  else
    (if (c.current_memory_usage_ + entry_size) % SIZE_T > c.max_capacity_ then
        c.evict_if_needed
      else some (true, c)).bind fun r =>
      if r.1 = false then some (false, r.2)
      else
        (r.2.lru_cache_.put key ⟨key, value, now, 0⟩).bind fun l =>
          some (true,
            { r.2 with
              lru_cache_ := l
              current_memory_usage_ := (r.2.current_memory_usage_ + entry_size) % SIZE_T })

/-- `void Cache::update_statistics(bool hit)`. -/
def update_statistics (c : Cache) (hit : Bool) : Cache :=
  if hit then { c with hits_ := (c.hits_ + 1) % SIZE_T }
  else { c with misses_ := (c.misses_ + 1) % SIZE_T }

/-- `std::string Cache::get(const std::string& key)`; `now` is the clock
reading stored into the refreshed entry. -/
def get (c : Cache) (key : String) (now : Nat) : Option (String × Cache) :=
  (c.lru_cache_.get key).bind fun r =>
    match r.1 with
    | none => some ("", update_statistics { c with lru_cache_ := r.2 } false)
    | some entry =>
      let value := entry.value
      (r.2.put key
          { entry with
            access_count := (entry.access_count + 1) % SIZE_T
            timestamp := now }).bind fun l =>
        some (value, update_statistics { c with lru_cache_ := l } true)

/-- `bool Cache::remove(const std::string& key)`. -/
def remove (sizeof_entry : Nat) (c : Cache) (key : String) : Option (Bool × Cache) :=
  (c.lru_cache_.get key).bind fun r =>
    match r.1 with
    | none => some (false, { c with lru_cache_ := r.2 })
    | some entry =>
      let entry_size := entry_size sizeof_entry key entry.value
      (r.2.remove key).bind fun q =>
        if q.1 = true then
          some (true,
            { c with
              lru_cache_ := q.2
              current_memory_usage_ :=
                (c.current_memory_usage_ + SIZE_T - entry_size % SIZE_T) % SIZE_T })
        else some (false, { c with lru_cache_ := q.2 })

/-- `void Cache::clear()`. -/
def clear (c : Cache) : Cache :=
  { c with lru_cache_ := c.lru_cache_.clear, current_memory_usage_ := 0 }

/-- `size_t Cache::size() const`. -/
def size (c : Cache) : Nat := c.lru_cache_.size

/-- `size_t Cache::capacity() const`. -/
def capacity (c : Cache) : Nat := c.max_capacity_

/-- `size_t Cache::hits() const`. -/
def hits (c : Cache) : Nat := c.hits_

/-- `size_t Cache::misses() const`. -/
def misses (c : Cache) : Nat := c.misses_

/-- `size_t Cache::memory_usage() const`. -/
def memory_usage (c : Cache) : Nat := c.current_memory_usage_

/-- `void Cache::set_max_capacity(size_t capacity)`. -/
def set_max_capacity (c : Cache) (capacity : Nat) : Option Cache :=
  let c1 := { c with max_capacity_ := capacity }
  if c1.current_memory_usage_ > capacity then
    c1.evict_if_needed.map fun r => r.2
  else some c1

end Cache

/-! ## Abstract view, invariants and reachable states -/

section EngineView

variable {K V : Type} [DecidableEq K]

namespace LRUCache

/-- The recency order as seen by a client: the stored `(key, value)` pairs,
most recently used first. -/
def entries (c : LRUCache K V) : List (K × V) :=
  c.access_order_.map (fun n => (n.first, n.second))

/-- The stored keys, most recently used first. -/
def keys (c : LRUCache K V) : List K :=
  c.access_order_.map (fun n => n.first)

/-- The value stored under `key`, without touching the recency order. -/
def peek (c : LRUCache K V) (key : K) : Option V :=
  (c.access_order_.find? (fun n => n.first = key)).map (fun n => n.second)

/-- Consistency of the index with the recency list: node identities are
pairwise distinct, no key has two nodes, no key has two index entries, and the
index binds `k` to `a` exactly when the node with identity `a` carries key `k`. -/
structure WF (c : LRUCache K V) : Prop where
  addr_nodup : (c.access_order_.map (fun n => n.addr)).Nodup
  key_nodup : (c.access_order_.map (fun n => n.first)).Nodup
  map_nodup : (c.cache_map_.map (fun p => p.1)).Nodup
  map_iff : ∀ k a, (k, a) ∈ c.cache_map_ ↔
    ∃ n, n ∈ c.access_order_ ∧ n.first = k ∧ n.addr = a

/-- One call of a public mutating method of `LRUCache`, with its arguments. -/
inductive Op (K V : Type) where
  | get (key : K)
  | put (key : K) (value : V)
  | remove (key : K)
  | clear
  | set_capacity (capacity : Nat)

/-- Calls that keep the engine's capacity at least one. -/
def Op.valid : Op K V → Prop
  | .set_capacity capacity => 1 ≤ capacity
  | _ => True

/-- The state after one call, when the call has a defined result. -/
def apply (c : LRUCache K V) : Op K V → Option (LRUCache K V)
  | .get key => (c.get key).map (fun r => r.2)
  | .put key value => c.put key value
  | .remove key => (c.remove key).map (fun r => r.2)
  | .clear => some c.clear
  | .set_capacity capacity => c.set_capacity capacity

/-- The state after a sequence of calls, when every call has a defined result. -/
def run (c : LRUCache K V) : List (Op K V) → Option (LRUCache K V)
  | [] => some c
  | op :: ops => (c.apply op).bind fun c1 => run c1 ops

/-- The key that a call accesses successfully in state `c`: the key of a `put`,
and the key of a `get` that finds it in the index. -/
def accessed (c : LRUCache K V) : Op K V → Option K
  | .get key => if (map_find c.cache_map_ key).isSome then some key else none
  | .put key _ => some key
  | _ => none

/-- Bookkeeping that follows the words of the specification, not the source:
runs a sequence of calls, the first at time `t`, and records for every key the
time of its most recent successful `get` or `put`. -/
def track (c : LRUCache K V) (t : Nat) (last : K → Option Nat) :
    List (Op K V) → Option (LRUCache K V × (K → Option Nat))
  | [] => some (c, last)
  | op :: ops =>
    (c.apply op).bind fun c1 =>
      track c1 (t + 1)
        (match c.accessed op with
          | some key => fun k => if k = key then some t else last k
          | none => last) ops

/-- According to the record `last`, key `a` was accessed later than key `b`. -/
def more_recent (last : K → Option Nat) (a b : K) : Prop :=
  ∃ ta tb, last a = some ta ∧ last b = some tb ∧ tb < ta

end LRUCache

end EngineView

namespace Cache

/-- The stored `(key, value)` pairs of the facade, most recently used first. -/
def contents (c : Cache) : List (String × String) :=
  c.lru_cache_.access_order_.map (fun n => (n.first, n.second.value))

/-- Sum over the stored entries of `len(key) + len(value) + sizeof(CacheEntry)`. -/
def stored_bytes (sizeof_entry : Nat) (c : Cache) : Nat :=
  (c.contents.map (fun e => entry_size sizeof_entry e.1 e.2)).sum

/-- One call of a public mutating method of `Cache`, with its arguments. -/
inductive Op where
  | set (key value : String) (now : Nat)
  | get (key : String) (now : Nat)
  | remove (key : String)
  | clear
  | set_max_capacity (capacity : Nat)
deriving DecidableEq, Repr

/-- The state after one call, when the call has a defined result. -/
def apply (sizeof_entry : Nat) (c : Cache) : Op → Option Cache
  | .set key value now => (c.set sizeof_entry key value now).map (fun r => r.2)
  | .get key now => (c.get key now).map (fun r => r.2)
  | .remove key => (c.remove sizeof_entry key).map (fun r => r.2)
  | .clear => some c.clear
  | .set_max_capacity capacity => c.set_max_capacity capacity

/-- Arguments that fit their C++ types: a `size_t` capacity is below `SIZE_T`. -/
def Op.valid : Op → Prop
  | .set_max_capacity capacity => capacity < SIZE_T
  | _ => True

/-- The state after a sequence of calls, when every call has a defined result. -/
def run (sizeof_entry : Nat) (c : Cache) : List Op → Option Cache
  | [] => some c
  | op :: ops => (c.apply sizeof_entry op).bind fun c1 => run sizeof_entry c1 ops

/-- States that a `Cache` constructed with a `size_t` capacity reaches through
calls of its public methods. -/
inductive Reachable (sizeof_entry : Nat) : Cache → Prop where
  | fresh (max_capacity : Nat) (h : max_capacity < SIZE_T) :
      Reachable sizeof_entry (Cache.new max_capacity)
  | step (c c1 : Cache) (op : Op) (hc : Reachable sizeof_entry c) (hv : op.valid)
      (h : c.apply sizeof_entry op = some c1) : Reachable sizeof_entry c1

/-- What every reachable facade state satisfies: the engine is consistent, its
entry limit is at least one and is respected, every stored `CacheEntry` repeats
the key of its node, and the `size_t` members are in range. -/
structure Inv (c : Cache) : Prop where
  wf : c.lru_cache_.WF
  cap_pos : 1 ≤ c.lru_cache_.capacity_
  size_le : c.lru_cache_.access_order_.length ≤ c.lru_cache_.capacity_
  key_eq : ∀ n, n ∈ c.lru_cache_.access_order_ → n.second.key = n.first
  max_lt : c.max_capacity_ < SIZE_T
  usage_lt : c.current_memory_usage_ < SIZE_T

/-- A call that keeps the byte accounting exact: a `set` that is rejected for
its size, or one that writes a key that is not stored, finds fewer than 10000
entries and fits under `max_capacity_` without eviction; a `set_max_capacity`
that does not go below the current usage; any `get`, `remove` or `clear`. -/
def Op.exact (sizeof_entry : Nat) (c : Cache) : Op → Prop
  | .set key value _ =>
    entry_size sizeof_entry key value > c.max_capacity_ ∨
      (key ∉ c.lru_cache_.keys ∧ c.lru_cache_.size < 10000 ∧
        c.current_memory_usage_ + entry_size sizeof_entry key value ≤ c.max_capacity_)
  | .set_max_capacity capacity => c.current_memory_usage_ ≤ capacity
  | _ => True

/-- States reached from a fresh `Cache` through calls that all keep the byte
accounting exact. -/
inductive ExactReachable (sizeof_entry : Nat) : Cache → Prop where
  | fresh (max_capacity : Nat) (h : max_capacity < SIZE_T) :
      ExactReachable sizeof_entry (Cache.new max_capacity)
  | step (c c1 : Cache) (op : Op) (hc : ExactReachable sizeof_entry c) (hv : op.valid)
      (hq : op.exact sizeof_entry c) (h : c.apply sizeof_entry op = some c1) :
      ExactReachable sizeof_entry c1

/-- The calls `set(key, value)` for the triples `(key, value, clock reading)` of
a list, in order. The flag is true when every call returned true. -/
def set_all (sizeof_entry : Nat) (c : Cache) :
    List (String × String × Nat) → Option (Bool × Cache)
  | [] => some (true, c)
  | w :: ws =>
    (c.set sizeof_entry w.1 w.2.1 w.2.2).bind fun r =>
      (set_all sizeof_entry r.2 ws).map fun q => (r.1 && q.1, q.2)

/-- Sum of the entry sizes of a list of writes. -/
def total_size (sizeof_entry : Nat) (ws : List (String × String × Nat)) : Nat :=
  (ws.map (fun w => entry_size sizeof_entry w.1 w.2.1)).sum

/-- A sequence of `n` writes with pairwise distinct keys: the keys are `n`, then
`n - 1`, ..., then 1 letters `k` long, each written with the value `"v"`. -/
def many_writes : Nat → List (String × String × Nat)
  | 0 => []
  | n + 1 => (String.mk (List.replicate (n + 1) 'k'), "v", 0) :: many_writes n

/-- The number of `get` calls in a sequence of calls. -/
def get_count (ops : List Op) : Nat :=
  ops.countP fun op =>
    match op with
    | .get _ _ => true
    | _ => false

/-- The `entry_size` that a call hands to the byte accounting: that of the
entry for a `set`, nothing for the other calls. -/
def Op.written (sizeof_entry : Nat) : Op → Nat
  | .set key value _ => entry_size sizeof_entry key value
  | _ => 0

/-- Sum of the entry sizes of all the `set` calls of a sequence. -/
def written_bytes (sizeof_entry : Nat) (ops : List Op) : Nat :=
  (ops.map (Op.written sizeof_entry)).sum

end Cache

/-! ## `Protocol` (include/protocol.h, src/protocol.cpp) -/

namespace Protocol

/-- `enum class Command`. -/
inductive Command where
  | SET
  | GET
  | DELETE
  | CLEAR
  | STATS
  | UNKNOWN
deriving DecidableEq, Repr

/-- `struct Request`. -/
structure Request where
  command : Command
  key : String
  value : String
  valid : Bool
deriving DecidableEq, Repr

/-- `struct Response`. -/
structure Response where
  success : Bool
  message : String
  data : String
deriving DecidableEq, Repr

/-- The loop `while (std::getline(ss, token, delimiter)) if (!token.empty())
tokens.push_back(token);` of `split`, character by character: `token` holds the
characters that the running `getline` has extracted so far. A delimiter ends the
token, the end of the input ends it too, and empty tokens are not pushed. -/
def split_loop (delimiter : Char) : List Char → List Char → List String
  | [], token => if token = [] then [] else [String.mk token]
  | c :: rest, token =>
    if c = delimiter then
      if token = [] then split_loop delimiter rest []
      else String.mk token :: split_loop delimiter rest []
    else split_loop delimiter rest (token ++ [c])

/-- `std::vector<std::string> Protocol::split(const std::string& str, char delimiter)`. -/
def split (str : String) (delimiter : Char) : List String :=
  split_loop delimiter str.data []

/-- `Command Protocol::parse_command(const std::string& cmd)`: `::toupper` maps
`a..z` to `A..Z` and leaves every other character alone. -/
def parse_command (cmd : String) : Command :=
  let upper_cmd := String.mk (cmd.data.map Char.toUpper)
  if upper_cmd = "SET" then Command.SET
  else if upper_cmd = "GET" then Command.GET
  else if upper_cmd = "DELETE" then Command.DELETE
  else if upper_cmd = "CLEAR" then Command.CLEAR
  else if upper_cmd = "STATS" then Command.STATS
  else Command.UNKNOWN

/-- The loop of `parse_request` that streams the remaining parts into
`value_stream`, a space before every part but the first; `acc` is the stream. -/
def join_loop (acc : String) : List String → String
  | [] => acc
  | part :: parts => join_loop (acc ++ " " ++ part) parts

/-- The value of a `SET`: `parts[2]`, `parts[3]`, ... joined with single spaces. -/
def join_value : List String → String
  | [] => ""
  | part :: parts => join_loop part parts

/-- `Request Protocol::parse_request(const std::string& request)`. The source
leaves `req.command` uninitialised when there are no parts; it is never read
then, and the embedding puts `UNKNOWN` there. -/
def parse_request (request : String) : Request :=
  let parts := split request ' '
  if parts = [] then { command := Command.UNKNOWN, key := "", value := "", valid := false }
  else
    let command := parse_command (parts.getD 0 "")
    match command with
    | Command.SET =>
      if parts.length ≥ 3 then
        { command := command, key := parts.getD 1 "", value := join_value (parts.drop 2),
          valid := true }
      else { command := command, key := "", value := "", valid := false }
    | Command.GET | Command.DELETE =>
      if parts.length ≥ 2 then
        { command := command, key := parts.getD 1 "", value := "", valid := true }
      else { command := command, key := "", value := "", valid := false }
    | Command.CLEAR | Command.STATS =>
      { command := command, key := "", value := "", valid := true }
    | Command.UNKNOWN => { command := command, key := "", value := "", valid := false }

/-- `std::string Protocol::format_response(const Response& response)`. -/
def format_response (response : Response) : String :=
  if response.success then
    "OK" ++ (if response.data ≠ "" then " " ++ response.data else "") ++
      (if response.message ≠ "" then " " ++ response.message else "")
  else "ERROR " ++ response.message

/-- `std::string Protocol::format_error(const std::string& error)`. -/
def format_error (error : String) : String := "ERROR " ++ error

/-- `std::string Protocol::format_success(const std::string& data)`. -/
def format_success (data : String) : String :=
  if data = "" then "OK" else "OK " ++ data

/-- Follows the words of the specification, not the source: the non-empty
maximal space-free pieces of a line, in order. -/
def spec_tokens (line : String) : List String :=
  ((line.data.splitOn ' ').filter (fun t => t ≠ [])).map String.mk

/-- Follows the words of the specification, not the source: `token` is `word`,
a word in capital letters, with the case of some of its letters changed. -/
def case_variant (token word : String) : Prop :=
  List.Forall₂ (fun c u => c = u ∨ c = u.toLower) token.data word.data

instance (token word : String) : Decidable (case_variant token word) := by
  unfold case_variant
  infer_instance

end Protocol

/-! ## `TCPServer` (include/tcp_server.h, src/tcp_server.cpp) -/

/-- The members of `cache::TCPServer` that `parse_and_execute` reads or writes.
`total_response_time_` accumulates whole microseconds. -/
structure TCPServer where
  cache_ : Cache
  connections_handled_ : Nat
  requests_processed_ : Nat
  total_response_time_ : Nat
deriving DecidableEq, Repr

namespace TCPServer

/-- `TCPServer::TCPServer`: the cache is `std::make_unique<Cache>()`, with the
default capacity of 1 GiB; the counters start at zero. -/
def new : TCPServer :=
  { cache_ := Cache.new (1024 * 1024 * 1024)
    connections_handled_ := 0
    requests_processed_ := 0
    total_response_time_ := 0 }

/-- The payload of `STATS`. The two `double` values, `hit_ratio()` and
`average_response_time()`, are quotients of two counters, or `0.0` when the
divisor is zero; `show_double a b` stands for the text that `operator<<` prints
for the quotient of `a` by `b`. -/
def stats_line (show_double : Nat → Nat → String) (s : TCPServer) : String :=
  "size=" ++ toString s.cache_.size ++
    " hits=" ++ toString s.cache_.hits ++
    " misses=" ++ toString s.cache_.misses ++
    " hit_ratio=" ++ show_double s.cache_.hits ((s.cache_.hits + s.cache_.misses) % SIZE_T) ++
    " memory_usage=" ++ toString s.cache_.memory_usage ++
    " connections=" ++ toString s.connections_handled_ ++
    " requests=" ++ toString s.requests_processed_ ++
    " avg_response_time=" ++ show_double s.total_response_time_ s.requests_processed_ ++
    "μs"

/-- `std::string TCPServer::parse_and_execute(const std::string& command)`;
`now` is the clock reading that `Cache::set` or `Cache::get` takes. -/
def parse_and_execute (sizeof_entry : Nat) (show_double : Nat → Nat → String) (now : Nat)
    (s : TCPServer) (command : String) : Option (String × TCPServer) :=
  let req := Protocol.parse_request command
  if req.valid = false then some (Protocol.format_error "Invalid command", s)
  else
    match req.command with
    | Protocol.Command.SET =>
      (s.cache_.set sizeof_entry req.key req.value now).map fun r =>
        (if r.1 = true then Protocol.format_success ""
          else Protocol.format_error "Failed to set value", { s with cache_ := r.2 })
    | Protocol.Command.GET =>
      (s.cache_.get req.key now).map fun r =>
        (if r.1 = "" then Protocol.format_error "NOT_FOUND"
          else Protocol.format_success r.1, { s with cache_ := r.2 })
    | Protocol.Command.DELETE =>
      (s.cache_.remove sizeof_entry req.key).map fun r =>
        (if r.1 = true then Protocol.format_success ""
          else Protocol.format_error "NOT_FOUND", { s with cache_ := r.2 })
    | Protocol.Command.CLEAR =>
      some (Protocol.format_success "", { s with cache_ := s.cache_.clear })
    | Protocol.Command.STATS => some (Protocol.format_success (stats_line show_double s), s)
    | Protocol.Command.UNKNOWN => some (Protocol.format_error "Unknown command", s)

/-- The requests of a list handed to `parse_and_execute` one after the other,
each with the clock reading paired with it; the result lists the responses. -/
def execute_all (sizeof_entry : Nat) (show_double : Nat → Nat → String) (s : TCPServer) :
    List (String × Nat) → Option (List String × TCPServer)
  | [] => some ([], s)
  | request :: rest =>
    (parse_and_execute sizeof_entry show_double request.2 s request.1).bind fun r =>
      (execute_all sizeof_entry show_double r.2 rest).map fun q => (r.1 :: q.1, q.2)

end TCPServer

/-! ## `ThreadPool` (include/thread_pool.h) -/

/-- The members of `cache::ThreadPool` that `enqueue` reads or writes: the FIFO
queue `tasks_`, front first, and the flag `stop_`. `Task` stands for the
type-erased closures `std::function<void()>`. -/
structure ThreadPool (Task : Type) where
  tasks_ : List Task
  stop_ : Bool

namespace ThreadPool

/-- The block of `ThreadPool::enqueue` that runs under `queue_mutex_`: it throws
`std::runtime_error` when `stop_` is set and otherwise emplaces the task at the
back of `tasks_`. The result pairs the outcome with the state of the pool
afterwards. -/
def enqueue {Task : Type} (p : ThreadPool Task) (task : Task) :
    Except String Unit × ThreadPool Task :=
  if p.stop_ then (Except.error "enqueue on stopped ThreadPool", p)
  else (Except.ok (), { p with tasks_ := p.tasks_ ++ [task] })

end ThreadPool

/-! ## `MemoryAllocator` (include/memory_allocator.h, src/memory_allocator.cpp) -/

/-- `struct MemoryAllocator::Block`; `ptr` is the address as a number. -/
structure Block where
  ptr : Nat
  size : Nat
  in_use : Bool
deriving DecidableEq, Repr

/-- State of `cache::MemoryAllocator`; `pools_` lists the addresses of the
arrays it owns. -/
structure MemoryAllocator where
  pools_ : List Nat
  blocks_ : List Block
  allocated_bytes_ : Nat
  allocation_count_ : Nat
  pool_size_ : Nat
  current_pool_offset_ : Nat
deriving DecidableEq, Repr

namespace MemoryAllocator

/-- `void MemoryAllocator::allocate_new_pool()`; `base i` is the address that
`std::make_unique<char[]>` returns for the pool created as number `i`. -/
def allocate_new_pool (base : Nat → Nat) (a : MemoryAllocator) : MemoryAllocator :=
  { a with pools_ := a.pools_ ++ [base a.pools_.length], current_pool_offset_ := 0 }

/-- `MemoryAllocator::MemoryAllocator(size_t pool_size)`. -/
def new (base : Nat → Nat) (pool_size : Nat) : MemoryAllocator :=
  allocate_new_pool base
    { pools_ := []
      blocks_ := []
      allocated_bytes_ := 0
      allocation_count_ := 0
      pool_size_ := pool_size
      current_pool_offset_ := 0 }

/-- `Block* MemoryAllocator::find_free_block(size_t size)`: the position of the
first block that is not in use and large enough. -/
def find_free_block (a : MemoryAllocator) (size : Nat) : Option Nat :=
  a.blocks_.findIdx? fun block => !block.in_use && decide (block.size ≥ size)

/-- The assignment `in_use = value` to the block at position `i`. -/
def set_in_use (value : Bool) : List Block → Nat → List Block
  | [], _ => []
  | block :: blocks, 0 => { block with in_use := value } :: blocks
  | block :: blocks, i + 1 => block :: set_in_use value blocks i

/-- The inner `while` of `merge_adjacent_blocks`: the blocks that follow `it`
are merged into it while they are free and start where it ends. -/
def merge_next (it : Block) : List Block → Block × List Block
  | [] => (it, [])
  | next :: blocks =>
    if next.in_use = false ∧ it.ptr + it.size = next.ptr then
      merge_next { it with size := (it.size + next.size) % SIZE_T } blocks
    else (it, next :: blocks)

/-- The outer `for` of `merge_adjacent_blocks`, for at most `fuel` blocks. -/
def merge_loop : Nat → List Block → List Block
  | 0, blocks => blocks
  | _ + 1, [] => []
  | fuel + 1, it :: blocks =>
    if it.in_use = false then
      (merge_next it blocks).1 :: merge_loop fuel (merge_next it blocks).2
    else it :: merge_loop fuel blocks

/-- `void MemoryAllocator::merge_adjacent_blocks()`: sort by address, then
merge. The order that `std::sort` gives to blocks of equal address is not
specified; the embedding keeps them in their previous order. -/
def merge_adjacent_blocks (a : MemoryAllocator) : MemoryAllocator :=
  let sorted := a.blocks_.insertionSort (fun x y => x.ptr ≤ y.ptr)
  { a with blocks_ := merge_loop sorted.length sorted }

/-- `void* MemoryAllocator::allocate(size_t size)`; the result pairs the
returned address with the state afterwards. -/
def allocate (base : Nat → Nat) (a : MemoryAllocator) (size : Nat) : Nat × MemoryAllocator :=
  let original_size := size
  let size := (size + 7) % SIZE_T / 8 * 8
  match a.find_free_block size with
  | some i =>
    ((a.blocks_.getD i ⟨0, 0, false⟩).ptr,
      { a with
        blocks_ := set_in_use true a.blocks_ i
        allocated_bytes_ := (a.allocated_bytes_ + original_size) % SIZE_T
        allocation_count_ := (a.allocation_count_ + 1) % SIZE_T })
  | none =>
    let a1 := if (a.current_pool_offset_ + size) % SIZE_T > a.pool_size_ then
      allocate_new_pool base a else a
    let ptr := a1.pools_.getLastD 0 + a1.current_pool_offset_
    (ptr,
      { a1 with
        current_pool_offset_ := (a1.current_pool_offset_ + size) % SIZE_T
        blocks_ := a1.blocks_ ++ [⟨ptr, size, true⟩]
        allocated_bytes_ := (a1.allocated_bytes_ + original_size) % SIZE_T
        allocation_count_ := (a1.allocation_count_ + 1) % SIZE_T })

/-- `void MemoryAllocator::deallocate(void* ptr, size_t size)`; address 0 is the
null pointer. -/
def deallocate (a : MemoryAllocator) (ptr size : Nat) : MemoryAllocator :=
  if ptr = 0 then a
  else
    match a.blocks_.findIdx? (fun block => decide (block.ptr = ptr)) with
    | some i =>
      merge_adjacent_blocks
        { a with
          blocks_ := set_in_use false a.blocks_ i
          allocated_bytes_ := (a.allocated_bytes_ + SIZE_T - size % SIZE_T) % SIZE_T }
    | none => a

/-- `size_t MemoryAllocator::total_bytes() const`. -/
def total_bytes (a : MemoryAllocator) : Nat := (a.pools_.length * a.pool_size_) % SIZE_T

/-- The loop of `fragmentation_ratio` that sums the sizes of the blocks that are
not in use. -/
def free_bytes (a : MemoryAllocator) : Nat :=
  a.blocks_.foldl (fun sum block => if block.in_use then sum else (sum + block.size) % SIZE_T) 0

/-- `double MemoryAllocator::fragmentation_ratio() const`, as the pair of
numbers whose quotient is returned: `(0, 1)` for `0.0`, and `free_bytes` over
`total_bytes` otherwise. -/
def fragmentation_ratio (a : MemoryAllocator) : Nat × Nat :=
  if a.total_bytes = 0 then (0, 1) else (a.free_bytes, a.total_bytes)

end MemoryAllocator

/-! # Theorems -/

set_option linter.unusedSectionVars false

section EngineLemmas

variable {K V : Type}

theorem list_deref_of_mem (l : List (ListNode K V))
    (hl : (l.map (fun n => n.addr)).Nodup) (n : ListNode K V) (h : n ∈ l) :
    list_deref l n.addr = some n := by
  unfold list_deref
  induction l with
  | nil => simp at h
  | cons x l ih =>
    simp only [List.map_cons, List.nodup_cons] at hl
    by_cases hx : x.addr = n.addr
    · rcases List.mem_cons.1 h with h | h
      · simp [List.find?_cons, h]
      · exact absurd (hx ▸ List.mem_map_of_mem (fun n => n.addr) h) hl.1
    · have h' : n ∈ l := by
        rcases List.mem_cons.1 h with h | h
        · exact absurd (congrArg ListNode.addr h).symm hx
        · exact h
      simpa [List.find?_cons, hx] using ih hl.2 h'


variable [DecidableEq K]

theorem map_find_eq_none_iff (m : List (K × Nat)) (key : K) :
    map_find m key = none ↔ ∀ a, (key, a) ∉ m := by
  unfold map_find
  induction m with
  | nil => simp
  | cons p m ih =>
    obtain ⟨k, a⟩ := p
    by_cases h : k = key
    · subst h
      constructor
      · intro e
        simp [List.find?_cons] at e
      · intro e
        exact absurd (List.mem_cons_self _ _) (e a)
    · have h2 : ¬ key = k := fun e => h e.symm
      simp [List.find?_cons, h, h2] at ih ⊢
      exact ih

theorem map_find_of_mem (m : List (K × Nat)) (hm : (m.map (fun p => p.1)).Nodup)
    (key : K) (a : Nat) (h : (key, a) ∈ m) : map_find m key = some a := by
  unfold map_find
  induction m with
  | nil => simp at h
  | cons p m ih =>
    obtain ⟨k, b⟩ := p
    simp only [List.map_cons, List.nodup_cons] at hm
    by_cases hk : k = key
    · subst hk
      simp only [List.mem_cons, Prod.mk.injEq, true_and] at h
      rcases h with h | h
      · simp [List.find?_cons, h]
      · exact absurd (List.mem_map_of_mem (fun p => p.1) h) hm.1
    · have h' : (key, a) ∈ m := by
        rcases List.mem_cons.1 h with h | h
        · exact absurd (congrArg Prod.fst h).symm hk
        · exact h
      simpa [List.find?_cons, hk] using ih hm.2 h'

theorem map_find_mem (m : List (K × Nat)) (key : K) (a : Nat)
    (h : map_find m key = some a) : (key, a) ∈ m := by
  unfold map_find at h
  induction m with
  | nil => simp at h
  | cons p m ih =>
    obtain ⟨k, b⟩ := p
    by_cases hk : k = key
    · subst hk
      simp [List.find?_cons] at h
      simp [h]
    · simp only [List.find?_cons, hk, decide_False] at h
      exact List.mem_cons_of_mem _ (ih h)

theorem list_erase_eq_filter_first (l : List (ListNode K V))
    (ha : (l.map (fun n => n.addr)).Nodup) (hk : (l.map (fun n => n.first)).Nodup)
    (n : ListNode K V) (h : n ∈ l) :
    list_erase l n.addr = l.filter (fun x => x.first ≠ n.first) := by
  unfold list_erase
  apply List.filter_congr
  intro x hx
  have key : x.addr = n.addr ↔ x.first = n.first := by
    constructor
    · intro e
      have := List.inj_on_of_nodup_map ha hx h e
      rw [this]
    · intro e
      have := List.inj_on_of_nodup_map hk hx h e
      rw [this]
  by_cases e : x.addr = n.addr
  · simp [e, key.1 e]
  · have e2 : ¬ x.first = n.first := fun q => e (key.2 q)
    simp [e, e2]

end EngineLemmas

section EngineInvariant

variable {K V : Type}

theorem list_fresh_gt (l : List (ListNode K V)) (n : ListNode K V) (h : n ∈ l) :
    n.addr < list_fresh l := by
  unfold list_fresh
  induction l with
  | nil => simp at h
  | cons x l ih =>
    simp only [List.map_cons, List.foldr_cons]
    rcases List.mem_cons.1 h with h | h
    · subst h
      omega
    · have := ih h
      omega

theorem dropLast_eq_filter_first (l : List (ListNode K V)) [DecidableEq K]
    (hk : (l.map (fun n => n.first)).Nodup) (x : ListNode K V)
    (hx : l.getLast? = some x) :
    l.dropLast = l.filter (fun n => n.first ≠ x.first) := by
  obtain ⟨ys, rfl⟩ := List.getLast?_eq_some_iff.1 hx
  rw [List.dropLast_concat, List.filter_append]
  rw [List.map_append, List.nodup_append] at hk
  have h1 : ys.filter (fun n => n.first ≠ x.first) = ys := by
    rw [List.filter_eq_self]
    intro a ha
    have : a.first ≠ x.first := by
      intro e
      exact hk.2.2 (List.mem_map_of_mem (fun n => n.first) ha) (by simp [e])
    simp [this]
  rw [h1]
  simp

variable [DecidableEq K]

namespace LRUCache

theorem WF.find_of_mem {c : LRUCache K V} (h : c.WF) {n : ListNode K V}
    (hn : n ∈ c.access_order_) : map_find c.cache_map_ n.first = some n.addr :=
  map_find_of_mem _ h.map_nodup _ _ ((h.map_iff _ _).2 ⟨n, hn, rfl, rfl⟩)

theorem WF.find_none {c : LRUCache K V} (h : c.WF) {k : K} (hk : k ∉ c.keys) :
    map_find c.cache_map_ k = none := by
  rw [map_find_eq_none_iff]
  intro a ha
  obtain ⟨n, hn, rfl, _⟩ := (h.map_iff _ _).1 ha
  exact hk (List.mem_map_of_mem _ hn)

theorem WF.size_eq {c : LRUCache K V} (h : c.WF) :
    c.cache_map_.length = c.access_order_.length := by
  have h1 : c.cache_map_.Nodup := List.Nodup.of_map _ h.map_nodup
  have h2 : (c.access_order_.map (fun n => (n.first, n.addr))).Nodup := by
    apply List.Nodup.of_map Prod.fst
    simpa [List.map_map, Function.comp_def] using h.key_nodup
  have h3 := (List.perm_ext_iff_of_nodup h1 h2).2 (by
    rintro ⟨k, a⟩
    rw [h.map_iff]
    simp only [List.mem_map, Prod.mk.injEq])
  simpa using h3.length_eq

theorem WF_new (capacity : Nat) : (LRUCache.new capacity : LRUCache K V).WF :=
  ⟨by simp [LRUCache.new], by simp [LRUCache.new], by simp [LRUCache.new],
    by simp [LRUCache.new]⟩

theorem WF_clear (c : LRUCache K V) : c.clear.WF :=
  ⟨by simp [LRUCache.clear], by simp [LRUCache.clear], by simp [LRUCache.clear],
    by simp [LRUCache.clear]⟩

/-- Moving a live node to the head, possibly with a new value, keeps the
engine consistent. -/
theorem WF_touch {c : LRUCache K V} (h : c.WF) {n : ListNode K V}
    (hn : n ∈ c.access_order_) (v : V) :
    WF { c with access_order_ :=
      { n with second := v } :: c.access_order_.filter (fun x => x.first ≠ n.first) } := by
  have hmem : ∀ x, x ∈ c.access_order_.filter (fun x => x.first ≠ n.first) ↔
      x ∈ c.access_order_ ∧ x.first ≠ n.first := by
    intro x; simp [List.mem_filter]
  have haddr : ∀ x, x ∈ c.access_order_ → x.first ≠ n.first → x.addr ≠ n.addr := by
    intro x hx hne e
    exact hne (congrArg ListNode.first (List.inj_on_of_nodup_map h.addr_nodup hx hn e))
  refine ⟨?_, ?_, h.map_nodup, ?_⟩
  · simp only [List.map_cons, List.nodup_cons]
    refine ⟨?_, (h.addr_nodup.sublist ((List.filter_sublist _).map _))⟩
    intro hm
    obtain ⟨x, hx, e⟩ := List.mem_map.1 hm
    exact haddr x ((hmem x).1 hx).1 ((hmem x).1 hx).2 e
  · simp only [List.map_cons, List.nodup_cons]
    refine ⟨?_, (h.key_nodup.sublist ((List.filter_sublist _).map _))⟩
    intro hm
    obtain ⟨x, hx, e⟩ := List.mem_map.1 hm
    exact ((hmem x).1 hx).2 e
  · intro k a
    rw [h.map_iff]
    constructor
    · rintro ⟨x, hx, rfl, rfl⟩
      by_cases e : x.first = n.first
      · have : x = n := List.inj_on_of_nodup_map h.key_nodup hx hn e
        subst this
        exact ⟨{ x with second := v }, List.mem_cons_self _ _, rfl, rfl⟩
      · exact ⟨x, List.mem_cons_of_mem _ ((hmem x).2 ⟨hx, e⟩), rfl, rfl⟩
    · rintro ⟨x, hx, rfl, rfl⟩
      rcases List.mem_cons.1 hx with hx | hx
      · subst hx
        exact ⟨n, hn, rfl, rfl⟩
      · exact ⟨x, ((hmem x).1 hx).1, rfl, rfl⟩

/-- Unlinking the node of a key and erasing the key from the index keeps the
engine consistent. -/
theorem WF_erase_key {c : LRUCache K V} (h : c.WF) (k : K) :
    WF { c with
      access_order_ := c.access_order_.filter (fun x => x.first ≠ k)
      cache_map_ := map_erase c.cache_map_ k } := by
  refine ⟨h.addr_nodup.sublist ((List.filter_sublist _).map _),
    h.key_nodup.sublist ((List.filter_sublist _).map _),
    h.map_nodup.sublist ((List.filter_sublist _).map _), ?_⟩
  intro k1 a
  simp only [map_erase, List.mem_filter, h.map_iff]
  constructor
  · rintro ⟨⟨x, hx, rfl, rfl⟩, hne⟩
    exact ⟨x, ⟨hx, by simpa using hne⟩, rfl, rfl⟩
  · rintro ⟨x, ⟨hx, hne⟩, rfl, rfl⟩
    exact ⟨⟨x, hx, rfl, rfl⟩, by simpa using hne⟩

/-- Linking a new node for an absent key at the head and binding the key to it
keeps the engine consistent. -/
theorem WF_insert {c : LRUCache K V} (h : c.WF) {k : K} (hk : k ∉ c.keys) (v : V) :
    WF { c with
      access_order_ := ⟨list_fresh c.access_order_, k, v⟩ :: c.access_order_
      cache_map_ := (k, list_fresh c.access_order_) :: c.cache_map_ } := by
  refine ⟨?_, ?_, ?_, ?_⟩
  · simp only [List.map_cons, List.nodup_cons]
    refine ⟨?_, h.addr_nodup⟩
    intro hm
    obtain ⟨x, hx, e⟩ := List.mem_map.1 hm
    have := list_fresh_gt _ x hx
    omega
  · simp only [List.map_cons, List.nodup_cons]
    exact ⟨hk, h.key_nodup⟩
  · simp only [List.map_cons, List.nodup_cons]
    refine ⟨?_, h.map_nodup⟩
    intro hm
    obtain ⟨⟨k1, a⟩, hp, e⟩ := List.mem_map.1 hm
    simp only at e
    subst e
    obtain ⟨x, hx, e1, _⟩ := (h.map_iff _ _).1 hp
    exact hk (e1 ▸ List.mem_map_of_mem _ hx)
  · intro k1 a
    simp only [List.mem_cons, Prod.mk.injEq, h.map_iff]
    constructor
    · rintro (⟨rfl, rfl⟩ | ⟨x, hx, rfl, rfl⟩)
      · exact ⟨_, Or.inl rfl, rfl, rfl⟩
      · exact ⟨x, Or.inr hx, rfl, rfl⟩
    · rintro ⟨x, hx | hx, rfl, rfl⟩
      · subst hx
        exact Or.inl ⟨rfl, rfl⟩
      · exact Or.inr ⟨x, hx, rfl, rfl⟩

end LRUCache

end EngineInvariant

section EngineOps

variable {K V : Type} [DecidableEq K]

namespace LRUCache

theorem get_miss {c : LRUCache K V} (h : c.WF) {k : K} (hk : k ∉ c.keys) :
    c.get k = some (none, c) := by
  simp [LRUCache.get, h.find_none hk]

theorem get_hit {c : LRUCache K V} (h : c.WF) {n : ListNode K V}
    (hn : n ∈ c.access_order_) :
    c.get n.first = some (some n.second,
      { c with access_order_ := n :: c.access_order_.filter (fun x => x.first ≠ n.first) }) := by
  simp only [LRUCache.get, h.find_of_mem hn, list_deref_of_mem _ h.addr_nodup n hn,
    list_erase_eq_filter_first _ h.addr_nodup h.key_nodup n hn]

theorem put_hit {c : LRUCache K V} (h : c.WF) {n : ListNode K V}
    (hn : n ∈ c.access_order_) (v : V) :
    c.put n.first v = some
      { c with access_order_ :=
        { n with second := v } :: c.access_order_.filter (fun x => x.first ≠ n.first) } := by
  simp only [LRUCache.put, h.find_of_mem hn, list_deref_of_mem _ h.addr_nodup n hn,
    list_erase_eq_filter_first _ h.addr_nodup h.key_nodup n hn]

theorem erase_lru_eq {c : LRUCache K V} (h : c.WF) {x : ListNode K V}
    (hx : c.access_order_.getLast? = some x) :
    c.erase_lru = some
      { c with
        access_order_ := c.access_order_.filter (fun n => n.first ≠ x.first)
        cache_map_ := map_erase c.cache_map_ x.first } := by
  simp only [LRUCache.erase_lru, hx, dropLast_eq_filter_first _ h.key_nodup x hx]

theorem erase_lru_spec {c : LRUCache K V} (h : c.WF) (hne : c.access_order_ ≠ []) :
    ∃ c1, c.erase_lru = some c1 ∧ c1.WF ∧ c1.capacity_ = c.capacity_ ∧
      c1.access_order_ = c.access_order_.dropLast := by
  cases hx : c.access_order_.getLast? with
  | none => exact absurd (List.getLast?_eq_none_iff.1 hx) hne
  | some x =>
    refine ⟨_, erase_lru_eq h hx, WF_erase_key h x.first, rfl, ?_⟩
    exact (dropLast_eq_filter_first _ h.key_nodup x hx).symm

theorem put_miss {c : LRUCache K V} (h : c.WF) {k : K} (hk : k ∉ c.keys) (v : V)
    (hcap : 1 ≤ c.capacity_) :
    ∃ a c1, c.put k v = some c1 ∧ c1.WF ∧ c1.capacity_ = c.capacity_ ∧
      c1.access_order_ = ⟨a, k, v⟩ ::
        (if c.capacity_ ≤ c.access_order_.length then c.access_order_.dropLast
         else c.access_order_) := by
  by_cases hfull : c.capacity_ ≤ c.access_order_.length
  · have hne : c.access_order_ ≠ [] := by
      intro e; rw [e] at hfull; simp at hfull; omega
    obtain ⟨c1, e1, w1, cap1, l1⟩ := erase_lru_spec h hne
    have hk1 : k ∉ c1.keys := by
      intro hm
      apply hk
      unfold LRUCache.keys at hm ⊢
      rw [l1] at hm
      exact ((List.dropLast_sublist _).map _).subset hm
    refine ⟨list_fresh c1.access_order_, _, ?_, WF_insert w1 hk1 v, ?_, ?_⟩
    · simp only [LRUCache.put, h.find_none hk, h.size_eq, ge_iff_le, hfull, if_true, e1,
        Option.some_bind, map_assign, w1.find_none hk1]
    · exact cap1
    · simp [hfull, l1]
  · refine ⟨list_fresh c.access_order_, _, ?_, WF_insert h hk v, rfl, ?_⟩
    · simp only [LRUCache.put, h.find_none hk, h.size_eq, ge_iff_le, hfull, if_false,
        Option.some_bind, map_assign]
    · simp [hfull]

theorem remove_miss {c : LRUCache K V} (h : c.WF) {k : K} (hk : k ∉ c.keys) :
    c.remove k = some (false, c) := by
  simp [LRUCache.remove, h.find_none hk]

theorem remove_hit {c : LRUCache K V} (h : c.WF) {n : ListNode K V}
    (hn : n ∈ c.access_order_) :
    c.remove n.first = some (true,
      { c with
        access_order_ := c.access_order_.filter (fun x => x.first ≠ n.first)
        cache_map_ := map_erase c.cache_map_ n.first }) := by
  simp only [LRUCache.remove, h.find_of_mem hn, list_deref_of_mem _ h.addr_nodup n hn,
    list_erase_eq_filter_first _ h.addr_nodup h.key_nodup n hn]

theorem set_capacity_loop_spec (fuel : Nat) :
    ∀ c : LRUCache K V, c.WF → c.access_order_.length < fuel →
      ∃ c1, set_capacity_loop fuel c = some c1 ∧ c1.WF ∧ c1.capacity_ = c.capacity_ ∧
        c1.access_order_ = c.access_order_.take c.capacity_ := by
  induction fuel with
  | zero => intro c _ hlt; omega
  | succ fuel ih =>
    intro c h hlt
    by_cases hgt : c.cache_map_.length > c.capacity_
    · have hlen := h.size_eq
      have hne : c.access_order_ ≠ [] := by
        intro e
        have : c.access_order_.length = 0 := by rw [e]; rfl
        omega
      obtain ⟨c1, e1, w1, cap1, l1⟩ := erase_lru_spec h hne
      have hlt1 : c1.access_order_.length < fuel := by
        rw [l1, List.length_dropLast]
        have : 0 < c.access_order_.length := List.length_pos.2 hne
        omega
      obtain ⟨c2, e2, w2, cap2, l2⟩ := ih c1 w1 hlt1
      refine ⟨c2, ?_, w2, by rw [cap2, cap1], ?_⟩
      · simp only [set_capacity_loop, hgt, if_true, e1, Option.some_bind, e2]
      · rw [l2, l1, cap1, List.dropLast_eq_take, List.take_take]
        congr 1
        omega
    · refine ⟨c, ?_, h, rfl, ?_⟩
      · simp only [set_capacity_loop, hgt, if_false]
      · rw [List.take_of_length_le]
        rw [← h.size_eq]; omega

theorem set_capacity_spec {c : LRUCache K V} (h : c.WF) (capacity : Nat) :
    ∃ c1, c.set_capacity capacity = some c1 ∧ c1.WF ∧ c1.capacity_ = capacity ∧
      c1.access_order_ = c.access_order_.take capacity := by
  have hw : WF { c with capacity_ := capacity } := ⟨h.1, h.2, h.3, h.4⟩
  exact set_capacity_loop_spec _ _ hw (Nat.lt_succ_self _)

end LRUCache

end EngineOps

namespace Cache

theorem Inv_new (max_capacity : Nat) (h : max_capacity < SIZE_T) :
    (Cache.new max_capacity).Inv :=
  ⟨LRUCache.WF_new _, by simp [Cache.new, LRUCache.new], by simp [Cache.new, LRUCache.new],
    by simp [Cache.new, LRUCache.new], h, by simp [Cache.new, SIZE_T]⟩

theorem Inv_clear {c : Cache} (h : c.Inv) : c.clear.Inv :=
  ⟨LRUCache.WF_clear _, h.cap_pos, by simp [Cache.clear, LRUCache.clear],
    by simp [Cache.clear, LRUCache.clear], h.max_lt, by simp [Cache.clear, SIZE_T]⟩

theorem Inv.lru_size_eq {c : Cache} (h : c.Inv) :
    c.lru_cache_.size = c.lru_cache_.access_order_.length := h.wf.size_eq

/-- The eviction loop finishes on every consistent state: it keeps a non-empty
prefix of the recency list, never raises the memory counter, and stops either
at the low-water mark or with at most one entry left. -/
theorem evict_loop_spec (fuel : Nat) :
    ∀ c : Cache, c.Inv → c.lru_cache_.access_order_.length < fuel →
      ∃ c1 m, evict_loop fuel c = some c1 ∧ c1.Inv ∧
        c1.max_capacity_ = c.max_capacity_ ∧ c1.hits_ = c.hits_ ∧ c1.misses_ = c.misses_ ∧
        c1.lru_cache_.access_order_ = c.lru_cache_.access_order_.take m ∧
        (c.lru_cache_.access_order_ ≠ [] → 1 ≤ m) ∧
        c1.current_memory_usage_ ≤ c.current_memory_usage_ ∧
        (c1.current_memory_usage_ ≤ c1.target_usage ∨
          c1.lru_cache_.access_order_.length ≤ 1) := by
  induction fuel with
  | zero => intro c _ hlt; omega
  | succ fuel ih =>
    intro c h hlt
    have hsz := h.lru_size_eq
    by_cases hcond : c.current_memory_usage_ > c.target_usage ∧ c.lru_cache_.size > 0
    · by_cases hbig : c.lru_cache_.size > 1
      · obtain ⟨l, el, wl, capl, ll⟩ := LRUCache.set_capacity_spec h.wf (c.lru_cache_.size - 1)
        have hlen : l.access_order_.length = c.lru_cache_.size - 1 := by
          rw [ll, List.length_take]; omega
        let c' : Cache :=
          { c with
            lru_cache_ := l
            current_memory_usage_ :=
              if c.current_memory_usage_ > 50 then c.current_memory_usage_ - 50 else 0 }
        have husage : c'.current_memory_usage_ ≤ c.current_memory_usage_ := by
          show (if c.current_memory_usage_ > 50 then c.current_memory_usage_ - 50 else 0) ≤ _
          split <;> omega
        have hinv : c'.Inv :=
          ⟨wl, by show 1 ≤ l.capacity_; omega, by show l.access_order_.length ≤ l.capacity_; omega,
            by
              intro n hn
              have hn' : n ∈ l.access_order_ := hn
              rw [ll] at hn'
              exact h.key_eq n (List.mem_of_mem_take hn'),
            h.max_lt, lt_of_le_of_lt husage h.usage_lt⟩
        have hlt' : c'.lru_cache_.access_order_.length < fuel := by
          show l.access_order_.length < fuel
          omega
        obtain ⟨c1, m, e1, i1, hmax, hhit, hmiss, hl1, hm, hu, hpost⟩ := ih c' hinv hlt'
        refine ⟨c1, min m (c.lru_cache_.size - 1), ?_, i1, hmax, hhit, hmiss, ?_, ?_,
          le_trans hu husage, hpost⟩
        · simp only [evict_loop, hcond, hbig, and_self, if_true, el, Option.some_bind]
          exact e1
        · rw [hl1]
          show l.access_order_.take m = _
          rw [ll, List.take_take]
        · intro hne
          have hne' : c'.lru_cache_.access_order_ ≠ [] := by
            intro e
            have : l.access_order_.length = 0 := by
              show c'.lru_cache_.access_order_.length = 0
              rw [e]; rfl
            omega
          have := hm hne'
          omega
      · refine ⟨c, c.lru_cache_.access_order_.length, ?_, h, rfl, rfl, rfl, ?_, ?_, le_refl _, ?_⟩
        · simp only [evict_loop, hcond, hbig, and_self, if_true, if_false]
        · rw [List.take_of_length_le (le_refl _)]
        · intro hne
          exact List.length_pos.2 hne
        · right; omega
    · refine ⟨c, c.lru_cache_.access_order_.length, ?_, h, rfl, rfl, rfl, ?_, ?_, le_refl _, ?_⟩
      · simp only [evict_loop, hcond, if_false]
      · rw [List.take_of_length_le (le_refl _)]
      · intro hne
        exact List.length_pos.2 hne
      · by_cases hu : c.current_memory_usage_ ≤ c.target_usage
        · exact Or.inl hu
        · right
          have : ¬ c.lru_cache_.size > 0 := fun hs => hcond ⟨by omega, hs⟩
          omega

theorem evict_if_needed_spec {c : Cache} (h : c.Inv) :
    ∃ c1 m, c.evict_if_needed = some (decide (c1.current_memory_usage_ ≤ c1.target_usage), c1) ∧
      c1.Inv ∧ c1.max_capacity_ = c.max_capacity_ ∧ c1.hits_ = c.hits_ ∧
      c1.misses_ = c.misses_ ∧
      c1.lru_cache_.access_order_ = c.lru_cache_.access_order_.take m ∧
      (c.lru_cache_.access_order_ ≠ [] → 1 ≤ m) ∧
      c1.current_memory_usage_ ≤ c.current_memory_usage_ ∧
      (c1.current_memory_usage_ ≤ c1.target_usage ∨
        c1.lru_cache_.access_order_.length ≤ 1) := by
  obtain ⟨c1, m, e1, rest⟩ := evict_loop_spec (c.lru_cache_.size + 1) c h
    (by rw [h.lru_size_eq]; omega)
  exact ⟨c1, m, by simp [evict_if_needed, e1], rest⟩

end Cache

section EnginePut

variable {K V : Type} [DecidableEq K]

namespace LRUCache

theorem mem_keys_iff {c : LRUCache K V} {k : K} :
    k ∈ c.keys ↔ ∃ n, n ∈ c.access_order_ ∧ n.first = k := by
  simp [LRUCache.keys, List.mem_map]

theorem filter_touch (l : List (ListNode K V)) (n : ListNode K V) (k : K) (hk : n.first = k) :
    (n :: l.filter (fun x => x.first ≠ k)).filter (fun x => x.first ≠ k) =
      l.filter (fun x => x.first ≠ k) := by
  simp [List.filter_cons, hk, List.filter_filter]

/-- On a consistent engine with room for at least one entry `put` is defined,
links the written pair at the head, keeps a sublist of the old nodes behind it
and respects the capacity. -/
theorem put_spec {c : LRUCache K V} (h : c.WF) (hcap : 1 ≤ c.capacity_)
    (hsz : c.access_order_.length ≤ c.capacity_) (k : K) (v : V) :
    ∃ a c1 rest, c.put k v = some c1 ∧ c1.WF ∧ c1.capacity_ = c.capacity_ ∧
      c1.access_order_ = ⟨a, k, v⟩ :: rest ∧ rest.Sublist c.access_order_ ∧
      rest.length + 1 ≤ c.capacity_ ∧
      rest = (if k ∈ c.keys then c.access_order_.filter (fun x => x.first ≠ k)
        else if c.capacity_ ≤ c.access_order_.length then c.access_order_.dropLast
        else c.access_order_) := by
  by_cases hk : k ∈ c.keys
  · obtain ⟨n, hn, rfl⟩ := mem_keys_iff.1 hk
    refine ⟨n.addr, _, _, put_hit h hn v, WF_touch h hn v, rfl, rfl, List.filter_sublist _, ?_,
      by simp [hk]⟩
    have : (c.access_order_.filter (fun x => x.first ≠ n.first)).length <
        c.access_order_.length :=
      List.length_filter_lt_length_iff_exists.2 ⟨n, hn, by simp⟩
    omega
  · obtain ⟨a, c1, e1, w1, cap1, l1⟩ := put_miss h hk v hcap
    refine ⟨a, c1, _, e1, w1, cap1, l1, ?_, ?_, by simp [hk]⟩
    · split
      · exact List.dropLast_sublist _
      · exact List.Sublist.refl _
    · split
      · rw [List.length_dropLast]; omega
      · omega

end LRUCache

end EnginePut

namespace Cache

theorem facade_get_miss {c : Cache} (h : c.Inv) {k : String} (hk : k ∉ c.lru_cache_.keys)
    (now : Nat) :
    c.get k now = some ("", { c with misses_ := (c.misses_ + 1) % SIZE_T }) := by
  simp [Cache.get, LRUCache.get_miss h.wf hk, update_statistics]

theorem facade_get_hit {c : Cache} (h : c.Inv) {n : ListNode String CacheEntry}
    (hn : n ∈ c.lru_cache_.access_order_) (now : Nat) :
    c.get n.first now = some (n.second.value,
      { c with
        lru_cache_ :=
          { c.lru_cache_ with
            access_order_ :=
              { n with second :=
                { n.second with
                  access_count := (n.second.access_count + 1) % SIZE_T
                  timestamp := now } } ::
                c.lru_cache_.access_order_.filter (fun x => x.first ≠ n.first) }
        hits_ := (c.hits_ + 1) % SIZE_T }) := by
  have w1 := LRUCache.WF_touch h.wf hn n.second
  have hn1 : n ∈ (n :: c.lru_cache_.access_order_.filter (fun x => x.first ≠ n.first)) :=
    List.mem_cons_self _ _
  have e2 := LRUCache.put_hit w1 hn1
    { n.second with
      access_count := (n.second.access_count + 1) % SIZE_T
      timestamp := now }
  simp only [LRUCache.filter_touch _ n n.first rfl] at e2
  simp only [Cache.get, LRUCache.get_hit h.wf hn, Option.some_bind, e2, update_statistics,
    if_true]

theorem Inv_get_hit {c : Cache} (h : c.Inv) {n : ListNode String CacheEntry}
    (hn : n ∈ c.lru_cache_.access_order_) (now : Nat) :
    Inv { c with
        lru_cache_ :=
          { c.lru_cache_ with
            access_order_ :=
              { n with second :=
                { n.second with
                  access_count := (n.second.access_count + 1) % SIZE_T
                  timestamp := now } } ::
                c.lru_cache_.access_order_.filter (fun x => x.first ≠ n.first) }
        hits_ := (c.hits_ + 1) % SIZE_T } := by
  refine ⟨LRUCache.WF_touch h.wf hn _, h.cap_pos, ?_, ?_, h.max_lt, h.usage_lt⟩
  · have : (c.lru_cache_.access_order_.filter (fun x => x.first ≠ n.first)).length <
        c.lru_cache_.access_order_.length :=
      List.length_filter_lt_length_iff_exists.2 ⟨n, hn, by simp⟩
    have := h.size_le
    simp only [List.length_cons]
    omega
  · intro x hx
    rcases List.mem_cons.1 hx with hx | hx
    · subst hx
      exact h.key_eq n hn
    · exact h.key_eq x (List.mem_of_mem_filter hx)

theorem facade_remove_miss (sizeof_entry : Nat) {c : Cache} (h : c.Inv) {k : String}
    (hk : k ∉ c.lru_cache_.keys) :
    c.remove sizeof_entry k = some (false, c) := by
  simp [Cache.remove, LRUCache.get_miss h.wf hk]

theorem facade_remove_hit (sizeof_entry : Nat) {c : Cache} (h : c.Inv)
    {n : ListNode String CacheEntry} (hn : n ∈ c.lru_cache_.access_order_) :
    c.remove sizeof_entry n.first = some (true,
      { c with
        lru_cache_ :=
          { c.lru_cache_ with
            access_order_ := c.lru_cache_.access_order_.filter (fun x => x.first ≠ n.first)
            cache_map_ := map_erase c.lru_cache_.cache_map_ n.first }
        current_memory_usage_ :=
          (c.current_memory_usage_ + SIZE_T -
            entry_size sizeof_entry n.first n.second.value % SIZE_T) % SIZE_T }) := by
  have w1 := LRUCache.WF_touch h.wf hn n.second
  have hn1 : n ∈ (n :: c.lru_cache_.access_order_.filter (fun x => x.first ≠ n.first)) :=
    List.mem_cons_self _ _
  have e2 := LRUCache.remove_hit w1 hn1
  simp only [LRUCache.filter_touch _ n n.first rfl] at e2
  simp only [Cache.remove, LRUCache.get_hit h.wf hn, Option.some_bind, e2, if_true]

theorem Inv_remove_hit {c : Cache} (h : c.Inv) (k : String) (u : Nat) :
    Inv { c with
        lru_cache_ :=
          { c.lru_cache_ with
            access_order_ := c.lru_cache_.access_order_.filter (fun x => x.first ≠ k)
            cache_map_ := map_erase c.lru_cache_.cache_map_ k }
        current_memory_usage_ := u % SIZE_T } := by
  refine ⟨LRUCache.WF_erase_key h.wf k, h.cap_pos, ?_, ?_, h.max_lt,
    Nat.mod_lt _ (by simp [SIZE_T])⟩
  · exact le_trans (List.length_filter_le _ _) h.size_le
  · intro x hx
    exact h.key_eq x (List.mem_of_mem_filter hx)

/-- The state in which `set` links the new entry: after the eviction routine
when the incoming entry does not fit, the state itself otherwise. -/
theorem set_phase (sizeof_entry : Nat) {c : Cache} (h : c.Inv) (key value : String) :
    ∃ b c0 m,
      (if (c.current_memory_usage_ + entry_size sizeof_entry key value) % SIZE_T >
            c.max_capacity_ then c.evict_if_needed else some (true, c)) = some (b, c0) ∧
      c0.Inv ∧ c0.max_capacity_ = c.max_capacity_ ∧ c0.hits_ = c.hits_ ∧
      c0.misses_ = c.misses_ ∧
      c0.lru_cache_.access_order_ = c.lru_cache_.access_order_.take m ∧
      (c.lru_cache_.access_order_ ≠ [] → 1 ≤ m) ∧
      c0.current_memory_usage_ ≤ c.current_memory_usage_ ∧
      ((c.current_memory_usage_ + entry_size sizeof_entry key value) % SIZE_T ≤
          c.max_capacity_ → b = true ∧ c0 = c) := by
  by_cases hfit : (c.current_memory_usage_ + entry_size sizeof_entry key value) % SIZE_T >
      c.max_capacity_
  · obtain ⟨c1, m, e1, i1, hmax, hh, hm, hl, hpos, hu, _⟩ := evict_if_needed_spec h
    refine ⟨_, c1, m, by rw [if_pos hfit]; exact e1, i1, hmax, hh, hm, hl, hpos, hu, ?_⟩
    intro hle; omega
  · refine ⟨true, c, c.lru_cache_.access_order_.length, by rw [if_neg hfit], h, rfl, rfl, rfl,
      ?_, ?_, le_refl _, fun _ => ⟨rfl, rfl⟩⟩
    · rw [List.take_of_length_le (le_refl _)]
    · intro hne; exact List.length_pos.2 hne

/-- `set` has a defined result on every consistent state and keeps the state
consistent; when it succeeds the written entry is the head of the recency list,
in front of what the eviction phase and the engine's `put` left of the old
list. -/
theorem set_spec (sizeof_entry : Nat) {c : Cache} (h : c.Inv) (key value : String)
    (now : Nat) :
    ∃ b c1, c.set sizeof_entry key value now = some (b, c1) ∧ c1.Inv ∧
      c1.max_capacity_ = c.max_capacity_ ∧ c1.hits_ = c.hits_ ∧ c1.misses_ = c.misses_ ∧
      (b = true → ∃ a m rest,
        c1.lru_cache_.access_order_ = ⟨a, key, ⟨key, value, now, 0⟩⟩ :: rest ∧
        (c.lru_cache_.access_order_ ≠ [] → 1 ≤ m) ∧
        rest.Sublist (c.lru_cache_.access_order_.take m) ∧
        (key ∈ (c.lru_cache_.access_order_.take m).map (fun n => n.first) →
          rest = (c.lru_cache_.access_order_.take m).filter (fun x => x.first ≠ key)) ∧
        (key ∉ (c.lru_cache_.access_order_.take m).map (fun n => n.first) →
          rest = if c1.lru_cache_.capacity_ ≤ (c.lru_cache_.access_order_.take m).length then
              (c.lru_cache_.access_order_.take m).dropLast
            else c.lru_cache_.access_order_.take m) ∧
        ((c.current_memory_usage_ + entry_size sizeof_entry key value) % SIZE_T ≤
            c.max_capacity_ → c.lru_cache_.access_order_.length ≤ m ∧
          c1.lru_cache_.capacity_ = c.lru_cache_.capacity_ ∧
          c1.current_memory_usage_ =
            (c.current_memory_usage_ + entry_size sizeof_entry key value) % SIZE_T)) ∧
      (entry_size sizeof_entry key value ≤ c.max_capacity_ →
        (c.current_memory_usage_ + entry_size sizeof_entry key value) % SIZE_T ≤
          c.max_capacity_ → b = true) := by
  by_cases hbig : entry_size sizeof_entry key value > c.max_capacity_
  · exact ⟨false, c, by simp [Cache.set, hbig], h, rfl, rfl, rfl, by simp,
      fun hle => by omega⟩
  · obtain ⟨b, c0, m, e0, i0, hmax, hh, hm, hl, hpos, hu, hfit⟩ :=
      set_phase sizeof_entry h key value
    cases b with
    | false =>
      refine ⟨false, c0, ?_, i0, hmax, hh, hm, by simp, fun _ hle => (hfit hle).1⟩
      simp only [Cache.set, hbig, if_false, e0, Option.some_bind, if_true]
    | true =>
      obtain ⟨a, l, rest, el, wl, capl, ll, hsub, hlen, hrest⟩ :=
        LRUCache.put_spec i0.wf i0.cap_pos i0.size_le key (⟨key, value, now, 0⟩ : CacheEntry)
      refine ⟨true,
        { c0 with
          lru_cache_ := l
          current_memory_usage_ :=
            (c0.current_memory_usage_ + entry_size sizeof_entry key value) % SIZE_T },
        ?_, ?_, hmax, hh, hm, ?_, fun _ _ => rfl⟩
      · simp [Cache.set, hbig, e0, el]
      · refine ⟨wl, by rw [capl]; exact i0.cap_pos, ?_, ?_, by
          show c0.max_capacity_ < SIZE_T
          rw [hmax]; exact h.max_lt, Nat.mod_lt _ (by simp [SIZE_T])⟩
        · show l.access_order_.length ≤ l.capacity_
          rw [ll, capl, List.length_cons]; exact hlen
        · intro n hn
          have hn' : n ∈ l.access_order_ := hn
          rw [ll] at hn'
          rcases List.mem_cons.1 hn' with hn' | hn'
          · subst hn'; rfl
          · exact i0.key_eq n (hsub.subset hn')
      · intro _
        refine ⟨a, m, rest, ll, hpos, by rw [← hl]; exact hsub, ?_, ?_, ?_⟩
        · intro hk
          rw [hrest, ← hl]
          have : key ∈ c0.lru_cache_.keys := by
            unfold LRUCache.keys; rw [hl]; exact hk
          simp [this]
        · intro hk
          have : key ∉ c0.lru_cache_.keys := by
            unfold LRUCache.keys; rw [hl]; exact hk
          rw [hrest, if_neg this, ← hl]
          show _ = if l.capacity_ ≤ _ then _ else _
          rw [capl]
        · intro hle
          obtain ⟨_, hc0⟩ := hfit hle
          subst hc0
          refine ⟨?_, capl, rfl⟩
          have := congrArg List.length hl
          rw [List.length_take] at this
          omega

theorem set_max_capacity_spec {c : Cache} (h : c.Inv) (capacity : Nat)
    (hcap : capacity < SIZE_T) :
    ∃ c1 m, c.set_max_capacity capacity = some c1 ∧ c1.Inv ∧
      c1.max_capacity_ = capacity ∧ c1.hits_ = c.hits_ ∧ c1.misses_ = c.misses_ ∧
      c1.lru_cache_.access_order_ = c.lru_cache_.access_order_.take m ∧
      (c.lru_cache_.access_order_ ≠ [] → 1 ≤ m) ∧
      c1.current_memory_usage_ ≤ c.current_memory_usage_ ∧
      (c.current_memory_usage_ ≤ capacity → c1 = { c with max_capacity_ := capacity }) ∧
      (capacity < c.current_memory_usage_ →
        c1.current_memory_usage_ ≤ c1.target_usage ∨
          c1.lru_cache_.access_order_.length ≤ 1) := by
  have h' : Inv { c with max_capacity_ := capacity } :=
    ⟨h.wf, h.cap_pos, h.size_le, h.key_eq, hcap, h.usage_lt⟩
  by_cases hgt : c.current_memory_usage_ > capacity
  · obtain ⟨c1, m, e1, i1, hmax, hh, hm, hl, hpos, hu, hpost⟩ := evict_if_needed_spec h'
    refine ⟨c1, m, ?_, i1, hmax, hh, hm, hl, hpos, hu, fun hle => by omega, fun _ => hpost⟩
    simp only [Cache.set_max_capacity, hgt, if_true, e1, Option.map_some']
  · refine ⟨_, c.lru_cache_.access_order_.length, ?_, h', rfl, rfl, rfl, ?_, ?_, le_refl _,
      fun _ => rfl, fun hlt => by omega⟩
    · simp only [Cache.set_max_capacity, hgt, if_false]
    · show c.lru_cache_.access_order_ = _
      rw [List.take_of_length_le (le_refl _)]
    · intro hne; exact List.length_pos.2 hne

theorem apply_set_eq (sizeof_entry : Nat) {c c1 : Cache} {key value : String} {now : Nat}
    {b : Bool} (e : c.set sizeof_entry key value now = some (b, c1)) :
    c.apply sizeof_entry (Op.set key value now) = some c1 := by
  simp [Cache.apply, e]

theorem apply_get_eq (sizeof_entry : Nat) {c c1 : Cache} {key : String} {now : Nat}
    {v : String} (e : c.get key now = some (v, c1)) :
    c.apply sizeof_entry (Op.get key now) = some c1 := by
  simp [Cache.apply, e]

theorem apply_remove_eq (sizeof_entry : Nat) {c c1 : Cache} {key : String} {b : Bool}
    (e : c.remove sizeof_entry key = some (b, c1)) :
    c.apply sizeof_entry (Op.remove key) = some c1 := by
  simp [Cache.apply, e]

/-- Every public method has a defined result on a consistent state and leaves a
consistent state. -/
theorem apply_spec (sizeof_entry : Nat) {c : Cache} (h : c.Inv) (op : Op) (hv : op.valid) :
    ∃ c1, c.apply sizeof_entry op = some c1 ∧ c1.Inv := by
  cases op with
  | set key value now =>
    obtain ⟨b, c1, e, i, _⟩ := set_spec sizeof_entry h key value now
    exact ⟨c1, apply_set_eq sizeof_entry e, i⟩
  | get key now =>
    by_cases hk : key ∈ c.lru_cache_.keys
    · obtain ⟨n, hn, rfl⟩ := LRUCache.mem_keys_iff.1 hk
      exact ⟨_, apply_get_eq sizeof_entry (facade_get_hit h hn now), Inv_get_hit h hn now⟩
    · exact ⟨_, apply_get_eq sizeof_entry (facade_get_miss h hk now),
        ⟨h.wf, h.cap_pos, h.size_le, h.key_eq, h.max_lt, h.usage_lt⟩⟩
  | remove key =>
    by_cases hk : key ∈ c.lru_cache_.keys
    · obtain ⟨n, hn, rfl⟩ := LRUCache.mem_keys_iff.1 hk
      exact ⟨_, apply_remove_eq sizeof_entry (facade_remove_hit sizeof_entry h hn),
        Inv_remove_hit h _ _⟩
    · exact ⟨_, apply_remove_eq sizeof_entry (facade_remove_miss sizeof_entry h hk), h⟩
  | clear => exact ⟨_, rfl, Inv_clear h⟩
  | set_max_capacity capacity =>
    obtain ⟨c1, m, e, i, _⟩ := set_max_capacity_spec h capacity hv
    exact ⟨c1, e, i⟩

/-- Every reachable state of the facade is consistent. -/
theorem Reachable.inv {sizeof_entry : Nat} {c : Cache} (h : Reachable sizeof_entry c) :
    c.Inv := by
  induction h with
  | fresh n hn => exact Inv_new n hn
  | step c c1 op _ hv e ih =>
    obtain ⟨c2, e2, i2⟩ := apply_spec sizeof_entry ih op hv
    rw [e] at e2
    cases e2
    exact i2

end Cache

/-- C1. Facade read-your-write: in every reachable `Cache` state, when
`set(key, value)` returns true, the `get(key)` that follows immediately has a
defined result and returns exactly `value`. -/
theorem Cache.read_your_write (sizeof_entry : Nat) (c c1 : Cache) (key value : String)
    (now now1 : Nat) (hc : Cache.Reachable sizeof_entry c)
    (hset : c.set sizeof_entry key value now = some (true, c1)) :
    ∃ c2, c1.get key now1 = some (value, c2) := by
  obtain ⟨b, c1', e, i1, _, _, _, hhead, _⟩ := Cache.set_spec sizeof_entry hc.inv key value now
  rw [hset] at e
  cases e
  obtain ⟨a, m, rest, hl, _⟩ := hhead rfl
  have hn : (⟨a, key, ⟨key, value, now, 0⟩⟩ : ListNode String CacheEntry) ∈
      c1.lru_cache_.access_order_ := by
    rw [hl]; exact List.mem_cons_self _ _
  exact ⟨_, Cache.facade_get_hit i1 hn now1⟩

theorem Cache.read_your_write_witness :
    ∃ c2, Cache.get
      { lru_cache_ :=
          { access_order_ := [⟨1, "key1", ⟨"key1", "value1", 7, 0⟩⟩]
            cache_map_ := [("key1", 1)]
            capacity_ := 10000 }
        hits_ := 0
        misses_ := 0
        max_capacity_ := 1048576
        current_memory_usage_ := 90 } "key1" 8 = some ("value1", c2) :=
  Cache.read_your_write 80 (Cache.new 1048576) _ "key1" "value1" 7 8
    (Cache.Reachable.fresh _ (by decide)) (by decide)

section EngineEntries

variable {K V : Type} [DecidableEq K]

namespace LRUCache

theorem entries_filter (l : List (ListNode K V)) (k : K) :
    (l.filter (fun x => x.first ≠ k)).map (fun n => (n.first, n.second)) =
      (l.map (fun n => (n.first, n.second))).filter (fun e => e.1 ≠ k) := by
  rw [List.filter_map]
  rfl

theorem mem_entries_iff {c : LRUCache K V} {k : K} {v : V} :
    (k, v) ∈ c.entries ↔ ∃ n, n ∈ c.access_order_ ∧ n.first = k ∧ n.second = v := by
  simp [LRUCache.entries, List.mem_map]

end LRUCache

end EngineEntries

/-- C2. `LRUCache::get` is refresh-only. On a consistent engine a `get(k)` that
hits returns the stored value, moves the entry of `k` to the head of the recency
order and leaves every value, the capacity and the relative order of all other
entries unchanged. Hence, from an empty engine of capacity 2, `put(k1,v1);
put(k2,v2); get(k1); put(k3,v3)` leaves exactly `k3, k1` (it evicts `k2`), and
from an empty engine of capacity 3, `put a, b, c; get a; put d` leaves exactly
`d, a, c` (it evicts `b`). -/
theorem LRUCache.get_refresh_only {K V : Type} [DecidableEq K] :
    (∀ (c : LRUCache K V) (k : K) (v : V), c.WF → (k, v) ∈ c.entries →
      ∃ c1, c.get k = some (some v, c1) ∧ c1.WF ∧ c1.capacity_ = c.capacity_ ∧
        c1.entries = (k, v) :: c.entries.filter (fun e => e.1 ≠ k)) ∧
    (∀ (k1 k2 k3 : K) (v1 v2 v3 : V), k1 ≠ k2 → k1 ≠ k3 → k2 ≠ k3 →
      ∃ c1, ((((LRUCache.new 2 : LRUCache K V).put k1 v1).bind fun c => c.put k2 v2).bind
          fun c => c.get k1).bind (fun r => r.2.put k3 v3) = some c1 ∧
        c1.entries = [(k3, v3), (k1, v1)]) ∧
    (∀ (a b c d : K) (va vb vc vd : V),
      a ≠ b → a ≠ c → a ≠ d → b ≠ c → b ≠ d → c ≠ d →
      ∃ c1, (((((LRUCache.new 3 : LRUCache K V).put a va).bind fun e => e.put b vb).bind
          fun e => e.put c vc).bind fun e => e.get a).bind (fun r => r.2.put d vd) = some c1 ∧
        c1.entries = [(d, vd), (a, va), (c, vc)]) := by
  refine ⟨?_, ?_, ?_⟩
  · intro c k v h hkv
    obtain ⟨n, hn, rfl, rfl⟩ := LRUCache.mem_entries_iff.1 hkv
    refine ⟨_, LRUCache.get_hit h hn, LRUCache.WF_touch h hn n.second, rfl, ?_⟩
    simp only [LRUCache.entries, List.map_cons, LRUCache.entries_filter]
  · intro k1 k2 k3 v1 v2 v3 h12 h13 h23
    have h21 := Ne.symm h12
    have h31 := Ne.symm h13
    have h32 := Ne.symm h23
    simp [LRUCache.new, LRUCache.put, LRUCache.get, LRUCache.erase_lru, LRUCache.entries,
      map_find, map_assign, map_erase, list_deref, list_erase, list_fresh, List.find?_cons,
      List.filter_cons, h12, h13, h23, h21, h31, h32]
  · intro a b c d va vb vc vd hab hac had hbc hbd hcd
    have hba := Ne.symm hab
    have hca := Ne.symm hac
    have hda := Ne.symm had
    have hcb := Ne.symm hbc
    have hdb := Ne.symm hbd
    have hdc := Ne.symm hcd
    simp [LRUCache.new, LRUCache.put, LRUCache.get, LRUCache.erase_lru, LRUCache.entries,
      map_find, map_assign, map_erase, list_deref, list_erase, list_fresh, List.find?_cons,
      List.filter_cons, hab, hac, had, hbc, hbd, hcd, hba, hca, hda, hcb, hdb, hdc]

theorem LRUCache.get_refresh_only_witness :
    (∃ c1, (LRUCache.mk [⟨2, "k2", "v2"⟩, ⟨1, "k1", "v1"⟩] [("k2", 2), ("k1", 1)] 2).get "k1" =
        some (some "v1", c1) ∧ c1.entries = [("k1", "v1"), ("k2", "v2")]) ∧
    (∃ c1, ((((LRUCache.new 2 : LRUCache String String).put "k1" "v1").bind
          fun c => c.put "k2" "v2").bind fun c => c.get "k1").bind
          (fun r => r.2.put "k3" "v3") = some c1 ∧
        c1.entries = [("k3", "v3"), ("k1", "v1")]) ∧
    (∃ c1, (((((LRUCache.new 3 : LRUCache String String).put "a" "1").bind
          fun e => e.put "b" "2").bind fun e => e.put "c" "3").bind fun e => e.get "a").bind
          (fun r => r.2.put "d" "4") = some c1 ∧
        c1.entries = [("d", "4"), ("a", "1"), ("c", "3")]) := by
  obtain ⟨h1, h2, h3⟩ := @LRUCache.get_refresh_only String String _
  refine ⟨?_, h2 "k1" "k2" "k3" "v1" "v2" "v3" (by decide) (by decide) (by decide),
    h3 "a" "b" "c" "d" "1" "2" "3" "4" (by decide) (by decide) (by decide) (by decide)
      (by decide) (by decide)⟩
  obtain ⟨c1, e, _, _, he⟩ :=
    h1 (LRUCache.mk [⟨2, "k2", "v2"⟩, ⟨1, "k1", "v1"⟩] [("k2", 2), ("k1", 1)] 2) "k1" "v1"
      ⟨by decide, by decide, by decide, by
        intro k a
        simp only [List.mem_cons, Prod.mk.injEq, List.mem_singleton, List.not_mem_nil, or_false]
        constructor
        · rintro (⟨rfl, rfl⟩ | ⟨rfl, rfl⟩)
          · exact ⟨_, Or.inl rfl, rfl, rfl⟩
          · exact ⟨_, Or.inr rfl, rfl, rfl⟩
        · rintro ⟨n, rfl | rfl, rfl, rfl⟩
          · exact Or.inl ⟨rfl, rfl⟩
          · exact Or.inr ⟨rfl, rfl⟩⟩
      (by decide)
  exact ⟨c1, e, by rw [he]; decide⟩

/-- C3. `LRUCache::put` of a key that is not present into a consistent engine
whose size equals its capacity `N >= 1` has a defined result: it removes exactly
the tail entry of the recency order, links the new entry at the head, keeps
every other entry with its value and position, and leaves size and capacity
equal to `N`. -/
theorem LRUCache.put_full_evicts_tail {K V : Type} [DecidableEq K] (c : LRUCache K V)
    (k : K) (v : V) (h : c.WF) (hk : k ∉ c.keys) (hN : 1 ≤ c.capacity_)
    (hfull : c.size = c.capacity_) :
    ∃ c1, c.put k v = some c1 ∧ c1.WF ∧
      c1.entries = (k, v) :: c.entries.dropLast ∧
      c1.size = c.capacity_ ∧ c1.capacity_ = c.capacity_ := by
  have hlen : c.access_order_.length = c.capacity_ := by rw [← h.size_eq]; exact hfull
  obtain ⟨a, c1, e1, w1, cap1, l1⟩ := LRUCache.put_miss h hk v hN
  rw [if_pos (by omega)] at l1
  refine ⟨c1, e1, w1, ?_, ?_, cap1⟩
  · simp only [LRUCache.entries, l1, List.map_cons, List.map_dropLast]
  · show c1.cache_map_.length = _
    rw [w1.size_eq, l1, List.length_cons, List.length_dropLast]
    omega

theorem LRUCache.put_full_evicts_tail_witness :
    ∃ c1, (LRUCache.mk [⟨2, "key2", "value2"⟩, ⟨1, "key1", "value1"⟩]
        [("key2", 2), ("key1", 1)] 2).put "key3" "value3" = some c1 ∧ c1.WF ∧
      c1.entries = ("key3", "value3") ::
        (LRUCache.mk [⟨2, "key2", "value2"⟩, ⟨1, "key1", "value1"⟩]
          [("key2", 2), ("key1", 1)] 2).entries.dropLast ∧
      c1.size = 2 ∧ c1.capacity_ = 2 :=
  LRUCache.put_full_evicts_tail
    (LRUCache.mk [⟨2, "key2", "value2"⟩, ⟨1, "key1", "value1"⟩] [("key2", 2), ("key1", 1)] 2)
    "key3" "value3"
    ⟨by decide, by decide, by decide, by
      intro k a
      simp only [List.mem_cons, Prod.mk.injEq, List.mem_singleton, List.not_mem_nil, or_false]
      constructor
      · rintro (⟨rfl, rfl⟩ | ⟨rfl, rfl⟩)
        · exact ⟨_, Or.inl rfl, rfl, rfl⟩
        · exact ⟨_, Or.inr rfl, rfl, rfl⟩
      · rintro ⟨n, rfl | rfl, rfl, rfl⟩
        · exact Or.inl ⟨rfl, rfl⟩
        · exact Or.inr ⟨rfl, rfl⟩⟩
    (by decide) (by decide) (by decide)

set_option maxRecDepth 100000 in
/-- C4 fails on the code. With `sizeof(CacheEntry) = 80` and `max_capacity = 200`:
`set("a", "")` succeeds with usage 81, then `set("b", v)` with `v` of 39 bytes
(entry size 120) finds `81 + 120 > 200`, the eviction routine runs no step
because `81 <= 160`, reports success, and `set` returns true with
`memory_usage() = 201 > 200 = capacity()`. -/
theorem Cache.set_true_exceeds_capacity :
    ((Cache.new 200).set 80 "a" "" 0).bind (fun r =>
      (r.2.set 80 "b" (String.mk (List.replicate 39 'x')) 1).map (fun q =>
        (r.1, r.2.memory_usage, q.1, q.2.memory_usage, q.2.capacity))) =
      some (true, 81, true, 201, 200) := by
  decide

/-- C7. `Cache::set` of an entry whose `entry_size = len(key) + len(value) +
sizeof(CacheEntry)` strictly exceeds `max_capacity` returns false and returns
the state it was given: stored entries, recency order, index, `size()`,
`memory_usage()`, `hits()` and `misses()` are all unchanged. -/
theorem Cache.set_oversized_rejected (sizeof_entry : Nat) (c : Cache) (key value : String)
    (now : Nat) (h : Cache.entry_size sizeof_entry key value > c.max_capacity_) :
    c.set sizeof_entry key value now = some (false, c) := by
  simp [Cache.set, h]

set_option maxRecDepth 100000 in
theorem Cache.set_oversized_rejected_witness :
    Cache.entry_size 80 "key1" (String.mk (List.replicate 200 'x')) > 100 ∧
    Cache.set 80
      { lru_cache_ := LRUCache.new 10000, hits_ := 0, misses_ := 0, max_capacity_ := 100,
        current_memory_usage_ := 0 }
      "key1" (String.mk (List.replicate 200 'x')) 0 =
      some (false,
        { lru_cache_ := LRUCache.new 10000, hits_ := 0, misses_ := 0, max_capacity_ := 100,
          current_memory_usage_ := 0 }) :=
  ⟨by decide, Cache.set_oversized_rejected 80 _ "key1" _ 0 (by decide)⟩

/-- C9 fails on the code as stated. With `sizeof(CacheEntry) = 80`: a cache of
capacity 1000 that holds the single entry `("a", "")` has usage 81; after
`set_max_capacity(10)` the usage is still 81, above `0.8 * 10`, and the entry is
still stored, because the eviction loop leaves as soon as one entry remains. -/
theorem Cache.set_max_capacity_keeps_last_entry :
    ((Cache.new 1000).set 80 "a" "" 0).bind (fun r =>
      (r.2.set_max_capacity 10).map (fun c =>
        (r.1, r.2.memory_usage, c.memory_usage, c.size, c.capacity))) =
      some (true, 81, 81, 1, 10) := by
  decide

/-- C9, amended. In every reachable `Cache` state and for every new capacity
`n` with `n < memory_usage()`, `set_max_capacity(n)` has a defined result after which `memory_usage() <= 0.8 * n` or the cache holds at most one
entry (`size() <= 1`). -/
theorem Cache.set_max_capacity_post (sizeof_entry : Nat) (c : Cache) (n : Nat)
    (hc : Cache.Reachable sizeof_entry c) (hlt : n < c.memory_usage) :
    ∃ c1, c.set_max_capacity n = some c1 ∧ c1.capacity = n ∧
      (5 * c1.memory_usage ≤ 4 * n ∨ c1.size ≤ 1) := by
  obtain ⟨c1, m, e, i1, hmax, _, _, _, _, _, _, hpost⟩ :=
    Cache.set_max_capacity_spec hc.inv n (lt_trans hlt hc.inv.usage_lt)
  refine ⟨c1, e, hmax, ?_⟩
  rcases hpost hlt with hp | hp
  · left
    have : c1.target_usage = n * 4 / 5 := by rw [Cache.target_usage, hmax]
    have h5 := Nat.div_mul_le_self (n * 4) 5
    show 5 * c1.current_memory_usage_ ≤ 4 * n
    omega
  · right
    show c1.lru_cache_.size ≤ 1
    rw [i1.lru_size_eq]; exact hp

theorem Cache.set_max_capacity_post_witness :
    ∃ c1, Cache.set_max_capacity
        { lru_cache_ :=
            { access_order_ := [⟨1, "a", ⟨"a", "", 0, 0⟩⟩]
              cache_map_ := [("a", 1)]
              capacity_ := 10000 }
          hits_ := 0
          misses_ := 0
          max_capacity_ := 1000
          current_memory_usage_ := 81 } 10 = some c1 ∧ c1.capacity = 10 ∧
      (5 * c1.memory_usage ≤ 4 * 10 ∨ c1.size ≤ 1) :=
  Cache.set_max_capacity_post 80 _ 10
    (Cache.Reachable.step (Cache.new 1000) _ (Cache.Op.set "a" "" 0)
      (Cache.Reachable.fresh 1000 (by decide)) trivial (by decide))
    (by decide)

set_option maxRecDepth 100000 in
/-- C10 fails on the code. With `sizeof(CacheEntry) = 80` and `max_capacity =
200`: after `set("a", "")` the cache holds one entry (usage 81); `set("b", v)`
with `v` of 119 bytes has `entry_size = 200 = max_capacity`, and returns true,
leaving two entries and usage 281. And with `max_capacity = 500`: six
`set("k", "")` followed by `remove("k")` leave an empty cache with usage 405;
`set("b", w)` with `w` of 419 bytes has `entry_size = 500 = max_capacity` and
returns false although the cache is empty. -/
theorem Cache.set_exact_capacity_eval :
    (((Cache.new 200).set 80 "a" "" 0).bind (fun r =>
      (r.2.set 80 "b" (String.mk (List.replicate 119 'x')) 1).map (fun q =>
        (r.1, r.2.size, Cache.entry_size 80 "b" (String.mk (List.replicate 119 'x')),
          q.1, q.2.size, q.2.memory_usage))) =
      some (true, 1, 200, true, 2, 281)) ∧
    (((Cache.new 500).run 80
        [.set "k" "" 0, .set "k" "" 1, .set "k" "" 2, .set "k" "" 3, .set "k" "" 4,
          .set "k" "" 5, .remove "k"]).bind (fun c =>
      (c.set 80 "b" (String.mk (List.replicate 419 'x')) 6).map (fun q =>
        (c.size, c.memory_usage, Cache.entry_size 80 "b" (String.mk (List.replicate 419 'x')),
          q.1, q.2.size))) =
      some (0, 405, 500, false, 0)) := by
  constructor <;> decide

set_option maxRecDepth 100000 in
/-- C8 fails on the code as stated. With `sizeof(CacheEntry) = 80` and
`max_capacity = 200`: after `set("a", "")` and `set("k", "")` (both true) the
cache holds 2 entries; `set("k", v2)` with `v2` of 39 bytes (entry size 120,
which does not fit next to `"a"`, whose entry takes 81) runs the eviction
routine, which drops `"a"`, and returns true with `size() = 1`, not the 2 it was
right after the first `set("k", ...)`. -/
theorem Cache.overwrite_changes_size :
    ((Cache.new 200).set 80 "a" "" 0).bind (fun r0 =>
      (r0.2.set 80 "k" "" 1).bind (fun r1 =>
        (r1.2.set 80 "k" (String.mk (List.replicate 39 'x')) 2).map (fun r2 =>
          (r0.1, r1.1, r1.2.size, r2.1, r2.2.size)))) =
      some (true, true, 2, true, 1) := by
  decide

/-- C8, amended. In every reachable `Cache` state, if `set(k, v1)` and then
`set(k, v2)` both return true, then afterwards there is exactly one entry for
`k`, it carries `v2`, `get(k)` returns `v2`, and `size()` is at most what it was
right after the first `set`; it is the same whenever the second `set` found
`memory_usage() + entry_size <= max_capacity`, so that no eviction ran. -/
theorem Cache.overwrite_collapses (sizeof_entry : Nat) (c c1 c2 : Cache)
    (key v1 v2 : String) (now1 now2 now3 : Nat) (hc : Cache.Reachable sizeof_entry c)
    (h1 : c.set sizeof_entry key v1 now1 = some (true, c1))
    (h2 : c1.set sizeof_entry key v2 now2 = some (true, c2)) :
    c2.contents.filter (fun e => e.1 = key) = [(key, v2)] ∧
    (∃ c3, c2.get key now3 = some (v2, c3)) ∧
    c2.size ≤ c1.size ∧
    ((c1.memory_usage + Cache.entry_size sizeof_entry key v2) % SIZE_T ≤ c1.capacity →
      c2.size = c1.size) := by
  have hc1 : Cache.Reachable sizeof_entry c1 :=
    Cache.Reachable.step c c1 (Cache.Op.set key v1 now1) hc trivial
      (Cache.apply_set_eq sizeof_entry h1)
  obtain ⟨b, c1', e, i1, _, _, _, hhead1, _⟩ := Cache.set_spec sizeof_entry hc.inv key v1 now1
  rw [h1] at e
  cases e
  obtain ⟨a1, m1, rest1, hl1, _⟩ := hhead1 rfl
  obtain ⟨b, c2', e, i2, _, _, _, hhead2, _⟩ := Cache.set_spec sizeof_entry i1 key v2 now2
  rw [h2] at e
  cases e
  obtain ⟨a2, m, rest2, hl2, hm, _, hrest2, _, hfit⟩ := hhead2 rfl
  have hm1 : 1 ≤ m := hm (by rw [hl1]; simp)
  have htake : c1.lru_cache_.access_order_.take m =
      ⟨a1, key, ⟨key, v1, now1, 0⟩⟩ :: rest1.take (m - 1) := by
    rw [hl1, List.take_cons (by omega)]
  have hrest : rest2 = (rest1.take (m - 1)).filter (fun x => x.first ≠ key) := by
    rw [hrest2 (by rw [htake]; simp), htake]
    simp [List.filter_cons]
  have hk1 : ∀ x, x ∈ rest1 → x.first ≠ key := by
    have := i1.wf.key_nodup
    rw [hl1, List.map_cons, List.nodup_cons] at this
    intro x hx e
    exact this.1 (e ▸ List.mem_map_of_mem (fun n => n.first) hx)
  have hk2 : ∀ x, x ∈ rest2 → x.first ≠ key := by
    have := i2.wf.key_nodup
    rw [hl2, List.map_cons, List.nodup_cons] at this
    intro x hx e
    exact this.1 (e ▸ List.mem_map_of_mem (fun n => n.first) hx)
  have hn : (⟨a2, key, ⟨key, v2, now2, 0⟩⟩ : ListNode String CacheEntry) ∈
      c2.lru_cache_.access_order_ := by
    rw [hl2]; exact List.mem_cons_self _ _
  have hs1 : c1.size = rest1.length + 1 := by
    show c1.lru_cache_.size = _
    rw [i1.lru_size_eq, hl1, List.length_cons]
  have hs2 : c2.size = rest2.length + 1 := by
    show c2.lru_cache_.size = _
    rw [i2.lru_size_eq, hl2, List.length_cons]
  refine ⟨?_, ⟨_, Cache.facade_get_hit i2 hn now3⟩, ?_, ?_⟩
  · have : (rest2.map (fun n => (n.first, n.second.value))).filter (fun e => e.1 = key) = [] := by
      rw [List.filter_eq_nil_iff]
      intro e he
      obtain ⟨x, hx, rfl⟩ := List.mem_map.1 he
      simpa using hk2 x hx
    simp [Cache.contents, hl2, List.filter_cons, this]
  · rw [hs1, hs2, hrest]
    have h3 := List.length_filter_le (fun x : ListNode String CacheEntry => x.first ≠ key)
      (rest1.take (m - 1))
    have h4 := (List.take_sublist (m - 1) rest1).length_le
    omega
  · intro hle
    obtain ⟨hlen, _, _⟩ := hfit hle
    rw [hl1, List.length_cons] at hlen
    rw [hs1, hs2, hrest, List.take_of_length_le (by omega)]
    have : rest1.filter (fun x => x.first ≠ key) = rest1 := by
      rw [List.filter_eq_self]
      intro x hx
      simpa using hk1 x hx
    rw [this]

theorem Cache.overwrite_collapses_witness :
    ∃ c2, (∃ c1, (Cache.new 1048576).set 80 "key1" "value1" 0 = some (true, c1) ∧
        c1.set 80 "key1" "value2" 1 = some (true, c2)) ∧
      c2.contents.filter (fun e => e.1 = "key1") = [("key1", "value2")] ∧
      (∃ c3, c2.get "key1" 2 = some ("value2", c3)) ∧ c2.size = 1 := by
  have h1 : (Cache.new 1048576).set 80 "key1" "value1" 0 = some (true,
      { lru_cache_ :=
          { access_order_ := [⟨1, "key1", ⟨"key1", "value1", 0, 0⟩⟩]
            cache_map_ := [("key1", 1)]
            capacity_ := 10000 }
        hits_ := 0
        misses_ := 0
        max_capacity_ := 1048576
        current_memory_usage_ := 90 }) := by decide
  have h2 : Cache.set 80
      { lru_cache_ :=
          { access_order_ := [⟨1, "key1", ⟨"key1", "value1", 0, 0⟩⟩]
            cache_map_ := [("key1", 1)]
            capacity_ := 10000 }
        hits_ := 0
        misses_ := 0
        max_capacity_ := 1048576
        current_memory_usage_ := 90 } "key1" "value2" 1 = some (true,
      { lru_cache_ :=
          { access_order_ := [⟨1, "key1", ⟨"key1", "value2", 1, 0⟩⟩]
            cache_map_ := [("key1", 1)]
            capacity_ := 10000 }
        hits_ := 0
        misses_ := 0
        max_capacity_ := 1048576
        current_memory_usage_ := 180 }) := by decide
  obtain ⟨ha, hb, _, hd⟩ := Cache.overwrite_collapses 80 (Cache.new 1048576) _ _
    "key1" "value1" "value2" 0 1 2 (Cache.Reachable.fresh _ (by decide)) h1 h2
  exact ⟨_, ⟨_, h1, h2⟩, ha, hb, by rw [hd (by decide)]; decide⟩

section Accounting

variable {K V : Type} [DecidableEq K]

/-- A list whose keys are pairwise distinct is a rearrangement of any of its
nodes followed by the other nodes in their order. -/
theorem perm_cons_filter_first (l : List (ListNode K V))
    (hk : (l.map (fun n => n.first)).Nodup) (n : ListNode K V) (hn : n ∈ l) :
    l.Perm (n :: l.filter (fun x => x.first ≠ n.first)) := by
  induction l with
  | nil => simp at hn
  | cons x t ih =>
    simp only [List.map_cons, List.nodup_cons] at hk
    by_cases hx : x = n
    · subst hx
      have : t.filter (fun y => y.first ≠ x.first) = t := by
        rw [List.filter_eq_self]
        intro y hy
        have : y.first ≠ x.first := fun e =>
          hk.1 (e ▸ List.mem_map_of_mem (fun n => n.first) hy)
        simpa using this
      rw [List.filter_cons_of_neg (by simp), this]
    · have hn' : n ∈ t := by
        rcases List.mem_cons.1 hn with h | h
        · exact absurd h.symm hx
        · exact h
      have hne : x.first ≠ n.first := fun e =>
        hk.1 (e ▸ List.mem_map_of_mem (fun n => n.first) hn')
      have := ih hk.2 hn'
      simp only [List.filter_cons, hne, ne_eq, not_false_eq_true, decide_True, if_true]
      exact (List.Perm.cons x this).trans (List.Perm.swap n x _)

end Accounting

namespace Cache

theorem stored_bytes_eq (sizeof_entry : Nat) (c : Cache) :
    c.stored_bytes sizeof_entry =
      (c.lru_cache_.access_order_.map
        (fun n => entry_size sizeof_entry n.first n.second.value)).sum := by
  simp [stored_bytes, contents, List.map_map, Function.comp_def]

/-- Taking one node out of the recency list lowers the stored bytes by the
size of that node's entry. -/
theorem stored_bytes_split (sizeof_entry : Nat) {c : Cache} (h : c.Inv)
    {n : ListNode String CacheEntry} (hn : n ∈ c.lru_cache_.access_order_) :
    c.stored_bytes sizeof_entry = entry_size sizeof_entry n.first n.second.value +
      ((c.lru_cache_.access_order_.filter (fun x => x.first ≠ n.first)).map
        (fun n => entry_size sizeof_entry n.first n.second.value)).sum := by
  rw [stored_bytes_eq]
  have hp := perm_cons_filter_first _ h.wf.key_nodup n hn
  have := (hp.map (fun n => entry_size sizeof_entry n.first n.second.value)).sum_eq
  simpa using this

/-- What a sequence of accounting-exact calls maintains. -/
theorem ExactReachable.exact {sizeof_entry : Nat} {c : Cache}
    (h : ExactReachable sizeof_entry c) :
    c.Inv ∧ c.lru_cache_.capacity_ = 10000 ∧
      c.current_memory_usage_ = c.stored_bytes sizeof_entry := by
  induction h with
  | fresh n hn => exact ⟨Inv_new n hn, rfl, rfl⟩
  | step c c1 op _ hv hq e ih =>
    obtain ⟨hi, hcap, hu⟩ := ih
    cases op with
    | set key value now =>
      obtain ⟨b, c1', e1, i1, _, _, _, hhead, hsucc⟩ := set_spec sizeof_entry hi key value now
      rw [apply_set_eq sizeof_entry e1] at e
      cases e
      rcases hq with hq | ⟨hk, hsz, hfit⟩
      · have : c.set sizeof_entry key value now = some (false, c) := by simp [Cache.set, hq]
        rw [this] at e1
        cases e1
        exact ⟨hi, hcap, hu⟩
      · have hmod : (c.current_memory_usage_ + entry_size sizeof_entry key value) % SIZE_T =
            c.current_memory_usage_ + entry_size sizeof_entry key value :=
          Nat.mod_eq_of_lt (lt_of_le_of_lt hfit hi.max_lt)
        have hle : (c.current_memory_usage_ + entry_size sizeof_entry key value) % SIZE_T ≤
            c.max_capacity_ := by rw [hmod]; exact hfit
        have hb : b = true := hsucc (by omega) hle
        obtain ⟨a, m, rest, hl, _, _, _, hmiss, hfit'⟩ := hhead hb
        obtain ⟨hm, hcap1, hu1⟩ := hfit' hle
        have htake : c.lru_cache_.access_order_.take m = c.lru_cache_.access_order_ :=
          List.take_of_length_le hm
        have hrest : rest = c.lru_cache_.access_order_ := by
          rw [hmiss (by rw [htake]; exact hk), htake, hcap1, hcap, if_neg]
          rw [← hi.lru_size_eq]; omega
        refine ⟨i1, by rw [hcap1, hcap], ?_⟩
        rw [hu1, hmod, stored_bytes_eq, hl, hrest, List.map_cons, List.sum_cons, hu,
          stored_bytes_eq]
        dsimp only
        omega
    | get key now =>
      by_cases hk : key ∈ c.lru_cache_.keys
      · obtain ⟨n, hn, rfl⟩ := LRUCache.mem_keys_iff.1 hk
        rw [apply_get_eq sizeof_entry (facade_get_hit hi hn now)] at e
        cases e
        refine ⟨Inv_get_hit hi hn now, hcap, ?_⟩
        show c.current_memory_usage_ = _
        rw [hu, stored_bytes_split sizeof_entry hi hn, stored_bytes_eq]
        simp
      · rw [apply_get_eq sizeof_entry (facade_get_miss hi hk now)] at e
        cases e
        exact ⟨⟨hi.wf, hi.cap_pos, hi.size_le, hi.key_eq, hi.max_lt, hi.usage_lt⟩, hcap, hu⟩
    | remove key =>
      by_cases hk : key ∈ c.lru_cache_.keys
      · obtain ⟨n, hn, rfl⟩ := LRUCache.mem_keys_iff.1 hk
        rw [apply_remove_eq sizeof_entry (facade_remove_hit sizeof_entry hi hn)] at e
        cases e
        refine ⟨Inv_remove_hit hi _ _, hcap, ?_⟩
        have hsplit := stored_bytes_split sizeof_entry hi hn
        have hlt := hi.usage_lt
        show (c.current_memory_usage_ + SIZE_T -
            entry_size sizeof_entry n.first n.second.value % SIZE_T) % SIZE_T = _
        rw [stored_bytes_eq]
        show _ = ((c.lru_cache_.access_order_.filter (fun x => x.first ≠ n.first)).map
          (fun n => entry_size sizeof_entry n.first n.second.value)).sum
        have h1 : entry_size sizeof_entry n.first n.second.value % SIZE_T =
            entry_size sizeof_entry n.first n.second.value :=
          Nat.mod_eq_of_lt (by omega)
        rw [h1]
        have h2 : c.current_memory_usage_ + SIZE_T -
            entry_size sizeof_entry n.first n.second.value =
            ((c.lru_cache_.access_order_.filter (fun x => x.first ≠ n.first)).map
              (fun n => entry_size sizeof_entry n.first n.second.value)).sum + SIZE_T := by
          omega
        rw [h2, Nat.add_mod_right]
        exact Nat.mod_eq_of_lt (by omega)
      · rw [apply_remove_eq sizeof_entry (facade_remove_miss sizeof_entry hi hk)] at e
        cases e
        exact ⟨hi, hcap, hu⟩
    | clear =>
      cases e
      exact ⟨Inv_clear hi, hcap, by simp [Cache.clear, LRUCache.clear, stored_bytes, contents]⟩
    | set_max_capacity capacity =>
      obtain ⟨c1', m, e1, i1, _, _, _, _, _, _, hsame, _⟩ :=
        set_max_capacity_spec hi capacity hv
      change c.set_max_capacity capacity = some c1 at e
      rw [e1] at e
      cases e
      rw [hsame hq]
      exact ⟨⟨hi.wf, hi.cap_pos, hi.size_le, hi.key_eq, hv, hi.usage_lt⟩, hcap, hu⟩

end Cache

/-- C5 fails on the code as stated. With `sizeof(CacheEntry) = 80` and
`max_capacity = 200`: after `set("a", ""); set("b", ""); set("c", "")` the third
call has run one eviction step (estimate 50) and the engine, whose entry limit
the step lowered to 1, has dropped `"b"` as well: `memory_usage()` is 193 while
the only stored entry `("c", "")` accounts for 81. And after `set("k", "");
set("k", "")` the usage is 162 for one stored entry of 81 bytes. -/
theorem Cache.usage_differs_from_stored_bytes :
    (((Cache.new 200).run 80 [.set "a" "" 0, .set "b" "" 1, .set "c" "" 2]).map
      (fun c => (c.memory_usage, c.stored_bytes 80, c.size)) = some (193, 81, 1)) ∧
    (((Cache.new 200).run 80 [.set "k" "" 0, .set "k" "" 1]).map
      (fun c => (c.memory_usage, c.stored_bytes 80, c.size)) = some (162, 81, 1)) := by
  constructor <;> decide

/-- C5, amended. After every sequence of facade operations on a fresh `Cache`
in which every `set` either is rejected for its size or writes a key that is
not stored at that moment, finds fewer than 10000 entries and finds
`memory_usage() + entry_size <= max_capacity`, and in which every
`set_max_capacity(n)` has `n >= memory_usage()`, `memory_usage()` equals the sum
over the stored entries of `len(key) + len(value) + sizeof(CacheEntry)`. -/
theorem Cache.usage_eq_stored_bytes (sizeof_entry : Nat) (c : Cache)
    (h : Cache.ExactReachable sizeof_entry c) :
    c.memory_usage = c.stored_bytes sizeof_entry :=
  h.exact.2.2

theorem Cache.usage_eq_stored_bytes_witness :
    Cache.memory_usage
      { lru_cache_ :=
          { access_order_ := [⟨1, "key1", ⟨"key1", "value1", 0, 0⟩⟩]
            cache_map_ := [("key1", 1)]
            capacity_ := 10000 }
        hits_ := 0
        misses_ := 0
        max_capacity_ := 1000
        current_memory_usage_ := 90 } =
    Cache.stored_bytes 80
      { lru_cache_ :=
          { access_order_ := [⟨1, "key1", ⟨"key1", "value1", 0, 0⟩⟩]
            cache_map_ := [("key1", 1)]
            capacity_ := 10000 }
        hits_ := 0
        misses_ := 0
        max_capacity_ := 1000
        current_memory_usage_ := 90 } :=
  Cache.usage_eq_stored_bytes 80 _
    (Cache.ExactReachable.step (Cache.new 1000) _ (Cache.Op.set "key1" "value1" 0)
      (Cache.ExactReachable.fresh 1000 (by decide)) trivial
      (Or.inr ⟨by decide, by decide, by decide⟩) (by decide))

theorem cons_ite_dropLast_eq_take {α : Type} (x : α) (l : List α) (cap : Nat)
    (hcap : 1 ≤ cap) (hlen : l.length ≤ cap) :
    x :: (if cap ≤ l.length then l.dropLast else l) = (x :: l).take cap := by
  rw [List.take_cons (by omega)]
  split
  · rw [List.dropLast_eq_take]
    congr 2
    omega
  · rw [List.take_of_length_le (by omega)]

theorem take_append_take {α : Type} (a b : List α) (n : Nat) :
    (a ++ b.take n).take n = (a ++ b).take n := by
  rw [List.take_append_eq_append_take, List.take_append_eq_append_take, List.take_take]
  congr 2
  omega

namespace Cache

theorem contents_eq_map (c : Cache) :
    c.contents = c.lru_cache_.access_order_.map (fun n => (n.first, n.second.value)) := rfl

theorem mem_contents_get {c : Cache} (h : c.Inv) {key value : String}
    (hm : (key, value) ∈ c.contents) (now : Nat) :
    ∃ c1, c.get key now = some (value, c1) := by
  obtain ⟨n, hn, e⟩ := List.mem_map.1 hm
  simp only [Prod.mk.injEq] at e
  obtain ⟨rfl, rfl⟩ := e
  exact ⟨_, facade_get_hit h hn now⟩

theorem not_mem_contents_get {c : Cache} (h : c.Inv) {key : String}
    (hm : key ∉ c.contents.map (fun e => e.1)) (now : Nat) :
    ∃ c1, c.get key now = some ("", c1) := by
  have hk : key ∉ c.lru_cache_.keys := by
    simpa [contents, LRUCache.keys, List.map_map, Function.comp_def] using hm
  exact ⟨_, facade_get_miss h hk now⟩

/-- Writes of pairwise distinct keys that are not stored and whose sizes fit
under `max_capacity_` all succeed without eviction by bytes; the engine keeps
the most recent ones up to its entry limit. -/
theorem set_all_spec (sizeof_entry : Nat) :
    ∀ (ws : List (String × String × Nat)) (c : Cache), c.Inv →
      (ws.map (fun w => w.1)).Nodup →
      (∀ w, w ∈ ws → w.1 ∉ c.lru_cache_.keys) →
      c.current_memory_usage_ + total_size sizeof_entry ws ≤ c.max_capacity_ →
      ∃ c1, set_all sizeof_entry c ws = some (true, c1) ∧ c1.Inv ∧
        c1.lru_cache_.capacity_ = c.lru_cache_.capacity_ ∧
        c1.max_capacity_ = c.max_capacity_ ∧
        c1.current_memory_usage_ = c.current_memory_usage_ + total_size sizeof_entry ws ∧
        c1.contents =
          ((ws.reverse.map (fun w => (w.1, w.2.1))) ++ c.contents).take
            c.lru_cache_.capacity_ := by
  intro ws
  induction ws with
  | nil =>
    intro c h _ _ _
    refine ⟨c, rfl, h, rfl, rfl, by simp [total_size], ?_⟩
    simp only [List.reverse_nil, List.map_nil, List.nil_append]
    rw [List.take_of_length_le]
    simpa [contents] using h.size_le
  | cons w ws ih =>
    intro c h hd hnew hsum
    obtain ⟨key, value, now⟩ := w
    simp only [List.map_cons, List.nodup_cons] at hd
    have htot : total_size sizeof_entry ((key, value, now) :: ws) =
        entry_size sizeof_entry key value + total_size sizeof_entry ws := by
      simp [total_size]
    rw [htot] at hsum
    have hfit : c.current_memory_usage_ + entry_size sizeof_entry key value ≤
        c.max_capacity_ := by omega
    have hmod : (c.current_memory_usage_ + entry_size sizeof_entry key value) % SIZE_T =
        c.current_memory_usage_ + entry_size sizeof_entry key value :=
      Nat.mod_eq_of_lt (lt_of_le_of_lt hfit h.max_lt)
    have hle : (c.current_memory_usage_ + entry_size sizeof_entry key value) % SIZE_T ≤
        c.max_capacity_ := by rw [hmod]; exact hfit
    obtain ⟨b, c', e1, i1, hmax1, _, _, hhead, hsucc⟩ := set_spec sizeof_entry h key value now
    have hb : b = true := hsucc (by omega) hle
    subst hb
    obtain ⟨a, m, rest, hl, _, hsub, _, hmiss, hfit'⟩ := hhead rfl
    obtain ⟨hm, hcap1, hu1⟩ := hfit' hle
    have hk : key ∉ c.lru_cache_.keys := hnew _ (List.mem_cons_self _ _)
    have htake : c.lru_cache_.access_order_.take m = c.lru_cache_.access_order_ :=
      List.take_of_length_le hm
    have hrest : rest = if c.lru_cache_.capacity_ ≤ c.lru_cache_.access_order_.length then
        c.lru_cache_.access_order_.dropLast else c.lru_cache_.access_order_ := by
      rw [hmiss (by rw [htake]; exact hk), htake, hcap1]
    have hcont : c'.contents = ((key, value) :: c.contents).take c.lru_cache_.capacity_ := by
      rw [← cons_ite_dropLast_eq_take _ _ _ h.cap_pos (by simpa [contents] using h.size_le)]
      rw [contents_eq_map c', hl, hrest, List.map_cons, contents_eq_map c, List.length_map]
      split
      · rw [List.map_dropLast]
      · rfl
    have hnew' : ∀ w, w ∈ ws → w.1 ∉ c'.lru_cache_.keys := by
      intro w hw hmem
      unfold LRUCache.keys at hmem
      rw [htake] at hsub
      rw [hl, List.map_cons, List.mem_cons] at hmem
      rcases hmem with hmem | hmem
      · have hmem' : w.1 = key := hmem
        exact hd.1 (hmem' ▸ List.mem_map_of_mem (fun w => w.1) hw)
      · exact hnew w (List.mem_cons_of_mem _ hw) ((hsub.map _).subset hmem)
    obtain ⟨c1, e2, i2, hcap2, hmax2, hu2, hcont2⟩ := ih c' i1 hd.2 hnew'
      (by rw [hu1, hmod, hmax1]; omega)
    refine ⟨c1, ?_, i2, by rw [hcap2, hcap1], by rw [hmax2, hmax1], ?_, ?_⟩
    · simp [set_all, e1, e2]
    · rw [hu2, hu1, hmod, htot]; omega
    · rw [hcont2, hcap1, hcont, take_append_take]
      simp [List.reverse_cons, List.map_append, List.append_assoc]

theorem many_writes_length (n : Nat) : (many_writes n).length = n := by
  induction n with
  | zero => rfl
  | succ n ih => simp [many_writes, ih]

theorem many_writes_key_length (n : Nat) :
    ∀ w, w ∈ many_writes n → w.1.length ≤ n ∧ w.2.1 = "v" := by
  induction n with
  | zero => intro w hw; simp [many_writes] at hw
  | succ n ih =>
    intro w hw
    simp only [many_writes, List.mem_cons] at hw
    rcases hw with rfl | hw
    · exact ⟨by simp [String.length], rfl⟩
    · exact ⟨Nat.le_succ_of_le (ih w hw).1, (ih w hw).2⟩

theorem many_writes_nodup (n : Nat) : ((many_writes n).map (fun w => w.1)).Nodup := by
  induction n with
  | zero => simp [many_writes]
  | succ n ih =>
    simp only [many_writes, List.map_cons, List.nodup_cons]
    refine ⟨?_, ih⟩
    intro hm
    obtain ⟨w, hw, e⟩ := List.mem_map.1 hm
    have h1 := (many_writes_key_length n w hw).1
    have h2 : w.1.length = n + 1 := by
      rw [e]; simp [String.length]
    omega

theorem many_writes_total (sizeof_entry n : Nat) :
    total_size sizeof_entry (many_writes n) ≤ n * (n + 1 + sizeof_entry) := by
  have h := List.sum_le_card_nsmul
    ((many_writes n).map (fun w => entry_size sizeof_entry w.1 w.2.1)) (n + 1 + sizeof_entry)
    (by
      intro x hx
      obtain ⟨w, hw, rfl⟩ := List.mem_map.1 hx
      obtain ⟨h1, h2⟩ := many_writes_key_length n w hw
      simp only [entry_size, h2]
      have : ("v" : String).length = 1 := rfl
      omega)
  simpa [total_size, many_writes_length] using h

/-- When the engine's entry limit is `n`, the first of the `n + 1` writes of
`many_writes (n + 1)` is no longer stored after the last one. -/
theorem many_writes_lost (sizeof_entry max_capacity n : Nat) (hmax : max_capacity < SIZE_T)
    (hfit : (n + 1) * (n + 1 + 1 + sizeof_entry) ≤ max_capacity) (hn : n = 10000) :
    ∃ c c1, set_all sizeof_entry (Cache.new max_capacity) (many_writes (n + 1)) =
        some (true, c) ∧
      c.get (String.mk (List.replicate (n + 1) 'k')) 0 = some ("", c1) := by
  have htot := many_writes_total sizeof_entry (n + 1)
  obtain ⟨c, e, i, _, _, _, hcont⟩ := set_all_spec sizeof_entry (many_writes (n + 1))
    (Cache.new max_capacity) (Inv_new _ hmax) (many_writes_nodup (n + 1))
    (by intro w _; simp [Cache.new, LRUCache.new, LRUCache.keys])
    (by
      show 0 + _ ≤ max_capacity
      omega)
  have hkeys : (String.mk (List.replicate (n + 1) 'k')) ∉ c.contents.map (fun e => e.1) := by
    have hsplit : many_writes (n + 1) =
        (String.mk (List.replicate (n + 1) 'k'), "v", 0) :: many_writes n := rfl
    rw [hcont, hsplit, List.reverse_cons, List.map_append, List.append_assoc]
    have hlen : ((many_writes n).reverse.map (fun w => (w.1, w.2.1))).length =
        (Cache.new max_capacity).lru_cache_.capacity_ := by
      rw [List.length_map, List.length_reverse, many_writes_length]
      exact hn
    rw [List.take_left' hlen]
    intro hm
    simp only [List.map_map, List.mem_map, List.mem_reverse, Function.comp_apply] at hm
    obtain ⟨w, hw, e⟩ := hm
    have h1 := (many_writes_key_length n w hw).1
    have h2 : w.1.length = n + 1 := by rw [e]; simp [String.length]
    omega
  obtain ⟨c1, e1⟩ := not_mem_contents_get i hkeys 0
  exact ⟨c, c1, e, e1⟩

end Cache

/-- C6 fails on the code as stated. With `sizeof(CacheEntry) = 80` and the
default capacity of 1 GiB, the 10001 writes of `many_writes 10001` have pairwise
distinct keys and a total estimated size below `max_capacity`; every `set`
returns true, yet `get` of the first key written returns the empty string
instead of `"v"`: the engine holds at most 10000 entries and its `put` has
dropped the oldest one. -/
theorem Cache.first_of_10001_writes_lost :
    ((Cache.many_writes 10001).map (fun w => w.1)).Nodup ∧
    Cache.total_size 80 (Cache.many_writes 10001) < 1024 * 1024 * 1024 ∧
    (Cache.many_writes 10001).head? = some (String.mk (List.replicate 10001 'k'), "v", 0) ∧
    ∃ c c1, Cache.set_all 80 (Cache.new (1024 * 1024 * 1024)) (Cache.many_writes 10001) =
        some (true, c) ∧
      c.get (String.mk (List.replicate 10001 'k')) 0 = some ("", c1) := by
  refine ⟨Cache.many_writes_nodup 10001,
    lt_of_le_of_lt (Cache.many_writes_total 80 10001) (by norm_num), rfl, ?_⟩
  exact Cache.many_writes_lost 80 (1024 * 1024 * 1024) 10000 (by norm_num [SIZE_T])
    (by norm_num) rfl

/-- C6, amended. For every sequence of at most 10000 `Cache::set` calls with
pairwise distinct keys on a fresh `Cache` whose total estimated size (sum of
`len(key) + len(value) + sizeof(CacheEntry)`) stays below `max_capacity`, every
`set` returns true and afterwards `get(k)` returns the value written for `k`,
for every key `k` written. -/
theorem Cache.distinct_writes_retrievable (sizeof_entry max_capacity : Nat)
    (ws : List (String × String × Nat)) (hmax : max_capacity < SIZE_T)
    (hd : (ws.map (fun w => w.1)).Nodup)
    (hsum : Cache.total_size sizeof_entry ws < max_capacity)
    (hlen : ws.length ≤ 10000) :
    ∃ c, Cache.set_all sizeof_entry (Cache.new max_capacity) ws = some (true, c) ∧
      ∀ w, w ∈ ws → ∀ now, ∃ c1, c.get w.1 now = some (w.2.1, c1) := by
  obtain ⟨c, e, i, _, _, _, hcont⟩ := Cache.set_all_spec sizeof_entry ws
    (Cache.new max_capacity) (Cache.Inv_new _ hmax) hd
    (by intro w _; simp [Cache.new, LRUCache.new, LRUCache.keys])
    (by
      show 0 + _ ≤ max_capacity
      omega)
  refine ⟨c, e, ?_⟩
  intro w hw now
  apply Cache.mem_contents_get i
  rw [hcont]
  have : (Cache.new max_capacity).contents = [] := rfl
  rw [this, List.append_nil, List.take_of_length_le]
  · exact List.mem_map.2 ⟨w, List.mem_reverse.2 hw, rfl⟩
  · rw [List.length_map, List.length_reverse]
    exact hlen

theorem Cache.distinct_writes_retrievable_witness :
    ∃ c, Cache.set_all 80 (Cache.new 1048576) [("key1", "value1", 0), ("key2", "value2", 1)] =
        some (true, c) ∧
      ∀ w, w ∈ [("key1", "value1", 0), ("key2", "value2", 1)] →
        ∀ now, ∃ c1, c.get w.1 now = some (w.2.1, c1) :=
  Cache.distinct_writes_retrievable 80 1048576 [("key1", "value1", 0), ("key2", "value2", 1)]
    (by decide) (by decide) (by decide) (by decide)

section EngineClaims

variable {K V : Type} [DecidableEq K]

namespace LRUCache

theorem keys_eq_entries (c : LRUCache K V) : c.keys = c.entries.map (fun e => e.1) := by
  simp [LRUCache.keys, LRUCache.entries, List.map_map, Function.comp_def]

theorem length_filter_first (l : List (ListNode K V))
    (hk : (l.map (fun n => n.first)).Nodup) (n : ListNode K V) (hn : n ∈ l) :
    (l.filter (fun x => x.first ≠ n.first)).length + 1 = l.length := by
  have := (perm_cons_filter_first l hk n hn).length_eq
  simpa using this.symm

theorem not_mem_keys_filter (l : List (ListNode K V)) (k : K) :
    k ∉ (l.filter (fun x => x.first ≠ k)).map (fun n => n.first) := by
  intro hm
  obtain ⟨x, hx, e⟩ := List.mem_map.1 hm
  have := (List.mem_filter.1 hx).2
  simp [e] at this

end LRUCache

end EngineClaims

/-- C17. `LRUCache::put` on a key that is already present, in a consistent
engine (full or not), replaces its value, moves it to the head, evicts nothing
and leaves `size()`, the capacity and all other entries with their order
unchanged. Hence, from an empty engine of capacity 3, `put k1, k2, k3;
put(k1, v'); put k4` leaves exactly `k4, k1, k3` (it evicts `k2`) and `get(k1)`
returns `v'`. -/
theorem LRUCache.put_present_updates {K V : Type} [DecidableEq K] :
    (∀ (c : LRUCache K V) (k : K) (v0 v : V), c.WF → (k, v0) ∈ c.entries →
      ∃ c1, c.put k v = some c1 ∧ c1.WF ∧
        c1.entries = (k, v) :: c.entries.filter (fun e => e.1 ≠ k) ∧
        c1.size = c.size ∧ c1.capacity = c.capacity) ∧
    (∀ (k1 k2 k3 k4 : K) (v1 v2 v3 v4 w : V),
      k1 ≠ k2 → k1 ≠ k3 → k1 ≠ k4 → k2 ≠ k3 → k2 ≠ k4 → k3 ≠ k4 →
      ∃ c1 c2, (((((LRUCache.new 3 : LRUCache K V).put k1 v1).bind fun e => e.put k2 v2).bind
          fun e => e.put k3 v3).bind fun e => e.put k1 w).bind (fun e => e.put k4 v4) =
          some c1 ∧
        c1.entries = [(k4, v4), (k1, w), (k3, v3)] ∧
        c1.get k1 = some (some w, c2)) := by
  refine ⟨?_, ?_⟩
  · intro c k v0 v h hkv
    obtain ⟨n, hn, rfl, rfl⟩ := LRUCache.mem_entries_iff.1 hkv
    refine ⟨_, LRUCache.put_hit h hn v, LRUCache.WF_touch h hn v, ?_, rfl, rfl⟩
    simp only [LRUCache.entries, List.map_cons, LRUCache.entries_filter]
  · intro k1 k2 k3 k4 v1 v2 v3 v4 w h12 h13 h14 h23 h24 h34
    have h21 := Ne.symm h12
    have h31 := Ne.symm h13
    have h41 := Ne.symm h14
    have h32 := Ne.symm h23
    have h42 := Ne.symm h24
    have h43 := Ne.symm h34
    simp [LRUCache.new, LRUCache.put, LRUCache.get, LRUCache.erase_lru, LRUCache.entries,
      map_find, map_assign, map_erase, list_deref, list_erase, list_fresh, List.find?_cons,
      List.filter_cons, h12, h13, h14, h23, h24, h34, h21, h31, h41, h32, h42, h43]

theorem LRUCache.put_present_updates_witness :
    ∃ c1 c2, (((((LRUCache.new 3 : LRUCache String String).put "key1" "value1").bind
        fun e => e.put "key2" "value2").bind fun e => e.put "key3" "value3").bind
        fun e => e.put "key1" "value1_updated").bind (fun e => e.put "key4" "value4") =
        some c1 ∧
      c1.entries = [("key4", "value4"), ("key1", "value1_updated"), ("key3", "value3")] ∧
      c1.get "key1" = some (some "value1_updated", c2) :=
  (@LRUCache.put_present_updates String String _).2 "key1" "key2" "key3" "key4"
    "value1" "value2" "value3" "value4" "value1_updated"
    (by decide) (by decide) (by decide) (by decide) (by decide) (by decide)

/-- C18. On a consistent engine `LRUCache::remove(k)` has a defined result and
returns true if and only if `k` was present. When it returns true, `k` is
absent afterwards, `size()` has decreased by one, the capacity is unchanged and
all other entries keep their values and relative recency order; when it returns
false the engine state is unchanged. -/
theorem LRUCache.remove_spec {K V : Type} [DecidableEq K] (c : LRUCache K V) (k : K)
    (h : c.WF) :
    ∃ b c1, c.remove k = some (b, c1) ∧ (b = true ↔ k ∈ c.keys) ∧
      (b = true → k ∉ c1.keys ∧ c1.get k = some (none, c1) ∧ c1.size + 1 = c.size ∧
        c1.capacity = c.capacity ∧ c1.WF ∧
        c1.entries = c.entries.filter (fun e => e.1 ≠ k)) ∧
      (b = false → c1 = c) := by
  by_cases hk : k ∈ c.keys
  · obtain ⟨n, hn, rfl⟩ := LRUCache.mem_keys_iff.1 hk
    have w1 := LRUCache.WF_erase_key h n.first
    have hk1 : n.first ∉ (LRUCache.mk (c.access_order_.filter (fun x => x.first ≠ n.first))
        (map_erase c.cache_map_ n.first) c.capacity_).keys :=
      LRUCache.not_mem_keys_filter _ _
    refine ⟨true, _, LRUCache.remove_hit h hn, by simp [hk], fun _ => ⟨hk1,
      LRUCache.get_miss w1 hk1, ?_, rfl, w1, ?_⟩, by simp⟩
    · show (map_erase c.cache_map_ n.first).length + 1 = c.cache_map_.length
      have e1 := w1.size_eq
      have e2 := h.size_eq
      have e3 := LRUCache.length_filter_first _ h.key_nodup n hn
      simp only at e1
      omega
    · simp only [LRUCache.entries, LRUCache.entries_filter]
  · exact ⟨false, c, LRUCache.remove_miss h hk, by simp [hk], by simp, fun _ => rfl⟩

theorem LRUCache.remove_spec_witness :
    ∃ b c1, (LRUCache.mk [⟨2, "key2", "value2"⟩, ⟨1, "key1", "value1"⟩]
        [("key2", 2), ("key1", 1)] 3).remove "key1" = some (b, c1) ∧
      (b = true ↔ "key1" ∈ (LRUCache.mk [⟨2, "key2", "value2"⟩, ⟨1, "key1", "value1"⟩]
        [("key2", 2), ("key1", 1)] 3).keys) ∧
      (b = true → "key1" ∉ c1.keys ∧ c1.get "key1" = some (none, c1) ∧
        c1.size + 1 = (LRUCache.mk [⟨2, "key2", "value2"⟩, ⟨1, "key1", "value1"⟩]
          [("key2", 2), ("key1", 1)] 3).size ∧
        c1.capacity = (LRUCache.mk [⟨2, "key2", "value2"⟩, ⟨1, "key1", "value1"⟩]
          [("key2", 2), ("key1", 1)] 3).capacity ∧ c1.WF ∧
        c1.entries = (LRUCache.mk [⟨2, "key2", "value2"⟩, ⟨1, "key1", "value1"⟩]
          [("key2", 2), ("key1", 1)] 3).entries.filter (fun e => e.1 ≠ "key1")) ∧
      (b = false → c1 = LRUCache.mk [⟨2, "key2", "value2"⟩, ⟨1, "key1", "value1"⟩]
        [("key2", 2), ("key1", 1)] 3) :=
  LRUCache.remove_spec
    (LRUCache.mk [⟨2, "key2", "value2"⟩, ⟨1, "key1", "value1"⟩] [("key2", 2), ("key1", 1)] 3)
    "key1"
    ⟨by decide, by decide, by decide, by
      intro k a
      simp only [List.mem_cons, Prod.mk.injEq, List.mem_singleton, List.not_mem_nil, or_false]
      constructor
      · rintro (⟨rfl, rfl⟩ | ⟨rfl, rfl⟩)
        · exact ⟨_, Or.inl rfl, rfl, rfl⟩
        · exact ⟨_, Or.inr rfl, rfl, rfl⟩
      · rintro ⟨n, rfl | rfl, rfl, rfl⟩
        · exact Or.inl ⟨rfl, rfl⟩
        · exact Or.inr ⟨rfl, rfl⟩⟩

/-- C20. `LRUCache::clear()` leaves `size() = 0` and makes `get` return absent
for every key, does not change `capacity()`, and is idempotent: the state after
`clear(); clear()` equals the state after a single `clear()`. -/
theorem LRUCache.clear_spec {K V : Type} [DecidableEq K] (c : LRUCache K V) :
    c.clear.size = 0 ∧ (∀ k, c.clear.get k = some (none, c.clear)) ∧
      c.clear.capacity = c.capacity ∧ c.clear.clear = c.clear := by
  refine ⟨rfl, ?_, rfl, rfl⟩
  intro k
  simp [LRUCache.clear, LRUCache.get, map_find]

/-- C19. On a consistent engine `LRUCache::set_capacity(N')` has a defined
result: `capacity()` returns `N'`, `size()` is `min(old size, N')`, the
surviving entries are exactly the first `N'` of the recency list with values and
order unchanged, and when the old size is at most `N'` nothing but the capacity
changes. -/
theorem LRUCache.set_capacity_keeps_most_recent {K V : Type} [DecidableEq K]
    (c : LRUCache K V) (capacity : Nat) (h : c.WF) :
    ∃ c1, c.set_capacity capacity = some c1 ∧ c1.WF ∧ c1.capacity = capacity ∧
      c1.size = min c.size capacity ∧ c1.entries = c.entries.take capacity ∧
      (c.size ≤ capacity → c1 = { c with capacity_ := capacity }) := by
  obtain ⟨c1, e1, w1, cap1, l1⟩ := LRUCache.set_capacity_spec h capacity
  refine ⟨c1, e1, w1, cap1, ?_, ?_, ?_⟩
  · show c1.cache_map_.length = min c.cache_map_.length capacity
    rw [w1.size_eq, h.size_eq, l1, List.length_take, Nat.min_comm]
  · simp only [LRUCache.entries, l1, List.map_take]
  · intro hle
    have hle' : ¬ c.cache_map_.length > capacity := by
      have : c.size = c.cache_map_.length := rfl
      omega
    have : c.set_capacity capacity = some { c with capacity_ := capacity } := by
      simp only [LRUCache.set_capacity, LRUCache.set_capacity_loop, hle', if_false]
    rw [this] at e1
    cases e1
    rfl

theorem LRUCache.set_capacity_keeps_most_recent_witness :
    ∃ c1, (LRUCache.mk [⟨3, "key3", "value3"⟩, ⟨2, "key2", "value2"⟩, ⟨1, "key1", "value1"⟩]
        [("key3", 3), ("key2", 2), ("key1", 1)] 3).set_capacity 2 = some c1 ∧ c1.WF ∧
      c1.capacity = 2 ∧
      c1.size = min (LRUCache.mk
        [⟨3, "key3", "value3"⟩, ⟨2, "key2", "value2"⟩, ⟨1, "key1", "value1"⟩]
        [("key3", 3), ("key2", 2), ("key1", 1)] 3).size 2 ∧
      c1.entries = (LRUCache.mk
        [⟨3, "key3", "value3"⟩, ⟨2, "key2", "value2"⟩, ⟨1, "key1", "value1"⟩]
        [("key3", 3), ("key2", 2), ("key1", 1)] 3).entries.take 2 ∧
      ((LRUCache.mk [⟨3, "key3", "value3"⟩, ⟨2, "key2", "value2"⟩, ⟨1, "key1", "value1"⟩]
        [("key3", 3), ("key2", 2), ("key1", 1)] 3).size ≤ 2 →
        c1 = { (LRUCache.mk
          [⟨3, "key3", "value3"⟩, ⟨2, "key2", "value2"⟩, ⟨1, "key1", "value1"⟩]
          [("key3", 3), ("key2", 2), ("key1", 1)] 3) with capacity_ := 2 }) :=
  LRUCache.set_capacity_keeps_most_recent
    (LRUCache.mk [⟨3, "key3", "value3"⟩, ⟨2, "key2", "value2"⟩, ⟨1, "key1", "value1"⟩]
      [("key3", 3), ("key2", 2), ("key1", 1)] 3) 2
    ⟨by decide, by decide, by decide, by
      intro k a
      simp only [List.mem_cons, Prod.mk.injEq, List.mem_singleton, List.not_mem_nil, or_false]
      constructor
      · rintro (⟨rfl, rfl⟩ | ⟨rfl, rfl⟩ | ⟨rfl, rfl⟩)
        · exact ⟨_, Or.inl rfl, rfl, rfl⟩
        · exact ⟨_, Or.inr (Or.inl rfl), rfl, rfl⟩
        · exact ⟨_, Or.inr (Or.inr rfl), rfl, rfl⟩
      · rintro ⟨n, rfl | rfl | rfl, rfl, rfl⟩
        · exact Or.inl ⟨rfl, rfl⟩
        · exact Or.inr (Or.inl ⟨rfl, rfl⟩)
        · exact Or.inr (Or.inr ⟨rfl, rfl⟩)⟩

section EngineRuns

variable {K V : Type} [DecidableEq K]

namespace LRUCache

/-- A `put` with a defined result on a consistent engine that respects its
capacity is a `put` on an engine of capacity at least one. -/
theorem put_defined_cap {c c1 : LRUCache K V} (h : c.WF)
    (hsz : c.access_order_.length ≤ c.capacity_) {k : K} {v : V}
    (e : c.put k v = some c1) : 1 ≤ c.capacity_ := by
  by_contra hcap
  have hcap0 : c.capacity_ = 0 := by omega
  have hnil : c.access_order_ = [] := List.length_eq_zero.1 (by omega)
  have hk : k ∉ c.keys := by simp [LRUCache.keys, hnil]
  have hm : c.cache_map_.length = 0 := by rw [h.size_eq, hnil]; rfl
  simp [LRUCache.put, h.find_none hk, hcap0, LRUCache.erase_lru, hnil] at e

/-- Every call other than a `put` on an engine of capacity zero has a defined
result on a consistent engine that respects its capacity, and leaves such an
engine. A call that accesses a key successfully leaves that key at the head, in
front of a sublist of the old recency order; any other call leaves a sublist of
it. -/
theorem engine_apply_spec {c : LRUCache K V} (h : c.WF)
    (hsz : c.access_order_.length ≤ c.capacity_) (op : Op K V)
    (hp : ∀ k v, op = Op.put k v → 1 ≤ c.capacity_) :
    ∃ c1, c.apply op = some c1 ∧ c1.WF ∧ c1.access_order_.length ≤ c1.capacity_ ∧
      (∀ n, op = Op.set_capacity n → c1.capacity_ = n) ∧
      ((∀ n, op ≠ Op.set_capacity n) → c1.capacity_ = c.capacity_) ∧
      (∀ k, c.accessed op = some k → ∃ rest, c1.keys = k :: rest ∧ rest.Sublist c.keys) ∧
      (c.accessed op = none → c1.keys.Sublist c.keys) ∧
      (∀ k, k ∈ c1.keys → k ∈ c.keys ∨ ∃ v, op = Op.put k v) := by
  cases op with
  | get key =>
    by_cases hk : key ∈ c.keys
    · obtain ⟨n, hn, rfl⟩ := mem_keys_iff.1 hk
      have hlen := length_filter_first _ h.key_nodup n hn
      have hsub : ((c.access_order_.filter (fun x => x.first ≠ n.first)).map
          (fun n => n.first)).Sublist c.keys := (List.filter_sublist _).map _
      refine ⟨_, by simp only [LRUCache.apply, get_hit h hn, Option.map_some'],
        WF_touch h hn n.second, ?_, by simp, fun _ => rfl, ?_, ?_, ?_⟩
      · simp only [List.length_cons]; omega
      · intro k hacc
        simp only [LRUCache.accessed, h.find_of_mem hn, Option.isSome_some, if_true,
          Option.some.injEq] at hacc
        subst hacc
        exact ⟨_, rfl, hsub⟩
      · intro hacc
        simp [LRUCache.accessed, h.find_of_mem hn] at hacc
      · intro k hk1
        left
        rcases List.mem_cons.1 hk1 with e | e
        · rw [e]; exact hk
        · exact hsub.subset e
    · refine ⟨c, by simp only [LRUCache.apply, get_miss h hk, Option.map_some'], h, hsz,
        by simp, fun _ => rfl, ?_, fun _ => List.Sublist.refl _, fun k hk1 => Or.inl hk1⟩
      intro k hacc
      simp [LRUCache.accessed, h.find_none hk] at hacc
  | put key value =>
    have hcap := hp key value rfl
    obtain ⟨a, c1, rest, e1, w1, cap1, l1, hsub, hlen, _⟩ := put_spec h hcap hsz key value
    refine ⟨c1, e1, w1, by rw [l1, cap1]; exact hlen, by simp, fun _ => cap1, ?_, ?_, ?_⟩
    · intro k hacc
      simp only [LRUCache.accessed, Option.some.injEq] at hacc
      subst hacc
      exact ⟨rest.map (fun n => n.first), by simp [LRUCache.keys, l1],
        hsub.map (fun n => n.first)⟩
    · intro hacc
      simp [LRUCache.accessed] at hacc
    · intro k hk1
      simp only [LRUCache.keys, l1, List.map_cons, List.mem_cons] at hk1
      rcases hk1 with e | e
      · right; exact ⟨value, by rw [e]⟩
      · left; exact (hsub.map (fun n => n.first)).subset e
  | remove key =>
    by_cases hk : key ∈ c.keys
    · obtain ⟨n, hn, rfl⟩ := mem_keys_iff.1 hk
      have hsub : ((c.access_order_.filter (fun x => x.first ≠ n.first)).map
          (fun n => n.first)).Sublist c.keys := (List.filter_sublist _).map _
      refine ⟨_, by simp only [LRUCache.apply, remove_hit h hn, Option.map_some'],
        WF_erase_key h n.first, le_trans (List.length_filter_le _ _) hsz, by simp,
        fun _ => rfl, ?_, fun _ => hsub, fun k hk1 => Or.inl (hsub.subset hk1)⟩
      intro k hacc
      simp [LRUCache.accessed] at hacc
    · refine ⟨c, by simp only [LRUCache.apply, remove_miss h hk, Option.map_some'], h, hsz,
        by simp, fun _ => rfl, ?_, fun _ => List.Sublist.refl _, fun k hk1 => Or.inl hk1⟩
      intro k hacc
      simp [LRUCache.accessed] at hacc
  | clear =>
    refine ⟨c.clear, rfl, WF_clear c, by simp [LRUCache.clear], by simp, fun _ => rfl,
      ?_, ?_, ?_⟩
    · intro k hacc
      simp [LRUCache.accessed] at hacc
    · intro _
      simp [LRUCache.clear, LRUCache.keys]
    · intro k hk1
      simp [LRUCache.clear, LRUCache.keys] at hk1
  | set_capacity capacity =>
    obtain ⟨c1, e1, w1, cap1, l1⟩ := set_capacity_spec h capacity
    have hsub : c1.keys.Sublist c.keys := by
      simp only [LRUCache.keys, l1]
      exact (List.take_sublist _ _).map _
    refine ⟨c1, e1, w1, ?_, ?_, ?_, ?_, fun _ => hsub,
      fun k hk1 => Or.inl (hsub.subset hk1)⟩
    · rw [l1, cap1, List.length_take]; omega
    · intro n e
      cases e
      exact cap1
    · intro hne
      exact absurd rfl (hne capacity)
    · intro k hacc
      simp [LRUCache.accessed] at hacc

/-- What a call with a defined result leaves behind. -/
theorem engine_apply_of_some {c c1 : LRUCache K V} (h : c.WF)
    (hsz : c.access_order_.length ≤ c.capacity_) (op : Op K V)
    (e : c.apply op = some c1) :
    c1.WF ∧ c1.access_order_.length ≤ c1.capacity_ ∧
      (∀ k, c.accessed op = some k → ∃ rest, c1.keys = k :: rest ∧ rest.Sublist c.keys) ∧
      (c.accessed op = none → c1.keys.Sublist c.keys) ∧
      (∀ k, k ∈ c1.keys → k ∈ c.keys ∨ ∃ v, op = Op.put k v) := by
  have hp : ∀ k v, op = Op.put k v → 1 ≤ c.capacity_ := by
    intro k v eop
    subst eop
    exact put_defined_cap h hsz e
  obtain ⟨c2, e2, w2, sz2, _, _, r1, r2, r3⟩ := engine_apply_spec h hsz op hp
  rw [e] at e2
  cases e2
  exact ⟨w2, sz2, r1, r2, r3⟩

/-- Calls that keep the capacity at least one have a defined result on an
engine of capacity at least one, and leave such an engine. -/
theorem engine_apply_defined {c : LRUCache K V} (h : c.WF)
    (hsz : c.access_order_.length ≤ c.capacity_) (hcap : 1 ≤ c.capacity_) (op : Op K V)
    (hv : op.valid) : ∃ c1, c.apply op = some c1 ∧ 1 ≤ c1.capacity_ := by
  obtain ⟨c1, e1, _, _, hset, hother, _⟩ := engine_apply_spec h hsz op (fun _ _ _ => hcap)
  refine ⟨c1, e1, ?_⟩
  cases op with
  | set_capacity n => rw [hset n rfl]; exact hv
  | get key => rw [hother (by intro n e; cases e)]; exact hcap
  | put key value => rw [hother (by intro n e; cases e)]; exact hcap
  | remove key => rw [hother (by intro n e; cases e)]; exact hcap
  | clear => rw [hother (by intro n e; cases e)]; exact hcap

/-- Every sequence of calls with a defined result, on a consistent engine that
respects its capacity, ends in such an engine, and every key it stores was
stored before or was put. -/
theorem engine_run_of_some (ops : List (Op K V)) :
    ∀ c c1 : LRUCache K V, c.WF → c.access_order_.length ≤ c.capacity_ →
      c.run ops = some c1 →
      c1.WF ∧ c1.access_order_.length ≤ c1.capacity_ ∧
        (∀ k, k ∈ c1.keys → k ∈ c.keys ∨ ∃ v, Op.put k v ∈ ops) := by
  induction ops with
  | nil =>
    intro c c1 h hsz e
    cases e
    exact ⟨h, hsz, fun k hk => Or.inl hk⟩
  | cons op ops ih =>
    intro c c1 h hsz e
    cases hap : c.apply op with
    | none => simp [LRUCache.run, hap] at e
    | some c' =>
      simp only [LRUCache.run, hap, Option.some_bind] at e
      obtain ⟨w1, sz1, _, _, hk1⟩ := engine_apply_of_some h hsz op hap
      obtain ⟨w2, sz2, hk2⟩ := ih c' c1 w1 sz1 e
      refine ⟨w2, sz2, ?_⟩
      intro k hk
      rcases hk2 k hk with hk | ⟨v, hv'⟩
      · rcases hk1 k hk with hk | ⟨v, hv'⟩
        · exact Or.inl hk
        · exact Or.inr ⟨v, by rw [hv']; exact List.mem_cons_self _ _⟩
      · exact Or.inr ⟨v, List.mem_cons_of_mem _ hv'⟩

/-- Every sequence of calls that keep the capacity at least one has a defined
result on a consistent engine of capacity at least one. -/
theorem engine_run_defined (ops : List (Op K V)) :
    ∀ c : LRUCache K V, c.WF → c.access_order_.length ≤ c.capacity_ → 1 ≤ c.capacity_ →
      (∀ op, op ∈ ops → op.valid) → ∃ c1, c.run ops = some c1 ∧ 1 ≤ c1.capacity_ := by
  induction ops with
  | nil => intro c _ _ hcap _; exact ⟨c, rfl, hcap⟩
  | cons op ops ih =>
    intro c h hsz hcap hv
    obtain ⟨c1, e1, cap1⟩ := engine_apply_defined h hsz hcap op (hv op (List.mem_cons_self _ _))
    obtain ⟨w1, sz1, _⟩ := engine_apply_of_some h hsz op e1
    obtain ⟨c2, e2, cap2⟩ := ih c1 w1 sz1 cap1 (fun o ho => hv o (List.mem_cons_of_mem _ ho))
    exact ⟨c2, by simp only [LRUCache.run, e1, Option.some_bind, e2], cap2⟩

/-- The bookkeeping of `track` does not change what the calls do. -/
theorem track_fst (ops : List (Op K V)) :
    ∀ (c : LRUCache K V) (t : Nat) (last : K → Option Nat),
      (c.track t last ops).map (fun r => r.1) = c.run ops := by
  induction ops with
  | nil => intro c t last; rfl
  | cons op ops ih =>
    intro c t last
    cases hap : c.apply op with
    | none => simp [LRUCache.track, LRUCache.run, hap]
    | some c' => simp [LRUCache.track, LRUCache.run, hap, ih]

/-- The recorded access times of the stored keys decrease strictly along the
recency list and lie before the current time `t`. -/
theorem engine_track_of_some (ops : List (Op K V)) :
    ∀ (c c1 : LRUCache K V) (t : Nat) (last last1 : K → Option Nat),
      c.WF → c.access_order_.length ≤ c.capacity_ →
      (∀ k, k ∈ c.keys → ∃ tk, last k = some tk ∧ tk < t) →
      c.keys.Pairwise (more_recent last) →
      c.track t last ops = some (c1, last1) →
      (∀ k, k ∈ c1.keys → ∃ tk, last1 k = some tk) ∧
        c1.keys.Pairwise (more_recent last1) := by
  induction ops with
  | nil =>
    intro c c1 t last last1 _ _ hb hp e
    cases e
    exact ⟨fun k hk => ⟨_, (hb k hk).choose_spec.1⟩, hp⟩
  | cons op ops ih =>
    intro c c1 t last last1 h hsz hb hp e
    cases hap : c.apply op with
    | none => simp [LRUCache.track, hap] at e
    | some c' =>
      simp only [LRUCache.track, hap, Option.some_bind] at e
      obtain ⟨w1, sz1, hacc, hnone, _⟩ := engine_apply_of_some h hsz op hap
      have hstep : ∃ last', (match c.accessed op with
            | some key => fun k => if k = key then some t else last k
            | none => last) = last' ∧
          (∀ k, k ∈ c'.keys → ∃ tk, last' k = some tk ∧ tk < t + 1) ∧
          c'.keys.Pairwise (more_recent last') := by
        cases ha : c.accessed op with
        | none =>
          have hsub := hnone ha
          refine ⟨last, rfl, ?_, hp.sublist hsub⟩
          intro k hk
          obtain ⟨tk, e, hlt⟩ := hb k (hsub.subset hk)
          exact ⟨tk, e, by omega⟩
        | some key =>
          obtain ⟨rest, hkeys, hsub⟩ := hacc key ha
          have hnd : (key :: rest).Nodup := by rw [← hkeys]; exact w1.key_nodup
          have hne : ∀ x, x ∈ rest → x ≠ key := by
            intro x hx e
            exact (List.nodup_cons.1 hnd).1 (e ▸ hx)
          refine ⟨_, rfl, ?_, ?_⟩
          · intro k hk
            rw [hkeys] at hk
            rcases List.mem_cons.1 hk with e | e
            · exact ⟨t, by simp [e], by omega⟩
            · obtain ⟨tk, e1, hlt⟩ := hb k (hsub.subset e)
              exact ⟨tk, by simp [hne k e, e1], by omega⟩
          · rw [hkeys, List.pairwise_cons]
            constructor
            · intro b hb1
              obtain ⟨tb, e1, hlt⟩ := hb b (hsub.subset hb1)
              exact ⟨t, tb, by simp, by simp [hne b hb1, e1], hlt⟩
            · refine (hp.sublist hsub).imp_of_mem ?_
              intro a b ha1 hb1 hab
              obtain ⟨ta, tb, ea, eb, hlt⟩ := hab
              exact ⟨ta, tb, by simp [hne a ha1, ea], by simp [hne b hb1, eb], hlt⟩
      obtain ⟨last', el, hb', hp'⟩ := hstep
      rw [el] at e
      exact ih c' c1 (t + 1) last' last1 w1 sz1 hb' hp' e

end LRUCache

end EngineRuns

section EngineIndex

variable {K V : Type} [DecidableEq K]

namespace LRUCache

theorem WF.find_isSome_iff {c : LRUCache K V} (h : c.WF) (k : K) :
    (map_find c.cache_map_ k).isSome ↔ k ∈ c.keys := by
  by_cases hk : k ∈ c.keys
  · obtain ⟨n, hn, rfl⟩ := mem_keys_iff.1 hk
    simp [h.find_of_mem hn, hk]
  · simp [h.find_none hk, hk]

theorem WF.mem_map_keys_iff {c : LRUCache K V} (h : c.WF) (k : K) :
    k ∈ c.cache_map_.map (fun p => p.1) ↔ k ∈ c.keys := by
  constructor
  · intro hm
    obtain ⟨⟨k1, a⟩, hp, e⟩ := List.mem_map.1 hm
    simp only at e
    subst e
    obtain ⟨n, hn, e1, _⟩ := (h.map_iff _ _).1 hp
    exact mem_keys_iff.2 ⟨n, hn, e1⟩
  · intro hk
    obtain ⟨n, hn, rfl⟩ := mem_keys_iff.1 hk
    exact List.mem_map.2 ⟨(n.first, n.addr), (h.map_iff _ _).2 ⟨n, hn, rfl, rfl⟩, rfl⟩

theorem WF.deref_of_mem_map {c : LRUCache K V} (h : c.WF) {k : K} {a : Nat}
    (hp : (k, a) ∈ c.cache_map_) :
    ∃ n, list_deref c.access_order_ a = some n ∧ n.first = k := by
  obtain ⟨n, hn, e1, e2⟩ := (h.map_iff _ _).1 hp
  exact ⟨n, by rw [← e2]; exact list_deref_of_mem _ h.addr_nodup n hn, e1⟩

end LRUCache

end EngineIndex

/-- C13. Take any sequence of `LRUCache` calls on an empty engine of capacity
`N`. If `N >= 1` and the calls keep the capacity at least one, every call has a
defined result. Whenever every call has a defined result, the recency list of
the final state holds the stored keys (those the index finds) in strictly
decreasing order of the time of their most recent successful `get` or `put`, as
recorded by `track`: the head was accessed later than every other stored key
and the tail earlier than every other one. -/
theorem LRUCache.recency_order_by_last_access {K V : Type} [DecidableEq K] (N : Nat)
    (ops : List (LRUCache.Op K V)) :
    (1 ≤ N → (∀ op, op ∈ ops → op.valid) →
      ∃ c last, (LRUCache.new N : LRUCache K V).track 0 (fun _ => none) ops =
        some (c, last)) ∧
    (∀ c last, (LRUCache.new N : LRUCache K V).track 0 (fun _ => none) ops = some (c, last) →
      (LRUCache.new N : LRUCache K V).run ops = some c ∧
      (∀ k, (map_find c.cache_map_ k).isSome ↔ k ∈ c.keys) ∧
      (∀ k, k ∈ c.keys → ∃ t, last k = some t) ∧
      c.keys.Pairwise (LRUCache.more_recent last) ∧
      (∀ h k, c.keys.head? = some h → k ∈ c.keys → k ≠ h →
        LRUCache.more_recent last h k) ∧
      (∀ l k, c.keys.getLast? = some l → k ∈ c.keys → k ≠ l →
        LRUCache.more_recent last k l)) := by
  have hnew : (LRUCache.new N : LRUCache K V).access_order_.length ≤
      (LRUCache.new N : LRUCache K V).capacity_ := by simp [LRUCache.new]
  constructor
  · intro hN hv
    obtain ⟨c, r, _⟩ := LRUCache.engine_run_defined ops (LRUCache.new N : LRUCache K V)
      (LRUCache.WF_new N) hnew hN hv
    have hfst := LRUCache.track_fst ops (LRUCache.new N : LRUCache K V) 0 (fun _ => none)
    rw [r] at hfst
    cases ht : (LRUCache.new N : LRUCache K V).track 0 (fun _ => none) ops with
    | none => simp [ht] at hfst
    | some p => exact ⟨p.1, p.2, rfl⟩
  · intro c last e
    have r : (LRUCache.new N : LRUCache K V).run ops = some c := by
      rw [← LRUCache.track_fst ops _ 0 (fun _ => none), e]
      rfl
    obtain ⟨w, _, _⟩ := LRUCache.engine_run_of_some ops _ c (LRUCache.WF_new N) hnew r
    obtain ⟨hb, hp⟩ := LRUCache.engine_track_of_some ops
      (LRUCache.new N : LRUCache K V) c 0 (fun _ => none) last (LRUCache.WF_new N) hnew
      (by intro k hk; simp [LRUCache.new, LRUCache.keys] at hk)
      (by simp [LRUCache.new, LRUCache.keys]) e
    refine ⟨r, w.find_isSome_iff, hb, hp, ?_, ?_⟩
    · intro h k hh hk hne
      obtain ⟨ys, hys⟩ := List.head?_eq_some_iff.1 hh
      rw [hys] at hp hk
      rcases List.mem_cons.1 hk with e1 | e1
      · exact absurd e1 hne
      · exact (List.pairwise_cons.1 hp).1 k e1
    · intro l k hl hk hne
      obtain ⟨ys, hys⟩ := List.getLast?_eq_some_iff.1 hl
      rw [hys] at hp hk
      rcases List.mem_append.1 hk with e1 | e1
      · exact (List.pairwise_append.1 hp).2.2 k e1 l (List.mem_singleton_self l)
      · exact absurd (List.mem_singleton.1 e1) hne

theorem LRUCache.recency_order_by_last_access_witness :
    ∃ c last, (LRUCache.new 3 : LRUCache String String).track 0 (fun _ => none)
        [.put "key1" "value1", .put "key2" "value2", .put "key3" "value3", .get "key2",
          .put "key4" "value4"] = some (c, last) ∧
      c.keys.Pairwise (LRUCache.more_recent last) := by
  obtain ⟨h1, h2⟩ := @LRUCache.recency_order_by_last_access String String _ 3
    [.put "key1" "value1", .put "key2" "value2", .put "key3" "value3", .get "key2",
      .put "key4" "value4"]
  obtain ⟨c, last, e⟩ := h1 (by decide) (by
    intro op hop
    simp only [List.mem_cons, List.mem_singleton, List.not_mem_nil, or_false] at hop
    rcases hop with rfl | rfl | rfl | rfl | rfl <;> trivial)
  exact ⟨c, last, e, (h2 c last e).2.2.2.1⟩

/-- C14. `LRUCache` structural invariant. Take any sequence of calls (`get`,
`put`, `remove`, `clear`, `set_capacity`) on an empty engine of capacity `N`. If
`N >= 1` and the calls keep the capacity at least one, every call has a defined
result. Whenever every call has a defined result, afterwards the index and the
recency list hold the same set of keys, no key has two index entries, every
indexed key occurs exactly once in the list, every index entry locates the list
node carrying its own key, and `size()` equals both the index size and the list
length. -/
theorem LRUCache.structural_invariant {K V : Type} [DecidableEq K] (N : Nat)
    (ops : List (LRUCache.Op K V)) :
    (1 ≤ N → (∀ op, op ∈ ops → op.valid) →
      ∃ c, (LRUCache.new N : LRUCache K V).run ops = some c) ∧
    (∀ c, (LRUCache.new N : LRUCache K V).run ops = some c →
      (∀ k, k ∈ c.cache_map_.map (fun p => p.1) ↔ k ∈ c.keys) ∧
      (c.cache_map_.map (fun p => p.1)).Nodup ∧
      (∀ k, k ∈ c.cache_map_.map (fun p => p.1) → c.keys.count k = 1) ∧
      (∀ k a, (k, a) ∈ c.cache_map_ →
        ∃ n, list_deref c.access_order_ a = some n ∧ n.first = k) ∧
      c.size = c.cache_map_.length ∧ c.size = c.access_order_.length) := by
  have hnew : (LRUCache.new N : LRUCache K V).access_order_.length ≤
      (LRUCache.new N : LRUCache K V).capacity_ := by simp [LRUCache.new]
  constructor
  · intro hN hv
    obtain ⟨c, r, _⟩ := LRUCache.engine_run_defined ops (LRUCache.new N : LRUCache K V)
      (LRUCache.WF_new N) hnew hN hv
    exact ⟨c, r⟩
  · intro c r
    obtain ⟨w, _, _⟩ := LRUCache.engine_run_of_some ops _ c (LRUCache.WF_new N) hnew r
    refine ⟨w.mem_map_keys_iff, w.map_nodup, ?_, fun k a hp => w.deref_of_mem_map hp, rfl,
      w.size_eq⟩
    intro k hk
    exact List.count_eq_one_of_mem w.key_nodup ((w.mem_map_keys_iff k).1 hk)

theorem LRUCache.structural_invariant_witness :
    ∃ c, (LRUCache.new 2 : LRUCache String String).run
        [.put "key1" "value1", .put "key2" "value2", .get "key1", .put "key3" "value3",
          .remove "key1", .set_capacity 1, .clear] = some c ∧
      c.size = c.cache_map_.length ∧ c.size = c.access_order_.length := by
  obtain ⟨h1, h2⟩ := @LRUCache.structural_invariant String String _ 2
    [.put "key1" "value1", .put "key2" "value2", .get "key1", .put "key3" "value3",
      .remove "key1", .set_capacity 1, .clear]
  obtain ⟨c, e⟩ := h1 (by decide) (by
    intro op hop
    simp only [List.mem_cons, List.mem_singleton, List.not_mem_nil, or_false] at hop
    rcases hop with rfl | rfl | rfl | rfl | rfl | rfl | rfl
    all_goals first | trivial | exact Nat.le_refl 1)
  exact ⟨c, e, (h2 c e).2.2.2.2⟩

/-- C15. `LRUCache` capacity invariant. Take any sequence of calls on an empty
engine of capacity `N`. If `N >= 1` and the calls keep the capacity at least
one, every call has a defined result and so has a further `put`. Whenever every
call has a defined result, afterwards `size() <= capacity()`; a further `put`
with a defined result leaves at most `capacity()` entries, and a further
`set_capacity(N')` leaves at most `N'` entries. -/
theorem LRUCache.size_le_capacity {K V : Type} [DecidableEq K] (N : Nat)
    (ops : List (LRUCache.Op K V)) :
    (1 ≤ N → (∀ op, op ∈ ops → op.valid) →
      ∃ c, (LRUCache.new N : LRUCache K V).run ops = some c ∧
        ∀ k v, ∃ c1, c.put k v = some c1) ∧
    (∀ c, (LRUCache.new N : LRUCache K V).run ops = some c →
      c.size ≤ c.capacity ∧
      (∀ k v c1, c.put k v = some c1 → c1.capacity = c.capacity ∧ c1.size ≤ c1.capacity) ∧
      (∀ capacity, ∃ c1, c.set_capacity capacity = some c1 ∧ c1.capacity = capacity ∧
        c1.size ≤ capacity)) := by
  have hnew : (LRUCache.new N : LRUCache K V).access_order_.length ≤
      (LRUCache.new N : LRUCache K V).capacity_ := by simp [LRUCache.new]
  constructor
  · intro hN hv
    obtain ⟨c, r, hcap⟩ := LRUCache.engine_run_defined ops (LRUCache.new N : LRUCache K V)
      (LRUCache.WF_new N) hnew hN hv
    obtain ⟨w, hsz, _⟩ := LRUCache.engine_run_of_some ops _ c (LRUCache.WF_new N) hnew r
    refine ⟨c, r, ?_⟩
    intro k v
    obtain ⟨a, c1, rest, e1, _⟩ := LRUCache.put_spec w hcap hsz k v
    exact ⟨c1, e1⟩
  · intro c r
    obtain ⟨w, hsz, _⟩ := LRUCache.engine_run_of_some ops _ c (LRUCache.WF_new N) hnew r
    refine ⟨?_, ?_, ?_⟩
    · show c.cache_map_.length ≤ c.capacity_
      rw [w.size_eq]; exact hsz
    · intro k v c1 e
      have hcap := LRUCache.put_defined_cap w hsz e
      obtain ⟨a, c2, rest, e2, w2, cap2, l2, _, hlen, _⟩ := LRUCache.put_spec w hcap hsz k v
      rw [e] at e2
      cases e2
      refine ⟨cap2, ?_⟩
      show c1.cache_map_.length ≤ c1.capacity_
      rw [w2.size_eq, l2, cap2]
      exact hlen
    · intro capacity
      obtain ⟨c1, e1, w1, cap1, l1⟩ := LRUCache.set_capacity_spec w capacity
      refine ⟨c1, e1, cap1, ?_⟩
      show c1.cache_map_.length ≤ capacity
      rw [w1.size_eq, l1, List.length_take]
      exact Nat.min_le_left _ _

theorem LRUCache.size_le_capacity_witness :
    ∃ c, (LRUCache.new 3 : LRUCache String String).run
        [.put "key1" "value1", .put "key2" "value2", .put "key3" "value3",
          .put "key4" "value4"] = some c ∧ c.size ≤ c.capacity := by
  obtain ⟨h1, h2⟩ := @LRUCache.size_le_capacity String String _ 3
    [.put "key1" "value1", .put "key2" "value2", .put "key3" "value3", .put "key4" "value4"]
  obtain ⟨c, e, _⟩ := h1 (by decide) (by
    intro op hop
    simp only [List.mem_cons, List.mem_singleton, List.not_mem_nil, or_false] at hop
    rcases hop with rfl | rfl | rfl | rfl <;> trivial)
  exact ⟨c, e, (h2 c e).1⟩

/-- C16. On a consistent `LRUCache` of capacity at least one, `put(k, v)` has a
defined result and the `get(k)` that follows immediately returns a present
value equal to `v`. `get` of a key that is not stored returns absent and
changes nothing: this is the case of a key that was never put since the engine
was empty, of a key that `remove` was called on, of the tail key that a `put`
of a new key into a full engine evicted, and of a key beyond the first `N'`
entries after `set_capacity(N')`. -/
theorem LRUCache.put_then_get {K V : Type} [DecidableEq K] :
    (∀ (c : LRUCache K V) (k : K) (v : V), c.WF → 1 ≤ c.capacity →
      ∃ c1 c2, c.put k v = some c1 ∧ c1.get k = some (some v, c2)) ∧
    (∀ (c : LRUCache K V) (k : K), c.WF → k ∉ c.keys → c.get k = some (none, c)) ∧
    (∀ (N : Nat) (ops : List (LRUCache.Op K V)) (k : K), 1 ≤ N →
      (∀ op, op ∈ ops → op.valid) → (∀ v, LRUCache.Op.put k v ∉ ops) →
      ∃ c, (LRUCache.new N : LRUCache K V).run ops = some c ∧ c.get k = some (none, c)) ∧
    (∀ (c : LRUCache K V) (k : K), c.WF →
      ∃ b c1, c.remove k = some (b, c1) ∧ c1.get k = some (none, c1)) ∧
    (∀ (c : LRUCache K V) (k kl : K) (v : V), c.WF → 1 ≤ c.capacity →
      c.size = c.capacity → k ∉ c.keys → c.keys.getLast? = some kl →
      ∃ c1, c.put k v = some c1 ∧ c1.get kl = some (none, c1)) ∧
    (∀ (c : LRUCache K V) (capacity : Nat) (k : K), c.WF → k ∈ c.keys.drop capacity →
      ∃ c1, c.set_capacity capacity = some c1 ∧ c1.get k = some (none, c1)) := by
  refine ⟨?_, ?_, ?_, ?_, ?_, ?_⟩
  · intro c k v h hcap
    by_cases hk : k ∈ c.keys
    · obtain ⟨n, hn, rfl⟩ := LRUCache.mem_keys_iff.1 hk
      have w1 := LRUCache.WF_touch h hn v
      have hn1 : ({ n with second := v } : ListNode K V) ∈
          ({ n with second := v } :: c.access_order_.filter (fun x => x.first ≠ n.first)) :=
        List.mem_cons_self _ _
      exact ⟨_, _, LRUCache.put_hit h hn v, LRUCache.get_hit w1 hn1⟩
    · obtain ⟨a, c1, e1, w1, _, l1⟩ := LRUCache.put_miss h hk v hcap
      have hn1 : (⟨a, k, v⟩ : ListNode K V) ∈ c1.access_order_ := by
        rw [l1]; exact List.mem_cons_self _ _
      exact ⟨c1, _, e1, LRUCache.get_hit w1 hn1⟩
  · intro c k h hk
    exact LRUCache.get_miss h hk
  · intro N ops k hN hv hput
    have hnew : (LRUCache.new N : LRUCache K V).access_order_.length ≤
        (LRUCache.new N : LRUCache K V).capacity_ := by simp [LRUCache.new]
    obtain ⟨c, r, _⟩ := LRUCache.engine_run_defined ops (LRUCache.new N : LRUCache K V)
      (LRUCache.WF_new N) hnew hN hv
    obtain ⟨w, _, hkeys⟩ := LRUCache.engine_run_of_some ops _ c (LRUCache.WF_new N) hnew r
    refine ⟨c, r, LRUCache.get_miss w ?_⟩
    intro hk
    rcases hkeys k hk with h0 | ⟨v, hv'⟩
    · simp [LRUCache.new, LRUCache.keys] at h0
    · exact hput v hv'
  · intro c k h
    by_cases hk : k ∈ c.keys
    · obtain ⟨n, hn, rfl⟩ := LRUCache.mem_keys_iff.1 hk
      exact ⟨true, _, LRUCache.remove_hit h hn,
        LRUCache.get_miss (LRUCache.WF_erase_key h n.first) (LRUCache.not_mem_keys_filter _ _)⟩
    · exact ⟨false, c, LRUCache.remove_miss h hk, LRUCache.get_miss h hk⟩
  · intro c k kl v h hcap hfull hk hl
    obtain ⟨a, c1, e1, w1, _, l1⟩ := LRUCache.put_miss h hk v hcap
    have hlen : c.capacity_ ≤ c.access_order_.length := by
      have : c.size = c.cache_map_.length := rfl
      have := h.size_eq
      have : c.capacity = c.capacity_ := rfl
      omega
    rw [if_pos hlen] at l1
    refine ⟨c1, e1, LRUCache.get_miss w1 ?_⟩
    obtain ⟨ys, hys⟩ := List.getLast?_eq_some_iff.1 hl
    have hnd : (ys ++ [kl]).Nodup := by
      have := h.key_nodup
      unfold LRUCache.keys at hys
      rw [hys] at this
      exact this
    have hkk : c1.keys = k :: ys := by
      unfold LRUCache.keys at hys ⊢
      rw [l1, List.map_cons, List.map_dropLast, hys, List.dropLast_concat]
    rw [hkk]
    intro hm
    rcases List.mem_cons.1 hm with e | e
    · apply hk
      rw [← e, hys]
      simp
    · exact (List.nodup_append.1 hnd).2.2 e (List.mem_singleton_self kl)
  · intro c capacity k h hk
    obtain ⟨c1, e1, w1, _, l1⟩ := LRUCache.set_capacity_spec h capacity
    refine ⟨c1, e1, LRUCache.get_miss w1 ?_⟩
    have hnd : (c.keys.take capacity ++ c.keys.drop capacity).Nodup := by
      rw [List.take_append_drop]; exact h.key_nodup
    have hkk : c1.keys = c.keys.take capacity := by
      unfold LRUCache.keys
      rw [l1, List.map_take]
    rw [hkk]
    intro hm
    exact (List.nodup_append.1 hnd).2.2 hm hk

theorem LRUCache.put_then_get_witness :
    (∃ c1 c2, (LRUCache.new 3 : LRUCache String String).put "key1" "value1" = some c1 ∧
      c1.get "key1" = some (some "value1", c2)) ∧
    (LRUCache.new 3 : LRUCache String String).get "nonexistent" =
      some (none, LRUCache.new 3) := by
  obtain ⟨h1, h2, _⟩ := @LRUCache.put_then_get String String _
  exact ⟨h1 (LRUCache.new 3) "key1" "value1" (LRUCache.WF_new 3) (by decide),
    h2 (LRUCache.new 3) "nonexistent" (LRUCache.WF_new 3)
      (by simp [LRUCache.new, LRUCache.keys])⟩

namespace Cache

/-- The eviction loop is the repetition of `evict_step`. -/
theorem evict_loop_succ (fuel : Nat) (c : Cache) :
    evict_loop (fuel + 1) c =
      if c.current_memory_usage_ > c.target_usage ∧ c.lru_cache_.size > 0 then
        if c.lru_cache_.size > 1 then c.evict_step.bind (evict_loop fuel) else some c
      else some c := by
  simp only [evict_loop, evict_step]
  split
  · split
    · cases c.lru_cache_.set_capacity (c.lru_cache_.size - 1) <;> rfl
    · rfl
  · rfl

end Cache

/-- C11 fails on the code as stated. With `sizeof(CacheEntry) = 80` and
`max_capacity = 200`: after `set("a", ""); set("b", "")` the cache holds `b, a`
with usage 162, above the low-water mark 160. The eviction routine then runs
exactly one step, which removes the tail `("a", "")`, whose `entry_size` is 81,
and lowers `memory_usage()` by 50, to 112. -/
theorem Cache.evict_step_subtracts_estimate :
    (((Cache.new 200).run 80 [.set "a" "" 0, .set "b" "" 1]).bind (fun c =>
      c.evict_step.map (fun c1 =>
        (c.size, c.memory_usage, c1.size, c1.memory_usage, Cache.entry_size 80 "a" ""))) =
      some (2, 162, 1, 112, 81)) ∧
    (((Cache.new 200).run 80 [.set "a" "" 0, .set "b" "" 1]).bind (fun c =>
      c.evict_step.map (fun c1 => (c.contents.map (fun e => e.1), c1.contents.map (fun e => e.1)))) =
      some (["b", "a"], ["b"])) ∧
    (((Cache.new 200).run 80 [.set "a" "" 0, .set "b" "" 1]).bind (fun c =>
      c.evict_if_needed.map (fun r => (r.1, r.2.size, r.2.memory_usage))) =
      some (true, 1, 112)) := by
  refine ⟨?_, ?_, ?_⟩ <;> decide

/-- C11, amended. In every reachable `Cache` state that holds more than one
entry, a step of the facade eviction routine has a defined result: it removes
exactly one entry, the tail of the recency order, keeps the other entries with
their values and order, and decreases `memory_usage()` by the fixed estimate of
50 (to 0 when `memory_usage()` is at most 50). The eviction loop is the
repetition of this step while `memory_usage()` is above the low-water mark and
more than one entry is stored. -/
theorem Cache.evict_step_spec (sizeof_entry : Nat) (c : Cache)
    (hc : Cache.Reachable sizeof_entry c) (hsz : 1 < c.size) :
    (∃ c1, c.evict_step = some c1 ∧ c1.contents = c.contents.dropLast ∧
      c1.size + 1 = c.size ∧ c1.memory_usage = c.memory_usage - min c.memory_usage 50 ∧
      c1.capacity = c.capacity) ∧
    (∀ fuel, Cache.evict_loop (fuel + 1) c =
      if c.memory_usage > c.target_usage ∧ c.size > 0 then
        if c.size > 1 then c.evict_step.bind (Cache.evict_loop fuel) else some c
      else some c) := by
  refine ⟨?_, fun fuel => Cache.evict_loop_succ fuel c⟩
  have hi := hc.inv
  have hlen : c.lru_cache_.access_order_.length = c.size := hi.lru_size_eq.symm
  obtain ⟨l, el, wl, _, ll⟩ := LRUCache.set_capacity_spec hi.wf (c.lru_cache_.size - 1)
  have hsize : c.lru_cache_.size = c.size := rfl
  refine ⟨{ c with
      lru_cache_ := l
      current_memory_usage_ :=
        if c.current_memory_usage_ > 50 then c.current_memory_usage_ - 50 else 0 },
    by simp only [Cache.evict_step, el, Option.some_bind], ?_, ?_, ?_, rfl⟩
  · simp only [Cache.contents, ll, List.map_take, List.map_dropLast]
    rw [List.dropLast_eq_take, List.length_map, hlen, hsize]
  · show l.cache_map_.length + 1 = c.size
    rw [wl.size_eq, ll, List.length_take, hlen, hsize]
    omega
  · show (if c.current_memory_usage_ > 50 then c.current_memory_usage_ - 50 else 0) =
      c.current_memory_usage_ - min c.current_memory_usage_ 50
    split <;> omega

theorem Cache.evict_step_spec_witness :
    (∃ c1, Cache.evict_step
        { lru_cache_ :=
            { access_order_ := [⟨2, "b", ⟨"b", "", 1, 0⟩⟩, ⟨1, "a", ⟨"a", "", 0, 0⟩⟩]
              cache_map_ := [("b", 2), ("a", 1)]
              capacity_ := 10000 }
          hits_ := 0
          misses_ := 0
          max_capacity_ := 200
          current_memory_usage_ := 162 } = some c1 ∧
      c1.contents = [("b", "")] ∧ c1.size + 1 = 2 ∧ c1.memory_usage = 112) := by
  have hr : Cache.Reachable 80
      { lru_cache_ :=
          { access_order_ := [⟨2, "b", ⟨"b", "", 1, 0⟩⟩, ⟨1, "a", ⟨"a", "", 0, 0⟩⟩]
            cache_map_ := [("b", 2), ("a", 1)]
            capacity_ := 10000 }
        hits_ := 0
        misses_ := 0
        max_capacity_ := 200
        current_memory_usage_ := 162 } :=
    Cache.Reachable.step _ _ (Cache.Op.set "b" "" 1)
      (Cache.Reachable.step (Cache.new 200) _ (Cache.Op.set "a" "" 0)
        (Cache.Reachable.fresh 200 (by decide)) trivial rfl) trivial (by decide)
  obtain ⟨⟨c1, e, h1, h2, h3, _⟩, _⟩ := Cache.evict_step_spec 80 _ hr (by decide)
  exact ⟨c1, e, by rw [h1]; decide, h2, by rw [h3]; decide⟩

/-- C12 fails on the code. The sequence of `CacheTest.LRUEviction`, with
`sizeof(CacheEntry) = 80` and with `sizeof(CacheEntry) = 64`: on a `Cache`
constructed with 1 MiB, after `set_max_capacity(1000)`, the ten writes
`key_0 .. key_9` all return true, `get("key_5")` and `get("key_7")` return their
values, and after the writes `key_10 .. key_19` both `get("key_5")` and
`get("key_7")` return the empty string. -/
theorem Cache.lru_eviction_test_eval :
    ((((Cache.new 1048576).set_max_capacity 1000).bind fun c0 =>
      (c0.set_all 80
        [("key_0", "value_0", 0), ("key_1", "value_1", 0), ("key_2", "value_2", 0),
          ("key_3", "value_3", 0), ("key_4", "value_4", 0), ("key_5", "value_5", 0),
          ("key_6", "value_6", 0), ("key_7", "value_7", 0), ("key_8", "value_8", 0),
          ("key_9", "value_9", 0)]).bind fun r1 =>
        (r1.2.get "key_5" 0).bind fun g5 =>
          (g5.2.get "key_7" 0).bind fun g7 =>
            (g7.2.set_all 80
              [("key_10", "value_10", 0), ("key_11", "value_11", 0),
                ("key_12", "value_12", 0), ("key_13", "value_13", 0),
                ("key_14", "value_14", 0), ("key_15", "value_15", 0),
                ("key_16", "value_16", 0), ("key_17", "value_17", 0),
                ("key_18", "value_18", 0), ("key_19", "value_19", 0)]).bind fun r2 =>
              (r2.2.get "key_5" 0).bind fun h5 =>
                (h5.2.get "key_7" 0).map fun h7 => (r1.1, g5.1, g7.1, h5.1, h7.1)) =
      some (true, "value_5", "value_7", "", "")) ∧
    ((((Cache.new 1048576).set_max_capacity 1000).bind fun c0 =>
      (c0.set_all 64
        [("key_0", "value_0", 0), ("key_1", "value_1", 0), ("key_2", "value_2", 0),
          ("key_3", "value_3", 0), ("key_4", "value_4", 0), ("key_5", "value_5", 0),
          ("key_6", "value_6", 0), ("key_7", "value_7", 0), ("key_8", "value_8", 0),
          ("key_9", "value_9", 0)]).bind fun r1 =>
        (r1.2.get "key_5" 0).bind fun g5 =>
          (g5.2.get "key_7" 0).bind fun g7 =>
            (g7.2.set_all 64
              [("key_10", "value_10", 0), ("key_11", "value_11", 0),
                ("key_12", "value_12", 0), ("key_13", "value_13", 0),
                ("key_14", "value_14", 0), ("key_15", "value_15", 0),
                ("key_16", "value_16", 0), ("key_17", "value_17", 0),
                ("key_18", "value_18", 0), ("key_19", "value_19", 0)]).bind fun r2 =>
              (r2.2.get "key_5" 0).bind fun h5 =>
                (h5.2.get "key_7" 0).map fun h7 => (r1.1, g5.1, g7.1, h5.1, h7.1)) =
      some (true, "value_5", "value_7", "", "")) := by
  constructor <;> decide

namespace Protocol

/-! ## The command token -/

theorem char_toNat_ofNat_small (m : Nat) (h : m < 55296) : (Char.ofNat m).toNat = m := by
  have hv : m.isValidChar := Or.inl h
  unfold Char.ofNat
  rw [dif_pos hv]
  unfold Char.ofNatAux Char.toNat
  simp [UInt32.toNat, Nat.toUInt32, UInt32.ofNat', UInt32.ofNatCore, BitVec.toNat_ofNat]

theorem char_toNat_inj (a b : Char) (h : a.toNat = b.toNat) : a = b := by
  rw [← Char.ofNat_toNat a, ← Char.ofNat_toNat b, h]

theorem toUpper_eq_iff (c u : Char) (hu1 : 65 ≤ u.toNat) (hu2 : u.toNat ≤ 90) :
    c.toUpper = u ↔ (c = u ∨ c = u.toLower) := by
  have hlow : (Char.ofNat (u.toNat + 32)).toNat = u.toNat + 32 :=
    char_toNat_ofNat_small _ (by omega)
  have hl : u.toLower = Char.ofNat (u.toNat + 32) := by
    unfold Char.toLower
    simp only
    rw [if_pos ⟨hu1, hu2⟩]
  rw [hl]
  unfold Char.toUpper
  simp only
  constructor
  · intro h
    split at h
    · rename_i hc
      right
      apply char_toNat_inj
      rw [hlow]
      have := congrArg Char.toNat h
      rw [char_toNat_ofNat_small _ (by omega)] at this
      omega
    · exact Or.inl h
  · rintro (rfl | rfl)
    · rw [if_neg (by omega)]
    · rw [hlow, if_pos (by omega)]
      apply char_toNat_inj
      rw [char_toNat_ofNat_small _ (by omega)]
      omega

theorem map_toUpper_eq_iff (word : List Char)
    (hw : ∀ u ∈ word, 65 ≤ u.toNat ∧ u.toNat ≤ 90) :
    ∀ token : List Char, token.map Char.toUpper = word ↔
      List.Forall₂ (fun c u => c = u ∨ c = u.toLower) token word := by
  induction word with
  | nil =>
    intro token
    cases token <;> simp
  | cons u word ih =>
    intro token
    cases token with
    | nil => simp
    | cons c token =>
      have hu := hw u (List.mem_cons_self _ _)
      simp only [List.map_cons, List.cons.injEq, List.forall₂_cons,
        toUpper_eq_iff c u hu.1 hu.2, ih (fun x hx => hw x (List.mem_cons_of_mem _ hx)) token]

theorem upper_eq_iff (cmd word : String)
    (hw : ∀ u ∈ word.data, 65 ≤ u.toNat ∧ u.toNat ≤ 90) :
    String.mk (cmd.data.map Char.toUpper) = word ↔ case_variant cmd word := by
  unfold case_variant
  rw [← map_toUpper_eq_iff word.data hw cmd.data]
  constructor
  · intro h; rw [← h]
  · intro h; rw [h]

theorem parse_command_iff (cmd : String) :
    (parse_command cmd = Command.SET ↔ case_variant cmd "SET") ∧
    (parse_command cmd = Command.GET ↔ case_variant cmd "GET") ∧
    (parse_command cmd = Command.DELETE ↔ case_variant cmd "DELETE") ∧
    (parse_command cmd = Command.CLEAR ↔ case_variant cmd "CLEAR") ∧
    (parse_command cmd = Command.STATS ↔ case_variant cmd "STATS") ∧
    (parse_command cmd = Command.UNKNOWN ↔
      ¬ case_variant cmd "SET" ∧ ¬ case_variant cmd "GET" ∧ ¬ case_variant cmd "DELETE" ∧
        ¬ case_variant cmd "CLEAR" ∧ ¬ case_variant cmd "STATS") := by
  rw [← upper_eq_iff cmd "SET" (by decide), ← upper_eq_iff cmd "GET" (by decide),
    ← upper_eq_iff cmd "DELETE" (by decide), ← upper_eq_iff cmd "CLEAR" (by decide),
    ← upper_eq_iff cmd "STATS" (by decide)]
  unfold parse_command
  simp only
  split_ifs <;> simp_all

end Protocol

/-- C30. The command token is matched without regard to case: `parse_command`
returns `SET`, `GET`, `DELETE`, `CLEAR` or `STATS` exactly for the tokens that
are that word with the case of some of its letters changed, and `UNKNOWN` for
every other token. -/
theorem Protocol.parse_command_case_insensitive (cmd : String) :
    (Protocol.parse_command cmd = Protocol.Command.SET ↔ Protocol.case_variant cmd "SET") ∧
    (Protocol.parse_command cmd = Protocol.Command.GET ↔ Protocol.case_variant cmd "GET") ∧
    (Protocol.parse_command cmd = Protocol.Command.DELETE ↔
      Protocol.case_variant cmd "DELETE") ∧
    (Protocol.parse_command cmd = Protocol.Command.CLEAR ↔
      Protocol.case_variant cmd "CLEAR") ∧
    (Protocol.parse_command cmd = Protocol.Command.STATS ↔
      Protocol.case_variant cmd "STATS") ∧
    (Protocol.parse_command cmd = Protocol.Command.UNKNOWN ↔
      ¬ Protocol.case_variant cmd "SET" ∧ ¬ Protocol.case_variant cmd "GET" ∧
        ¬ Protocol.case_variant cmd "DELETE" ∧ ¬ Protocol.case_variant cmd "CLEAR" ∧
        ¬ Protocol.case_variant cmd "STATS") ∧
    Protocol.parse_command "dElEtE" = Protocol.Command.DELETE ∧
    Protocol.parse_command "Stats" = Protocol.Command.STATS ∧
    Protocol.parse_command "SETS" = Protocol.Command.UNKNOWN ∧
    Protocol.parse_command "FROB" = Protocol.Command.UNKNOWN := by
  obtain ⟨h1, h2, h3, h4, h5, h6⟩ := Protocol.parse_command_iff cmd
  exact ⟨h1, h2, h3, h4, h5, h6, by decide, by decide, by decide, by decide⟩

/-! ## Splitting a line into tokens -/

namespace Protocol

theorem split_loop_eq (d : Char) : ∀ l tok : List Char,
    split_loop d l tok =
      ((List.splitOnP.go (fun x => x == d) l tok.reverse).filter (fun t => t ≠ [])).map
        String.mk := by
  intro l
  induction l with
  | nil =>
    intro tok
    by_cases h : tok = [] <;> simp [split_loop, List.splitOnP.go, h]
  | cons c l ih =>
    intro tok
    by_cases hc : c = d
    · by_cases h : tok = [] <;> simp [split_loop, List.splitOnP.go, hc, h, ih]
    · simp [split_loop, List.splitOnP.go, hc, ih]

theorem split_eq_spec_tokens (line : String) : split line ' ' = spec_tokens line := by
  unfold split spec_tokens
  rw [split_loop_eq]
  rfl

theorem split_loop_free (d : Char) (t : List Char) (ht : d ∉ t) :
    ∀ (rest tok : List Char), split_loop d (t ++ rest) tok = split_loop d rest (tok ++ t) := by
  induction t with
  | nil => intro rest tok; simp
  | cons c t ih =>
    intro rest tok
    have hc : c ≠ d := fun e => ht (by simp [e])
    have ht' : d ∉ t := fun e => ht (List.mem_cons_of_mem _ e)
    rw [List.cons_append, split_loop, if_neg hc, ih ht']
    simp

theorem split_loop_tokens (d : Char) :
    ∀ (ts : List String), (∀ t ∈ ts, t ≠ "" ∧ d ∉ t.data) → ∀ tok : List Char,
      split_loop d (ts.flatMap (fun t => d :: t.data)) tok =
        (if tok = [] then [] else [String.mk tok]) ++ ts := by
  intro ts
  induction ts with
  | nil => intro _ tok; simp [split_loop]
  | cons t ts ih =>
    intro h tok
    have ht := h t (List.mem_cons_self _ _)
    have hne : t.data ≠ [] := fun e => ht.1 (by
      cases t; simp_all)
    have h' : ∀ x ∈ ts, x ≠ "" ∧ d ∉ x.data := fun x hx => h x (List.mem_cons_of_mem _ hx)
    rw [List.flatMap_cons, List.cons_append, split_loop, if_pos rfl,
      split_loop_free d t.data ht.2, ih h']
    by_cases htok : tok = [] <;> simp [htok, hne]

theorem join_loop_eq (acc : String) (ts : List String) :
    join_loop acc ts = String.intercalate.go acc " " ts := by
  induction ts generalizing acc with
  | nil => rfl
  | cons t ts ih => simp [join_loop, String.intercalate.go, ih]

theorem join_value_eq (ts : List String) : join_value ts = String.intercalate " " ts := by
  cases ts with
  | nil => rfl
  | cons t ts => simp [join_value, String.intercalate, join_loop_eq]

theorem join_loop_data (acc : String) (ts : List String) :
    (join_loop acc ts).data = acc.data ++ ts.flatMap (fun t => ' ' :: t.data) := by
  induction ts generalizing acc with
  | nil => simp [join_loop]
  | cons t ts ih => simp [join_loop, ih]

end Protocol

namespace Protocol

theorem split_loop_double (d : Char) (rest : List Char) : ∀ a tok : List Char,
    split_loop d (a ++ d :: d :: rest) tok = split_loop d (a ++ d :: rest) tok := by
  intro a
  induction a with
  | nil =>
    intro tok
    by_cases h : tok = [] <;> simp [split_loop, h]
  | cons c a ih =>
    intro tok
    by_cases hc : c = d
    · by_cases h : tok = [] <;> simp [split_loop, hc, h, ih]
    · simp [split_loop, hc, ih]

theorem split_loop_trailing (d : Char) : ∀ l tok : List Char,
    split_loop d (l ++ [d]) tok = split_loop d l tok := by
  intro l
  induction l with
  | nil =>
    intro tok
    by_cases h : tok = [] <;> simp [split_loop, h]
  | cons c l ih =>
    intro tok
    by_cases hc : c = d
    · by_cases h : tok = [] <;> simp [split_loop, hc, h, ih]
    · simp [split_loop, hc, ih]

theorem split_double (a b : String) :
    split (a ++ "  " ++ b) ' ' = split (a ++ " " ++ b) ' ' := by
  unfold split
  have e1 : (a ++ "  " ++ b).data = a.data ++ ' ' :: ' ' :: b.data := by
    simp [String.data_append]
  have e2 : (a ++ " " ++ b).data = a.data ++ ' ' :: b.data := by
    simp [String.data_append]
  rw [e1, e2, split_loop_double]

theorem split_leading (r : String) : split (" " ++ r) ' ' = split r ' ' := by
  unfold split
  have e1 : (" " ++ r).data = ' ' :: r.data := by simp [String.data_append]
  rw [e1, split_loop, if_pos rfl, if_pos rfl]

theorem split_trailing (r : String) : split (r ++ " ") ' ' = split r ' ' := by
  unfold split
  have e1 : (r ++ " ").data = r.data ++ [' '] := by simp [String.data_append]
  rw [e1, split_loop_trailing]

theorem parse_request_of_split {r1 r2 : String} (h : split r1 ' ' = split r2 ' ') :
    parse_request r1 = parse_request r2 := by
  unfold parse_request
  rw [h]

theorem parse_request_nil {r : String} (h : split r ' ' = []) :
    parse_request r = { command := Command.UNKNOWN, key := "", value := "", valid := false } := by
  simp [parse_request, h]

theorem parse_request_cons {r cmd : String} {args : List String}
    (h : split r ' ' = cmd :: args) :
    parse_request r =
      match parse_command cmd with
      | Command.SET =>
        if 2 ≤ args.length then
          { command := Command.SET, key := args.getD 0 "", value := join_value (args.drop 1),
            valid := true }
        else { command := Command.SET, key := "", value := "", valid := false }
      | Command.GET =>
        if 1 ≤ args.length then
          { command := Command.GET, key := args.getD 0 "", value := "", valid := true }
        else { command := Command.GET, key := "", value := "", valid := false }
      | Command.DELETE =>
        if 1 ≤ args.length then
          { command := Command.DELETE, key := args.getD 0 "", value := "", valid := true }
        else { command := Command.DELETE, key := "", value := "", valid := false }
      | Command.CLEAR => { command := Command.CLEAR, key := "", value := "", valid := true }
      | Command.STATS => { command := Command.STATS, key := "", value := "", valid := true }
      | Command.UNKNOWN =>
        { command := Command.UNKNOWN, key := "", value := "", valid := false } := by
  unfold parse_request
  simp only [h, List.getD_cons_zero, List.length_cons]
  rw [if_neg (by simp)]
  cases hc : parse_command cmd <;> simp [hc, Nat.succ_le_succ_iff]

theorem parse_request_valid_iff (r : String) :
    (parse_request r).valid = true ↔
      ∃ cmd args, split r ' ' = cmd :: args ∧
        ((parse_command cmd = Command.SET ∧ 2 ≤ args.length) ∨
          ((parse_command cmd = Command.GET ∨ parse_command cmd = Command.DELETE) ∧
            1 ≤ args.length) ∨
          parse_command cmd = Command.CLEAR ∨ parse_command cmd = Command.STATS) := by
  cases hs : split r ' ' with
  | nil => simp [parse_request_nil hs]
  | cons cmd args =>
    rw [parse_request_cons hs]
    constructor
    · intro h
      refine ⟨cmd, args, rfl, ?_⟩
      cases hc : parse_command cmd <;> rw [hc] at h <;> simp only at h
      · split at h
        · exact Or.inl ⟨rfl, by assumption⟩
        · cases h
      · split at h
        · exact Or.inr (Or.inl ⟨Or.inl rfl, by assumption⟩)
        · cases h
      · split at h
        · exact Or.inr (Or.inl ⟨Or.inr rfl, by assumption⟩)
        · cases h
      · exact Or.inr (Or.inr (Or.inl rfl))
      · exact Or.inr (Or.inr (Or.inr rfl))
      · cases h
    · rintro ⟨cmd1, args1, he, h⟩
      cases he
      rcases h with ⟨hc, hl⟩ | ⟨hc | hc, hl⟩ | hc | hc <;> rw [hc] <;> simp only
      · rw [if_pos hl]
      · rw [if_pos hl]
      · rw [if_pos hl]

theorem parse_request_valid_cases {r : String} (hv : (parse_request r).valid = true) :
    ∃ cmd args, split r ' ' = cmd :: args ∧
      ((parse_command cmd = Command.SET ∧ ∃ key p ps, args = key :: p :: ps ∧
          parse_request r =
            { command := Command.SET, key := key, value := join_value (p :: ps),
              valid := true }) ∨
        (parse_command cmd = Command.GET ∧ ∃ key rest, args = key :: rest ∧
          parse_request r = { command := Command.GET, key := key, value := "", valid := true }) ∨
        (parse_command cmd = Command.DELETE ∧ ∃ key rest, args = key :: rest ∧
          parse_request r =
            { command := Command.DELETE, key := key, value := "", valid := true }) ∨
        (parse_command cmd = Command.CLEAR ∧
          parse_request r = { command := Command.CLEAR, key := "", value := "", valid := true }) ∨
        (parse_command cmd = Command.STATS ∧
          parse_request r =
            { command := Command.STATS, key := "", value := "", valid := true })) := by
  cases hs : split r ' ' with
  | nil => rw [parse_request_nil hs] at hv; cases hv
  | cons cmd args =>
    rw [parse_request_cons hs] at hv ⊢
    refine ⟨cmd, args, rfl, ?_⟩
    revert hv
    cases parse_command cmd <;> intro hv <;> simp only at hv
    · rcases args with _ | ⟨key, _ | ⟨p, ps⟩⟩
      · simp at hv
      · simp at hv
      · exact Or.inl ⟨rfl, key, p, ps, rfl, by simp⟩
    · rcases args with _ | ⟨key, rest⟩
      · simp at hv
      · exact Or.inr (Or.inl ⟨rfl, key, rest, rfl, by simp⟩)
    · rcases args with _ | ⟨key, rest⟩
      · simp at hv
      · exact Or.inr (Or.inr (Or.inl ⟨rfl, key, rest, rfl, by simp⟩))
    · exact Or.inr (Or.inr (Or.inr (Or.inl ⟨rfl, rfl⟩)))
    · exact Or.inr (Or.inr (Or.inr (Or.inr ⟨rfl, rfl⟩)))
    · cases hv

end Protocol

/-- C28. Runs of spaces collapse: `split` yields the non-empty maximal space-free
tokens of the line, and the result of `parse_request` depends on them only; for
a valid `SET` the key is the second token and the value is the third and later
tokens joined by single spaces. Doubling a space, and a space in front of or
behind the line, change nothing; `"SET k  v"` parses as `"SET k v"` with value
`"v"`, and `"SET k a  b"` has value `"a b"`. -/
theorem Protocol.parse_request_collapses_spaces :
    (∀ r, Protocol.split r ' ' = Protocol.spec_tokens r) ∧
    (∀ r1 r2, Protocol.spec_tokens r1 = Protocol.spec_tokens r2 →
      Protocol.parse_request r1 = Protocol.parse_request r2) ∧
    (∀ r, (Protocol.parse_request r).command = Protocol.Command.SET →
      (Protocol.parse_request r).valid = true →
        (Protocol.parse_request r).key = (Protocol.spec_tokens r).getD 1 "" ∧
        (Protocol.parse_request r).value =
          String.intercalate " " ((Protocol.spec_tokens r).drop 2)) ∧
    (∀ a b, Protocol.parse_request (a ++ "  " ++ b) = Protocol.parse_request (a ++ " " ++ b)) ∧
    (∀ r, Protocol.parse_request (" " ++ r) = Protocol.parse_request r) ∧
    (∀ r, Protocol.parse_request (r ++ " ") = Protocol.parse_request r) ∧
    Protocol.parse_request "SET k  v" = Protocol.parse_request "SET k v" ∧
    Protocol.parse_request "SET k v" =
      { command := Protocol.Command.SET, key := "k", value := "v", valid := true } ∧
    Protocol.parse_request "SET k a  b" =
      { command := Protocol.Command.SET, key := "k", value := "a b", valid := true } ∧
    Protocol.parse_request "  SET   k a  b  " = Protocol.parse_request "SET k a b" := by
  refine ⟨Protocol.split_eq_spec_tokens, ?_, ?_, ?_, ?_, ?_, by decide, by decide, by decide,
    by decide⟩
  · intro r1 r2 h
    apply Protocol.parse_request_of_split
    rw [Protocol.split_eq_spec_tokens, Protocol.split_eq_spec_tokens, h]
  · intro r hc hv
    rw [← Protocol.split_eq_spec_tokens, ← Protocol.join_value_eq]
    obtain ⟨cmd, args, hs, h⟩ := Protocol.parse_request_valid_cases hv
    rcases h with ⟨_, key, p, ps, ha, e⟩ | ⟨_, _, _, _, e⟩ | ⟨_, _, _, _, e⟩ | ⟨_, e⟩ | ⟨_, e⟩
    · rw [e, hs, ha]
      simp
    all_goals
      rw [e] at hc
      cases hc
  · intro a b
    exact Protocol.parse_request_of_split (Protocol.split_double a b)
  · intro r
    exact Protocol.parse_request_of_split (Protocol.split_leading r)
  · intro r
    exact Protocol.parse_request_of_split (Protocol.split_trailing r)

/-- C29. A line is valid exactly when it has a first token that is `SET`, `GET`,
`DELETE`, `CLEAR` or `STATS` in any mix of cases and enough further tokens: two
for `SET`, one for `GET` and `DELETE`, none for `CLEAR` and `STATS`. The empty
line, a line of spaces, an unrecognised command and a missing argument are
invalid. -/
theorem Protocol.parse_request_valid_iff_tokens (r : String) :
    ((Protocol.parse_request r).valid = true ↔
      ∃ cmd args, Protocol.spec_tokens r = cmd :: args ∧
        ((Protocol.case_variant cmd "SET" ∧ 2 ≤ args.length) ∨
          ((Protocol.case_variant cmd "GET" ∨ Protocol.case_variant cmd "DELETE") ∧
            1 ≤ args.length) ∨
          Protocol.case_variant cmd "CLEAR" ∨ Protocol.case_variant cmd "STATS")) ∧
    (Protocol.parse_request "").valid = false ∧
    (Protocol.parse_request "   ").valid = false ∧
    (Protocol.parse_request "FROB x y").valid = false ∧
    (Protocol.parse_request "SET k").valid = false ∧
    (Protocol.parse_request "GET").valid = false ∧
    (Protocol.parse_request "delete").valid = false ∧
    (Protocol.parse_request "set k v").valid = true ∧
    (Protocol.parse_request "Get k").valid = true ∧
    (Protocol.parse_request "DELETE k").valid = true ∧
    (Protocol.parse_request "clear").valid = true ∧
    (Protocol.parse_request "STATS").valid = true := by
  refine ⟨?_, by decide, by decide, by decide, by decide, by decide, by decide, by decide,
    by decide, by decide, by decide, by decide⟩
  rw [Protocol.parse_request_valid_iff, ← Protocol.split_eq_spec_tokens]
  constructor
  · rintro ⟨cmd, args, hs, h⟩
    obtain ⟨h1, h2, h3, h4, h5, _⟩ := Protocol.parse_command_iff cmd
    refine ⟨cmd, args, hs, ?_⟩
    rw [← h1, ← h2, ← h3, ← h4, ← h5]
    exact h
  · rintro ⟨cmd, args, hs, h⟩
    obtain ⟨h1, h2, h3, h4, h5, _⟩ := Protocol.parse_command_iff cmd
    refine ⟨cmd, args, hs, ?_⟩
    rw [h1, h2, h3, h4, h5]
    exact h

theorem Protocol.parse_request_collapses_spaces_witness :
    Protocol.parse_request "  SET k v" = Protocol.parse_request "SET k v" :=
  Protocol.parse_request_collapses_spaces.2.1 "  SET k v" "SET k v" (by decide)

namespace Protocol

theorem string_ne_empty {t : String} (h : t.data ≠ []) : t ≠ "" := by
  intro e
  apply h
  rw [e]

theorem split_loop_mem (d : Char) : ∀ l tok : List Char, d ∉ tok →
    ∀ t ∈ split_loop d l tok, t ≠ "" ∧ d ∉ t.data := by
  intro l
  induction l with
  | nil =>
    intro tok htok t ht
    by_cases h : tok = []
    · simp [split_loop, h] at ht
    · simp only [split_loop, h, if_false, List.mem_singleton] at ht
      subst ht
      exact ⟨string_ne_empty h, htok⟩
  | cons c l ih =>
    intro tok htok t ht
    by_cases hc : c = d
    · by_cases h : tok = []
      · simp only [split_loop, hc, h, if_true] at ht
        exact ih [] (by simp) t ht
      · simp only [split_loop, hc, h, if_true, if_false, List.mem_cons] at ht
        rcases ht with rfl | ht
        · exact ⟨string_ne_empty h, htok⟩
        · exact ih [] (by simp) t ht
    · simp only [split_loop, hc, if_false] at ht
      refine ih (tok ++ [c]) ?_ t ht
      intro hm
      rcases List.mem_append.1 hm with hm | hm
      · exact htok hm
      · simp at hm
        exact hc hm.symm

theorem split_mem {r t : String} (ht : t ∈ split r ' ') : t ≠ "" ∧ ' ' ∉ t.data :=
  split_loop_mem ' ' r.data [] (by simp) t ht

theorem chain_of_free : ∀ t : List Char, ' ' ∉ t →
    List.Chain' (fun a b => ¬ (a = ' ' ∧ b = ' ')) t := by
  intro t
  induction t with
  | nil => intro _; exact List.chain'_nil
  | cons c t ih =>
    intro h
    rw [List.chain'_cons']
    refine ⟨?_, ih (fun e => h (List.mem_cons_of_mem _ e))⟩
    intro y _ hy
    exact h (by simp [hy.1])

theorem shape_step (a t : List Char) (ha : a ≠ [])
    (hc : List.Chain' (fun a b => ¬ (a = ' ' ∧ b = ' ')) a)
    (hh : a.head? ≠ some ' ') (hl : a.getLast? ≠ some ' ')
    (ht : t ≠ []) (hf : ' ' ∉ t) :
    (a ++ ' ' :: t) ≠ [] ∧
      List.Chain' (fun a b => ¬ (a = ' ' ∧ b = ' ')) (a ++ ' ' :: t) ∧
      (a ++ ' ' :: t).head? ≠ some ' ' ∧ (a ++ ' ' :: t).getLast? ≠ some ' ' := by
  refine ⟨by simp, ?_, ?_, ?_⟩
  · rw [List.chain'_append]
    refine ⟨hc, ?_, ?_⟩
    · rw [List.chain'_cons']
      refine ⟨?_, chain_of_free t hf⟩
      intro y hy hyy
      have : y ∈ t := List.mem_of_mem_head? hy
      rw [hyy.2] at this
      exact hf this
    · intro x hx y _ hxy
      apply hl
      rw [Option.mem_def] at hx
      rw [hx, hxy.1]
  · cases a with
    | nil => exact absurd rfl ha
    | cons x a => simpa using hh
  · intro e
    have hm : ' ' ∈ (a ++ ' ' :: t).getLast? := e
    have e2 : (a ++ ' ' :: t) = (a ++ [' ']) ++ t := by simp
    rw [e2, List.getLast?_append_of_ne_nil _ ht] at hm
    exact hf (List.mem_of_mem_getLast? hm)

theorem shape_join (ps : List String) (hps : ∀ t ∈ ps, t ≠ "" ∧ ' ' ∉ t.data) :
    ∀ a : List Char, a ≠ [] → List.Chain' (fun a b => ¬ (a = ' ' ∧ b = ' ')) a →
      a.head? ≠ some ' ' → a.getLast? ≠ some ' ' →
      (a ++ ps.flatMap (fun t => ' ' :: t.data)) ≠ [] ∧
        List.Chain' (fun a b => ¬ (a = ' ' ∧ b = ' '))
          (a ++ ps.flatMap (fun t => ' ' :: t.data)) ∧
        (a ++ ps.flatMap (fun t => ' ' :: t.data)).head? ≠ some ' ' ∧
        (a ++ ps.flatMap (fun t => ' ' :: t.data)).getLast? ≠ some ' ' := by
  induction ps with
  | nil =>
    intro a ha hc hh hl
    simp only [List.flatMap_nil, List.append_nil]
    exact ⟨ha, hc, hh, hl⟩
  | cons p ps ih =>
    intro a ha hc hh hl
    have hp := hps p (List.mem_cons_self _ _)
    have hpd : p.data ≠ [] := fun e => hp.1 (by cases p; simp_all)
    obtain ⟨h1, h2, h3, h4⟩ := shape_step a p.data ha hc hh hl hpd hp.2
    have := ih (fun t ht => hps t (List.mem_cons_of_mem _ ht)) _ h1 h2 h3 h4
    simpa using this

theorem shape_token (t : List Char) (hf : ' ' ∉ t) :
    t.head? ≠ some ' ' ∧ t.getLast? ≠ some ' ' := by
  constructor
  · intro e
    exact hf (List.mem_of_mem_head? e)
  · intro e
    exact hf (List.mem_of_mem_getLast? e)

end Protocol

/-- C39. Shape of parsed arguments: in every valid `SET`, `GET` or `DELETE`
request the key is not empty and holds no space; in a valid `SET` the value is
not empty, has no two spaces in a row, and neither starts nor ends with a
space. -/
theorem Protocol.parse_request_argument_shape (r : String)
    (hv : (Protocol.parse_request r).valid = true) :
    (((Protocol.parse_request r).command = Protocol.Command.SET ∨
        (Protocol.parse_request r).command = Protocol.Command.GET ∨
        (Protocol.parse_request r).command = Protocol.Command.DELETE) →
      (Protocol.parse_request r).key ≠ "" ∧ ' ' ∉ (Protocol.parse_request r).key.data) ∧
    ((Protocol.parse_request r).command = Protocol.Command.SET →
      (Protocol.parse_request r).value ≠ "" ∧
      List.Chain' (fun a b => ¬ (a = ' ' ∧ b = ' ')) (Protocol.parse_request r).value.data ∧
      (Protocol.parse_request r).value.data.head? ≠ some ' ' ∧
      (Protocol.parse_request r).value.data.getLast? ≠ some ' ') := by
  obtain ⟨cmd, args, hs, h⟩ := Protocol.parse_request_valid_cases hv
  have hmem : ∀ t ∈ args, t ≠ "" ∧ ' ' ∉ t.data := fun t ht =>
    Protocol.split_mem (r := r) (by rw [hs]; exact List.mem_cons_of_mem _ ht)
  rcases h with ⟨_, key, p, ps, ha, e⟩ | ⟨_, key, rest, ha, e⟩ | ⟨_, key, rest, ha, e⟩ |
    ⟨_, e⟩ | ⟨_, e⟩
  · rw [e]
    subst ha
    refine ⟨fun _ => hmem key (List.mem_cons_self _ _), fun _ => ?_⟩
    have hp := hmem p (List.mem_cons_of_mem _ (List.mem_cons_self _ _))
    have hpd : p.data ≠ [] := fun e => hp.1 (by cases p; simp_all)
    have hps : ∀ t ∈ ps, t ≠ "" ∧ ' ' ∉ t.data := fun t ht =>
      hmem t (List.mem_cons_of_mem _ (List.mem_cons_of_mem _ ht))
    obtain ⟨t1, t2⟩ := Protocol.shape_token p.data hp.2
    obtain ⟨h1, h2, h3, h4⟩ := Protocol.shape_join ps hps p.data hpd
      (Protocol.chain_of_free _ hp.2) t1 t2
    show Protocol.join_value (p :: ps) ≠ "" ∧ _
    rw [Protocol.join_value, Protocol.join_loop_data]
    exact ⟨Protocol.string_ne_empty (by rw [Protocol.join_loop_data]; exact h1), h2, h3, h4⟩
  · rw [e]
    subst ha
    exact ⟨fun _ => hmem key (List.mem_cons_self _ _), fun h => by cases h⟩
  · rw [e]
    subst ha
    exact ⟨fun _ => hmem key (List.mem_cons_self _ _), fun h => by cases h⟩
  · rw [e]
    exact ⟨fun h => (by rcases h with h | h | h <;> cases h), fun h => (by cases h)⟩
  · rw [e]
    exact ⟨fun h => (by rcases h with h | h | h <;> cases h), fun h => (by cases h)⟩

theorem Protocol.parse_request_argument_shape_witness :
    (Protocol.parse_request "SET k  a  b ").value = "a b" ∧
    (Protocol.parse_request "SET k  a  b ").value ≠ "" ∧
    List.Chain' (fun a b => ¬ (a = ' ' ∧ b = ' '))
      (Protocol.parse_request "SET k  a  b ").value.data ∧
    (Protocol.parse_request "SET k  a  b ").value.data.head? ≠ some ' ' ∧
    (Protocol.parse_request "SET k  a  b ").value.data.getLast? ≠ some ' ' :=
  ⟨by decide,
    (Protocol.parse_request_argument_shape "SET k  a  b " (by decide)).2 (by decide)⟩

namespace Protocol

theorem split_words (w : String) (ts : List String)
    (h : ∀ t ∈ w :: ts, t ≠ "" ∧ ' ' ∉ t.data) :
    split_loop ' ' (w.data ++ ts.flatMap (fun t => ' ' :: t.data)) [] = w :: ts := by
  have e := split_loop_tokens ' ' (w :: ts) h []
  rw [List.flatMap_cons, List.cons_append, split_loop, if_pos rfl, if_pos rfl] at e
  simpa using e

theorem intercalate_data (t : String) (ts : List String) :
    (String.intercalate " " (t :: ts)).data = t.data ++ ts.flatMap (fun t => ' ' :: t.data) := by
  rw [← join_value_eq, join_value, join_loop_data]

theorem parse_request_SET_line (k : String) (ts : List String) (hts : ts ≠ [])
    (h : ∀ t ∈ k :: ts, t ≠ "" ∧ ' ' ∉ t.data) :
    parse_request ("SET " ++ k ++ " " ++ String.intercalate " " ts) =
      { command := Command.SET, key := k, value := String.intercalate " " ts, valid := true } := by
  obtain ⟨t, ts, rfl⟩ := List.exists_cons_of_ne_nil hts
  have hs : split ("SET " ++ k ++ " " ++ String.intercalate " " (t :: ts)) ' ' =
      "SET" :: k :: t :: ts := by
    unfold split
    have e : ("SET " ++ k ++ " " ++ String.intercalate " " (t :: ts)).data =
        ("SET" : String).data ++ (k :: t :: ts).flatMap (fun t => ' ' :: t.data) := by
      simp [String.data_append, intercalate_data]
    rw [e]
    apply split_words
    intro x hx
    rcases List.mem_cons.1 hx with rfl | hx
    · decide
    · exact h x hx
  rw [parse_request_cons hs, ← join_value_eq]
  have hc : parse_command "SET" = Command.SET := by decide
  rw [hc]
  simp

theorem parse_request_GET_line (k : String) (h : k ≠ "" ∧ ' ' ∉ k.data) :
    parse_request ("GET " ++ k) =
      { command := Command.GET, key := k, value := "", valid := true } := by
  have hs : split ("GET " ++ k) ' ' = ["GET", k] := by
    unfold split
    have e : ("GET " ++ k).data =
        ("GET" : String).data ++ [k].flatMap (fun t => ' ' :: t.data) := by
      simp [String.data_append]
    rw [e]
    apply split_words
    intro x hx
    rcases List.mem_cons.1 hx with rfl | hx
    · decide
    · rw [List.mem_singleton.1 hx]; exact h
  rw [parse_request_cons hs]
  have hc : parse_command "GET" = Command.GET := by decide
  rw [hc]
  simp

theorem parse_request_DELETE_line (k : String) (h : k ≠ "" ∧ ' ' ∉ k.data) :
    parse_request ("DELETE " ++ k) =
      { command := Command.DELETE, key := k, value := "", valid := true } := by
  have hs : split ("DELETE " ++ k) ' ' = ["DELETE", k] := by
    unfold split
    have e : ("DELETE " ++ k).data =
        ("DELETE" : String).data ++ [k].flatMap (fun t => ' ' :: t.data) := by
      simp [String.data_append]
    rw [e]
    apply split_words
    intro x hx
    rcases List.mem_cons.1 hx with rfl | hx
    · decide
    · rw [List.mem_singleton.1 hx]; exact h
  rw [parse_request_cons hs]
  have hc : parse_command "DELETE" = Command.DELETE := by decide
  rw [hc]
  simp

end Protocol

/-! ## The command dispatch of the server -/

namespace TCPServer

theorem execute_invalid (sizeof_entry : Nat) (show_double : Nat → Nat → String) (now : Nat)
    (s : TCPServer) {r : String} (h : (Protocol.parse_request r).valid = false) :
    parse_and_execute sizeof_entry show_double now s r = some ("ERROR Invalid command", s) := by
  unfold parse_and_execute
  simp only [h, if_true]
  rfl

theorem execute_SET (sizeof_entry : Nat) (show_double : Nat → Nat → String) (now : Nat)
    (s : TCPServer) {r k v : String}
    (h : Protocol.parse_request r =
      { command := Protocol.Command.SET, key := k, value := v, valid := true }) :
    parse_and_execute sizeof_entry show_double now s r =
      (s.cache_.set sizeof_entry k v now).map fun x =>
        (if x.1 = true then "OK" else "ERROR Failed to set value", { s with cache_ := x.2 }) := by
  unfold parse_and_execute
  simp only [h]
  rfl

theorem execute_GET (sizeof_entry : Nat) (show_double : Nat → Nat → String) (now : Nat)
    (s : TCPServer) {r k : String}
    (h : Protocol.parse_request r =
      { command := Protocol.Command.GET, key := k, value := "", valid := true }) :
    parse_and_execute sizeof_entry show_double now s r =
      (s.cache_.get k now).map fun x =>
        (if x.1 = "" then "ERROR NOT_FOUND" else "OK " ++ x.1, { s with cache_ := x.2 }) := by
  unfold parse_and_execute
  simp only [h]
  rw [if_neg (by decide)]
  congr 1
  funext x
  by_cases hx : x.1 = "" <;> simp [hx, Protocol.format_success, Protocol.format_error]

theorem execute_DELETE (sizeof_entry : Nat) (show_double : Nat → Nat → String) (now : Nat)
    (s : TCPServer) {r k : String}
    (h : Protocol.parse_request r =
      { command := Protocol.Command.DELETE, key := k, value := "", valid := true }) :
    parse_and_execute sizeof_entry show_double now s r =
      (s.cache_.remove sizeof_entry k).map fun x =>
        (if x.1 = true then "OK" else "ERROR NOT_FOUND", { s with cache_ := x.2 }) := by
  unfold parse_and_execute
  simp only [h]
  rfl

theorem execute_CLEAR (sizeof_entry : Nat) (show_double : Nat → Nat → String) (now : Nat)
    (s : TCPServer) {r : String}
    (h : Protocol.parse_request r =
      { command := Protocol.Command.CLEAR, key := "", value := "", valid := true }) :
    parse_and_execute sizeof_entry show_double now s r =
      some ("OK", { s with cache_ := s.cache_.clear }) := by
  unfold parse_and_execute
  simp only [h]
  rfl

theorem execute_STATS (sizeof_entry : Nat) (show_double : Nat → Nat → String) (now : Nat)
    (s : TCPServer) {r : String}
    (h : Protocol.parse_request r =
      { command := Protocol.Command.STATS, key := "", value := "", valid := true }) :
    parse_and_execute sizeof_entry show_double now s r =
      some (Protocol.format_success (stats_line show_double s), s) := by
  unfold parse_and_execute
  simp only [h]
  rfl

end TCPServer

/-- C27. An invalid request is answered with `ERROR Invalid command` and leaves
the whole server state, the cache with its entries, memory counter and hit and
miss counters included, as it was; the request that follows is therefore
answered as if the invalid one had not been sent. -/
theorem TCPServer.invalid_request_rejected (sizeof_entry : Nat)
    (show_double : Nat → Nat → String) (now : Nat) (s : TCPServer) (r : String)
    (h : (Protocol.parse_request r).valid = false) :
    TCPServer.parse_and_execute sizeof_entry show_double now s r =
        some ("ERROR Invalid command", s) ∧
      ∀ (next : String) (now2 : Nat),
        ((TCPServer.parse_and_execute sizeof_entry show_double now s r).bind fun x =>
          TCPServer.parse_and_execute sizeof_entry show_double now2 x.2 next) =
          TCPServer.parse_and_execute sizeof_entry show_double now2 s next := by
  have e := TCPServer.execute_invalid sizeof_entry show_double now s h
  refine ⟨e, ?_⟩
  intro next now2
  rw [e]
  rfl

theorem TCPServer.invalid_request_rejected_witness :
    (TCPServer.parse_and_execute 80 (fun _ _ => "0") 0 TCPServer.new "FROB x y" =
        some ("ERROR Invalid command", TCPServer.new) ∧
      ∀ (next : String) (now2 : Nat),
        ((TCPServer.parse_and_execute 80 (fun _ _ => "0") 0 TCPServer.new "FROB x y").bind
          fun x => TCPServer.parse_and_execute 80 (fun _ _ => "0") now2 x.2 next) =
          TCPServer.parse_and_execute 80 (fun _ _ => "0") now2 TCPServer.new next) ∧
    (TCPServer.execute_all 80 (fun _ _ => "0") TCPServer.new
        [("FROB x y", 0), ("SET a 1", 1)]).map (fun r => r.1) =
      some ["ERROR Invalid command", "OK"] ∧
    (TCPServer.execute_all 80 (fun _ _ => "0") TCPServer.new
        [("", 0), ("SET a", 1), ("GET", 2), ("SET a 1", 3)]).map (fun r => r.1) =
      some ["ERROR Invalid command", "ERROR Invalid command", "ERROR Invalid command", "OK"] :=
  ⟨TCPServer.invalid_request_rejected 80 (fun _ _ => "0") 0 TCPServer.new "FROB x y"
    (by decide), by decide, by decide⟩

/-- C26. Requests as they arrive on the wire, each with its terminating newline,
evaluated on a fresh server with `sizeof(CacheEntry) = 80`: `parse_request`
keeps the newline in the last token, so `"SET foo bar\n"` stores the value
`"bar\n"`, `"GET foo\n"` and `"DELETE foo\n"` look up the key `"foo\n"` and
answer `ERROR NOT_FOUND`, and `"CLEAR\n"` is not a recognised command. -/
theorem TCPServer.newline_terminated_requests_eval :
    (TCPServer.execute_all 80 (fun _ _ => "0") TCPServer.new
        [("SET foo bar\n", 0), ("GET foo\n", 1), ("DELETE foo\n", 2), ("GET foo\n", 3),
          ("CLEAR\n", 4)]).map (fun r => r.1) =
      some ["OK", "ERROR NOT_FOUND", "ERROR NOT_FOUND", "ERROR NOT_FOUND",
        "ERROR Invalid command"] ∧
    (TCPServer.execute_all 80 (fun _ _ => "0") TCPServer.new
        [("SET foo bar\n", 0), ("GET foo", 1)]).map (fun r => r.1) =
      some ["OK", "OK bar\n"] ∧
    Protocol.parse_request "SET foo bar\n" =
      { command := Protocol.Command.SET, key := "foo", value := "bar\n", valid := true } ∧
    Protocol.parse_request "GET foo\n" =
      { command := Protocol.Command.GET, key := "foo\n", value := "", valid := true } ∧
    Protocol.parse_request "DELETE foo\n" =
      { command := Protocol.Command.DELETE, key := "foo\n", value := "", valid := true } ∧
    Protocol.parse_command "CLEAR\n" = Protocol.Command.UNKNOWN ∧
    (Protocol.parse_request "CLEAR\n").valid = false := by
  refine ⟨by decide, by decide, by decide, by decide, by decide, by decide, by decide⟩

/-- C38. The dispatch never answers `ERROR Unknown command`: a valid request
carries one of the five commands, and every response is `OK`, `OK` followed by
a payload, `ERROR Invalid command`, `ERROR NOT_FOUND` or
`ERROR Failed to set value`. -/
theorem TCPServer.never_unknown_command (sizeof_entry : Nat)
    (show_double : Nat → Nat → String) (now : Nat) (s s1 : TCPServer) (r resp : String)
    (h : TCPServer.parse_and_execute sizeof_entry show_double now s r = some (resp, s1)) :
    resp ≠ "ERROR Unknown command" ∧
      (resp = "OK" ∨ (∃ payload, resp = "OK " ++ payload) ∨ resp = "ERROR Invalid command" ∨
        resp = "ERROR NOT_FOUND" ∨ resp = "ERROR Failed to set value") ∧
      ((Protocol.parse_request r).valid = true →
        (Protocol.parse_request r).command ≠ Protocol.Command.UNKNOWN) := by
  have hcmd : (Protocol.parse_request r).valid = true →
      (Protocol.parse_request r).command ≠ Protocol.Command.UNKNOWN := by
    intro hv
    obtain ⟨_, _, _, hc⟩ := Protocol.parse_request_valid_cases hv
    rcases hc with ⟨_, _, _, _, _, e⟩ | ⟨_, _, _, _, e⟩ | ⟨_, _, _, _, e⟩ | ⟨_, e⟩ | ⟨_, e⟩ <;>
      rw [e] <;> intro hh <;> cases hh
  have hform : resp = "OK" ∨ (∃ payload, resp = "OK " ++ payload) ∨
      resp = "ERROR Invalid command" ∨ resp = "ERROR NOT_FOUND" ∨
      resp = "ERROR Failed to set value" := by
    by_cases hv : (Protocol.parse_request r).valid = true
    · obtain ⟨_, _, _, hc⟩ := Protocol.parse_request_valid_cases hv
      rcases hc with ⟨_, _, _, _, _, e⟩ | ⟨_, _, _, e⟩ | ⟨_, _, _, _, e⟩ | ⟨_, e⟩ | ⟨_, e⟩
      · rw [TCPServer.execute_SET _ _ _ _ e] at h
        obtain ⟨x, _, hx⟩ := Option.map_eq_some'.1 h
        have := congrArg Prod.fst hx
        simp only at this
        rw [← this]
        by_cases hb : x.1 = true <;> simp [hb]
      · obtain ⟨_, e⟩ := e
        rw [TCPServer.execute_GET _ _ _ _ e] at h
        obtain ⟨x, _, hx⟩ := Option.map_eq_some'.1 h
        have := congrArg Prod.fst hx
        simp only at this
        rw [← this]
        by_cases hb : x.1 = ""
        · simp [hb]
        · rw [if_neg hb]
          exact Or.inr (Or.inl ⟨x.1, rfl⟩)
      · rw [TCPServer.execute_DELETE _ _ _ _ e] at h
        obtain ⟨x, _, hx⟩ := Option.map_eq_some'.1 h
        have := congrArg Prod.fst hx
        simp only at this
        rw [← this]
        by_cases hb : x.1 = true <;> simp [hb]
      · rw [TCPServer.execute_CLEAR _ _ _ _ e] at h
        have := congrArg Prod.fst (Option.some.inj h)
        exact Or.inl this.symm
      · rw [TCPServer.execute_STATS _ _ _ _ e] at h
        have := congrArg Prod.fst (Option.some.inj h)
        simp only at this
        rw [← this]
        unfold Protocol.format_success
        split
        · exact Or.inl rfl
        · exact Or.inr (Or.inl ⟨_, rfl⟩)
    · have hv' : (Protocol.parse_request r).valid = false := by
        cases hx : (Protocol.parse_request r).valid
        · rfl
        · exact absurd hx hv
      rw [TCPServer.execute_invalid _ _ _ _ hv'] at h
      have := congrArg Prod.fst (Option.some.inj h)
      exact Or.inr (Or.inr (Or.inl this.symm))
  refine ⟨?_, hform, hcmd⟩
  rcases hform with e | ⟨p, e⟩ | e | e | e <;> rw [e]
  · decide
  · intro hh
    have := congrArg String.data hh
    simp [String.data_append] at this
  · decide
  · decide
  · decide

theorem TCPServer.never_unknown_command_witness :
    TCPServer.parse_and_execute 80 (fun _ _ => "0") 0 TCPServer.new "FROB x y" =
        some ("ERROR Invalid command", TCPServer.new) ∧
      "ERROR Invalid command" ≠ "ERROR Unknown command" :=
  ⟨TCPServer.execute_invalid 80 (fun _ _ => "0") 0 TCPServer.new (by decide),
    (TCPServer.never_unknown_command 80 (fun _ _ => "0") 0 TCPServer.new TCPServer.new
      "FROB x y" "ERROR Invalid command"
      (TCPServer.execute_invalid 80 (fun _ _ => "0") 0 TCPServer.new (by decide))).1⟩

/-- C25. Round trip on a fresh server, for every key that is one non-empty
space-free token and every value made of one or more such tokens joined by
single spaces, the entry fitting under the default capacity of 1 GiB: the
requests `SET k v`, `GET k`, `DELETE k`, `GET k` are answered `OK`, `OK v`,
`OK`, `ERROR NOT_FOUND`. -/
theorem TCPServer.command_round_trip (sizeof_entry : Nat) (show_double : Nat → Nat → String)
    (k : String) (ts : List String) (n1 n2 n3 n4 : Nat)
    (hk : k ≠ "" ∧ ' ' ∉ k.data) (hts : ts ≠ [])
    (hgood : ∀ t ∈ ts, t ≠ "" ∧ ' ' ∉ t.data)
    (hfit : Cache.entry_size sizeof_entry k (String.intercalate " " ts) ≤ 1024 * 1024 * 1024) :
    ∃ s1 s2 s3 s4,
      TCPServer.parse_and_execute sizeof_entry show_double n1 TCPServer.new
          ("SET " ++ k ++ " " ++ String.intercalate " " ts) = some ("OK", s1) ∧
      TCPServer.parse_and_execute sizeof_entry show_double n2 s1 ("GET " ++ k) =
          some ("OK " ++ String.intercalate " " ts, s2) ∧
      TCPServer.parse_and_execute sizeof_entry show_double n3 s2 ("DELETE " ++ k) =
          some ("OK", s3) ∧
      TCPServer.parse_and_execute sizeof_entry show_double n4 s3 ("GET " ++ k) =
          some ("ERROR NOT_FOUND", s4) := by
  have hall : ∀ t ∈ k :: ts, t ≠ "" ∧ ' ' ∉ t.data := by
    intro t ht
    rcases List.mem_cons.1 ht with rfl | ht
    · exact hk
    · exact hgood t ht
  have hv : String.intercalate " " ts ≠ "" := by
    obtain ⟨t, ts, rfl⟩ := List.exists_cons_of_ne_nil hts
    have ht := hgood t (List.mem_cons_self _ _)
    apply Protocol.string_ne_empty
    rw [Protocol.intercalate_data]
    intro e
    have : t.data = [] := (List.append_eq_nil.1 e).1
    exact ht.1 (by cases t; simp_all)
  have h0 : (TCPServer.new.cache_).Inv := Cache.Inv_new _ (by simp [SIZE_T])
  obtain ⟨b, c1, e1, i1, _, _, _, hhead, hsucc⟩ :=
    Cache.set_spec sizeof_entry h0 k (String.intercalate " " ts) n1
  have hb : b = true := by
    apply hsucc
    · exact hfit
    · have hz : TCPServer.new.cache_.current_memory_usage_ = 0 := rfl
      have hm : TCPServer.new.cache_.max_capacity_ = 1024 * 1024 * 1024 := rfl
      rw [hz, hm, Nat.zero_add, Nat.mod_eq_of_lt (by simp only [SIZE_T]; omega)]
      exact hfit
  subst hb
  obtain ⟨a, m, rest, hl, _⟩ := hhead rfl
  have hn : (⟨a, k, ⟨k, String.intercalate " " ts, n1, 0⟩⟩ : ListNode String CacheEntry) ∈
      c1.lru_cache_.access_order_ := by
    rw [hl]; exact List.mem_cons_self _ _
  obtain ⟨c2, e2, i2, n2x, hn2, hf2⟩ : ∃ c2, c1.get k n2 = some (String.intercalate " " ts, c2) ∧
      c2.Inv ∧ ∃ x, x ∈ c2.lru_cache_.access_order_ ∧ x.first = k :=
    ⟨_, Cache.facade_get_hit i1 hn n2, Cache.Inv_get_hit i1 hn n2, _, List.mem_cons_self _ _, rfl⟩
  have e3 := Cache.facade_remove_hit sizeof_entry i2 hn2
  rw [hf2] at e3
  obtain ⟨c3, e3, i3, hk3⟩ : ∃ c3, c2.remove sizeof_entry k = some (true, c3) ∧ c3.Inv ∧
      k ∉ c3.lru_cache_.keys :=
    ⟨_, e3, Cache.Inv_remove_hit i2 k _, LRUCache.not_mem_keys_filter _ k⟩
  have e4 := Cache.facade_get_miss i3 hk3 n4
  have r1 : TCPServer.parse_and_execute sizeof_entry show_double n1 TCPServer.new
      ("SET " ++ k ++ " " ++ String.intercalate " " ts) =
        some ("OK", { TCPServer.new with cache_ := c1 }) := by
    rw [TCPServer.execute_SET _ _ _ _ (Protocol.parse_request_SET_line k ts hts hall), e1]
    rfl
  have r2 : TCPServer.parse_and_execute sizeof_entry show_double n2
      { TCPServer.new with cache_ := c1 } ("GET " ++ k) =
        some ("OK " ++ String.intercalate " " ts, { TCPServer.new with cache_ := c2 }) := by
    rw [TCPServer.execute_GET _ _ _ _ (Protocol.parse_request_GET_line k hk)]
    show Option.map _ (c1.get k n2) = _
    rw [e2]
    simp only [Option.map_some', if_neg hv]
  have r3 : TCPServer.parse_and_execute sizeof_entry show_double n3
      { TCPServer.new with cache_ := c2 } ("DELETE " ++ k) =
        some ("OK", { TCPServer.new with cache_ := c3 }) := by
    rw [TCPServer.execute_DELETE _ _ _ _ (Protocol.parse_request_DELETE_line k hk)]
    show Option.map _ (c2.remove sizeof_entry k) = _
    rw [e3]
    rfl
  have r4 : TCPServer.parse_and_execute sizeof_entry show_double n4
      { TCPServer.new with cache_ := c3 } ("GET " ++ k) =
        some ("ERROR NOT_FOUND",
          { TCPServer.new with cache_ := { c3 with misses_ := (c3.misses_ + 1) % SIZE_T } }) := by
    rw [TCPServer.execute_GET _ _ _ _ (Protocol.parse_request_GET_line k hk)]
    show Option.map _ (c3.get k n4) = _
    rw [e4]
    rfl
  exact ⟨_, _, _, _, r1, r2, r3, r4⟩

theorem TCPServer.command_round_trip_witness :
    ∃ s1 s2 s3 s4,
      TCPServer.parse_and_execute 80 (fun _ _ => "0") 0 TCPServer.new
          ("SET " ++ "greeting" ++ " " ++ String.intercalate " " ["hello", "world"]) =
        some ("OK", s1) ∧
      TCPServer.parse_and_execute 80 (fun _ _ => "0") 1 s1 ("GET " ++ "greeting") =
          some ("OK " ++ String.intercalate " " ["hello", "world"], s2) ∧
      TCPServer.parse_and_execute 80 (fun _ _ => "0") 2 s2 ("DELETE " ++ "greeting") =
          some ("OK", s3) ∧
      TCPServer.parse_and_execute 80 (fun _ _ => "0") 3 s3 ("GET " ++ "greeting") =
          some ("ERROR NOT_FOUND", s4) :=
  TCPServer.command_round_trip 80 (fun _ _ => "0") "greeting" ["hello", "world"] 0 1 2 3
    (by decide) (by decide) (by decide) (by decide)

/-! ## The byte accounting never counts too little -/

namespace Cache

theorem sum_entry_size_ge (sizeof_entry : Nat) (l : List (ListNode String CacheEntry))
    (hl : l ≠ []) :
    sizeof_entry ≤ (l.map (fun n => entry_size sizeof_entry n.first n.second.value)).sum := by
  cases l with
  | nil => exact absurd rfl hl
  | cons x l =>
    simp only [List.map_cons, List.sum_cons, entry_size]
    omega

theorem evict_step_strong (sizeof_entry : Nat) {c : Cache} (h : c.Inv)
    (hbig : c.lru_cache_.size > 1) :
    ∃ c1, c.evict_step = some c1 ∧ c1.Inv ∧
      c1.lru_cache_.access_order_ = c.lru_cache_.access_order_.take (c.lru_cache_.size - 1) ∧
      c1.lru_cache_.capacity_ = c.lru_cache_.size - 1 ∧
      c1.lru_cache_.size + 1 = c.lru_cache_.size ∧
      c1.max_capacity_ = c.max_capacity_ ∧ c1.hits_ = c.hits_ ∧ c1.misses_ = c.misses_ ∧
      c1.current_memory_usage_ =
        (if c.current_memory_usage_ > 50 then c.current_memory_usage_ - 50 else 0) ∧
      (50 ≤ sizeof_entry → c.stored_bytes sizeof_entry ≤ c.current_memory_usage_ →
        c1.stored_bytes sizeof_entry ≤ c1.current_memory_usage_) := by
  have hsz := h.lru_size_eq
  obtain ⟨l, el, wl, capl, ll⟩ := LRUCache.set_capacity_spec h.wf (c.lru_cache_.size - 1)
  have hlen : l.access_order_.length = c.lru_cache_.size - 1 := by
    rw [ll, List.length_take]; omega
  have hinv : Inv { c with
      lru_cache_ := l
      current_memory_usage_ :=
        if c.current_memory_usage_ > 50 then c.current_memory_usage_ - 50 else 0 } :=
    ⟨wl, by show 1 ≤ l.capacity_; omega, by show l.access_order_.length ≤ l.capacity_; omega,
      by
        intro n hn
        have hn' : n ∈ l.access_order_ := hn
        rw [ll] at hn'
        exact h.key_eq n (List.mem_of_mem_take hn'),
      h.max_lt, by
        show (if c.current_memory_usage_ > 50 then c.current_memory_usage_ - 50 else 0) < SIZE_T
        have := h.usage_lt
        split <;> omega⟩
  refine ⟨_, by simp only [evict_step, el, Option.some_bind], hinv, ll, capl, ?_, rfl, rfl, rfl,
    rfl, ?_⟩
  · show l.size + 1 = _
    have : l.size = l.access_order_.length := wl.size_eq
    omega
  · intro h50 hst
    rw [stored_bytes_eq] at hst ⊢
    show (l.access_order_.map _).sum ≤
      (if c.current_memory_usage_ > 50 then c.current_memory_usage_ - 50 else 0)
    rw [ll]
    have hsplit := List.sum_take_add_sum_drop
      (c.lru_cache_.access_order_.map
        (fun n => entry_size sizeof_entry n.first n.second.value)) (c.lru_cache_.size - 1)
    rw [← List.map_take, ← List.map_drop] at hsplit
    have hdrop : c.lru_cache_.access_order_.drop (c.lru_cache_.size - 1) ≠ [] := by
      intro e
      have := congrArg List.length e
      rw [List.length_drop] at this
      simp at this
      omega
    have := sum_entry_size_ge sizeof_entry _ hdrop
    split <;> omega

theorem evict_loop_strong (sizeof_entry : Nat) (fuel : Nat) :
    ∀ c : Cache, c.Inv → c.lru_cache_.access_order_.length < fuel →
      ∃ c1, evict_loop fuel c = some c1 ∧
        c1.lru_cache_.capacity_ ≤ c.lru_cache_.capacity_ ∧
        (50 ≤ sizeof_entry → c.stored_bytes sizeof_entry ≤ c.current_memory_usage_ →
          c1.stored_bytes sizeof_entry ≤ c1.current_memory_usage_) := by
  induction fuel with
  | zero => intro c _ hlt; omega
  | succ fuel ih =>
    intro c h hlt
    have hsz := h.lru_size_eq
    rw [evict_loop_succ]
    by_cases hcond : c.current_memory_usage_ > c.target_usage ∧ c.lru_cache_.size > 0
    · by_cases hbig : c.lru_cache_.size > 1
      · obtain ⟨c', e', i', hl', hcap', hs', _, _, _, _, hst'⟩ :=
          evict_step_strong sizeof_entry h hbig
        have hlt' : c'.lru_cache_.access_order_.length < fuel := by
          rw [← i'.lru_size_eq]; omega
        obtain ⟨c1, e1, hc1, hst1⟩ := ih c' i' hlt'
        refine ⟨c1, ?_, ?_, fun h50 hst => hst1 h50 (hst' h50 hst)⟩
        · rw [if_pos hcond, if_pos hbig, e', Option.some_bind, e1]
        · have := h.size_le
          omega
      · exact ⟨c, by rw [if_pos hcond, if_neg hbig], le_refl _, fun _ hst => hst⟩
    · exact ⟨c, by rw [if_neg hcond], le_refl _, fun _ hst => hst⟩

theorem evict_if_needed_strong (sizeof_entry : Nat) {c : Cache} (h : c.Inv) :
    ∃ b c1, c.evict_if_needed = some (b, c1) ∧ c1.Inv ∧
      c1.max_capacity_ = c.max_capacity_ ∧ c1.hits_ = c.hits_ ∧ c1.misses_ = c.misses_ ∧
      c1.current_memory_usage_ ≤ c.current_memory_usage_ ∧
      c1.lru_cache_.capacity_ ≤ c.lru_cache_.capacity_ ∧
      (50 ≤ sizeof_entry → c.stored_bytes sizeof_entry ≤ c.current_memory_usage_ →
        c1.stored_bytes sizeof_entry ≤ c1.current_memory_usage_) := by
  obtain ⟨c1, m, e1, i1, hmax, hh, hm, _, _, hu, _⟩ := evict_if_needed_spec h
  obtain ⟨c2, e2, hcap, hst⟩ := evict_loop_strong sizeof_entry (c.lru_cache_.size + 1) c h
    (by rw [h.lru_size_eq]; omega)
  have e3 : c.evict_if_needed =
      some (decide (c2.current_memory_usage_ ≤ c2.target_usage), c2) := by
    simp [evict_if_needed, e2]
  rw [e3] at e1
  have hc : c2 = c1 := congrArg Prod.snd (Option.some.inj e1)
  subst hc
  exact ⟨_, _, e3, i1, hmax, hh, hm, hu, hcap, hst⟩

end Cache

namespace Cache

theorem set_strong (sizeof_entry : Nat) {c : Cache} (h : c.Inv) (key value : String)
    (now : Nat) :
    ∃ b c1, c.set sizeof_entry key value now = some (b, c1) ∧ c1.Inv ∧
      c1.lru_cache_.capacity_ ≤ c.lru_cache_.capacity_ ∧
      (50 ≤ sizeof_entry → c.stored_bytes sizeof_entry ≤ c.current_memory_usage_ →
        c.current_memory_usage_ + entry_size sizeof_entry key value < SIZE_T →
        c1.stored_bytes sizeof_entry ≤ c1.current_memory_usage_ ∧
        c1.current_memory_usage_ ≤
          c.current_memory_usage_ + entry_size sizeof_entry key value) := by
  by_cases hbig : entry_size sizeof_entry key value > c.max_capacity_
  · exact ⟨false, c, by simp [Cache.set, hbig], h, le_refl _, fun _ hst _ => ⟨hst, by omega⟩⟩
  · obtain ⟨b, c0, e0, i0, hmax, hu, hcap, hst0⟩ :
        ∃ b c0, (if (c.current_memory_usage_ + entry_size sizeof_entry key value) % SIZE_T >
            c.max_capacity_ then c.evict_if_needed else some (true, c)) = some (b, c0) ∧
          c0.Inv ∧ c0.max_capacity_ = c.max_capacity_ ∧
          c0.current_memory_usage_ ≤ c.current_memory_usage_ ∧
          c0.lru_cache_.capacity_ ≤ c.lru_cache_.capacity_ ∧
          (50 ≤ sizeof_entry → c.stored_bytes sizeof_entry ≤ c.current_memory_usage_ →
            c0.stored_bytes sizeof_entry ≤ c0.current_memory_usage_) := by
      by_cases hfit : (c.current_memory_usage_ + entry_size sizeof_entry key value) % SIZE_T >
          c.max_capacity_
      · obtain ⟨b, c1, e1, i1, hmax, _, _, hu, hcap, hst⟩ :=
          evict_if_needed_strong sizeof_entry h
        exact ⟨b, c1, by rw [if_pos hfit]; exact e1, i1, hmax, hu, hcap, hst⟩
      · exact ⟨true, c, by rw [if_neg hfit], h, rfl, le_refl _, le_refl _, fun _ hst => hst⟩
    cases b with
    | false =>
      refine ⟨false, c0, ?_, i0, hcap, fun h50 hst _ => ⟨hst0 h50 hst, by omega⟩⟩
      simp only [Cache.set, hbig, if_false, e0, Option.some_bind, if_true]
    | true =>
      obtain ⟨a, l, rest, el, wl, capl, ll, hsub, hlen, _⟩ :=
        LRUCache.put_spec i0.wf i0.cap_pos i0.size_le key (⟨key, value, now, 0⟩ : CacheEntry)
      have hinv : Inv { c0 with
          lru_cache_ := l
          current_memory_usage_ :=
            (c0.current_memory_usage_ + entry_size sizeof_entry key value) % SIZE_T } := by
        refine ⟨wl, by rw [capl]; exact i0.cap_pos, ?_, ?_, i0.max_lt,
          Nat.mod_lt _ (by simp [SIZE_T])⟩
        · show l.access_order_.length ≤ l.capacity_
          rw [ll, capl, List.length_cons]; exact hlen
        · intro n hn
          have hn' : n ∈ l.access_order_ := hn
          rw [ll] at hn'
          rcases List.mem_cons.1 hn' with hn' | hn'
          · subst hn'; rfl
          · exact i0.key_eq n (hsub.subset hn')
      refine ⟨true, _, by simp [Cache.set, hbig, e0, el], hinv, ?_, ?_⟩
      · show l.capacity_ ≤ _
        rw [capl]; exact hcap
      · intro h50 hst hlt
        have hst0' := hst0 h50 hst
        rw [stored_bytes_eq] at hst0' ⊢
        show (l.access_order_.map _).sum ≤
            (c0.current_memory_usage_ + entry_size sizeof_entry key value) % SIZE_T ∧
          (c0.current_memory_usage_ + entry_size sizeof_entry key value) % SIZE_T ≤ _
        rw [Nat.mod_eq_of_lt (by omega), ll]
        have hs := (hsub.map
          (fun n => entry_size sizeof_entry n.first n.second.value)).sum_le_sum
            (fun _ _ => Nat.zero_le _)
        simp only [List.map_cons, List.sum_cons]
        constructor <;> omega

theorem set_max_capacity_strong (sizeof_entry : Nat) {c : Cache} (h : c.Inv) (capacity : Nat)
    (hcap : capacity < SIZE_T) :
    ∃ c1, c.set_max_capacity capacity = some c1 ∧
      c1.lru_cache_.capacity_ ≤ c.lru_cache_.capacity_ ∧
      (50 ≤ sizeof_entry → c.stored_bytes sizeof_entry ≤ c.current_memory_usage_ →
        c1.stored_bytes sizeof_entry ≤ c1.current_memory_usage_ ∧
        c1.current_memory_usage_ ≤ c.current_memory_usage_) := by
  have h' : Inv { c with max_capacity_ := capacity } :=
    ⟨h.wf, h.cap_pos, h.size_le, h.key_eq, hcap, h.usage_lt⟩
  by_cases hgt : c.current_memory_usage_ > capacity
  · obtain ⟨b, c1, e1, _, _, _, _, hu, hc, hst⟩ := evict_if_needed_strong sizeof_entry h'
    refine ⟨c1, ?_, hc, fun h50 hs => ⟨hst h50 hs, hu⟩⟩
    simp only [Cache.set_max_capacity, hgt, if_true, e1, Option.map_some']
  · refine ⟨{ c with max_capacity_ := capacity }, ?_, le_refl _, fun _ hs => ⟨hs, le_refl _⟩⟩
    simp only [Cache.set_max_capacity, hgt, if_false]

end Cache

namespace Cache

theorem get_strong (sizeof_entry : Nat) {c : Cache} (h : c.Inv) (key : String) (now : Nat) :
    ∃ v c1, c.get key now = some (v, c1) ∧ c1.Inv ∧
      c1.lru_cache_.capacity_ = c.lru_cache_.capacity_ ∧
      c1.current_memory_usage_ = c.current_memory_usage_ ∧
      c1.stored_bytes sizeof_entry = c.stored_bytes sizeof_entry ∧
      (key ∈ c.lru_cache_.keys →
        c1.hits_ = (c.hits_ + 1) % SIZE_T ∧ c1.misses_ = c.misses_ ∧
        (key, v) ∈ c.contents) ∧
      (key ∉ c.lru_cache_.keys →
        c1.hits_ = c.hits_ ∧ c1.misses_ = (c.misses_ + 1) % SIZE_T ∧ v = "") := by
  by_cases hk : key ∈ c.lru_cache_.keys
  · obtain ⟨n, hn, rfl⟩ := LRUCache.mem_keys_iff.1 hk
    refine ⟨_, _, facade_get_hit h hn now, Inv_get_hit h hn now, rfl, rfl, ?_,
      fun _ => ⟨rfl, rfl, ?_⟩, fun hk' => absurd hk hk'⟩
    · rw [stored_bytes_split sizeof_entry h hn, stored_bytes_eq]
      simp
    · exact List.mem_map.2 ⟨n, hn, rfl⟩
  · exact ⟨_, _, facade_get_miss h hk now,
      ⟨h.wf, h.cap_pos, h.size_le, h.key_eq, h.max_lt, h.usage_lt⟩, rfl, rfl, rfl,
      fun hk' => absurd hk' hk, fun _ => ⟨rfl, rfl, rfl⟩⟩

theorem remove_strong (sizeof_entry : Nat) {c : Cache} (h : c.Inv) (key : String) :
    ∃ b c1, c.remove sizeof_entry key = some (b, c1) ∧ c1.Inv ∧
      c1.lru_cache_.capacity_ = c.lru_cache_.capacity_ ∧
      c1.hits_ = c.hits_ ∧ c1.misses_ = c.misses_ ∧
      (b = true ↔ key ∈ c.lru_cache_.keys) ∧
      (b = false → c1 = c) ∧
      (b = true → ∃ value, (key, value) ∈ c.contents ∧
        c1.contents = c.contents.filter (fun e => e.1 ≠ key) ∧
        c1.lru_cache_.size + 1 = c.lru_cache_.size ∧
        c.stored_bytes sizeof_entry =
          entry_size sizeof_entry key value + c1.stored_bytes sizeof_entry ∧
        c1.current_memory_usage_ =
          (c.current_memory_usage_ + SIZE_T - entry_size sizeof_entry key value % SIZE_T) %
            SIZE_T ∧
        key ∉ c1.lru_cache_.keys) := by
  by_cases hk : key ∈ c.lru_cache_.keys
  · obtain ⟨n, hn, rfl⟩ := LRUCache.mem_keys_iff.1 hk
    have i1 := Inv_remove_hit h n.first
      (c.current_memory_usage_ + SIZE_T - entry_size sizeof_entry n.first n.second.value % SIZE_T)
    refine ⟨true, _, facade_remove_hit sizeof_entry h hn, i1, rfl, rfl, rfl, by simp [hk],
      (fun hb => by cases hb), fun _ => ⟨n.second.value, List.mem_map.2 ⟨n, hn, rfl⟩, ?_, ?_, ?_,
        rfl, LRUCache.not_mem_keys_filter _ _⟩⟩
    · simp only [contents, List.filter_map]
      congr 1
    · rw [i1.lru_size_eq, h.lru_size_eq]
      exact LRUCache.length_filter_first _ h.wf.key_nodup n hn
    · rw [stored_bytes_split sizeof_entry h hn, stored_bytes_eq]
  · exact ⟨false, c, facade_remove_miss sizeof_entry h hk, h, rfl, rfl, rfl, by simp [hk],
      fun _ => rfl, (fun hb => by cases hb)⟩

end Cache

namespace Cache

theorem sub_wrap {u e : Nat} (hu : u < SIZE_T) (he : e ≤ u) :
    (u + SIZE_T - e % SIZE_T) % SIZE_T = u - e := by
  have hes : e % SIZE_T = e := Nat.mod_eq_of_lt (by omega)
  have h2 : u + SIZE_T - e = (u - e) + SIZE_T := by omega
  rw [hes, h2, Nat.add_mod_right, Nat.mod_eq_of_lt (by omega)]

/-- One call on a consistent state: it is defined, keeps the state consistent,
does not raise the engine's entry limit, keeps the memory counter at or above
the stored bytes while the counter cannot wrap, and moves the hit and miss
counters only in a `get`. -/
theorem apply_strong (sizeof_entry : Nat) {c : Cache} (h : c.Inv) (op : Op) (hv : op.valid) :
    ∃ c1, c.apply sizeof_entry op = some c1 ∧ c1.Inv ∧
      c1.lru_cache_.capacity_ ≤ c.lru_cache_.capacity_ ∧
      (50 ≤ sizeof_entry → c.stored_bytes sizeof_entry ≤ c.current_memory_usage_ →
        c.current_memory_usage_ + op.written sizeof_entry < SIZE_T →
        c1.stored_bytes sizeof_entry ≤ c1.current_memory_usage_ ∧
        c1.current_memory_usage_ ≤ c.current_memory_usage_ + op.written sizeof_entry) ∧
      (∀ key now, op = Op.get key now →
        (key ∈ c.lru_cache_.keys →
          c1.hits_ = (c.hits_ + 1) % SIZE_T ∧ c1.misses_ = c.misses_) ∧
        (key ∉ c.lru_cache_.keys →
          c1.hits_ = c.hits_ ∧ c1.misses_ = (c.misses_ + 1) % SIZE_T)) ∧
      ((∀ key now, op ≠ Op.get key now) → c1.hits_ = c.hits_ ∧ c1.misses_ = c.misses_) := by
  cases op with
  | set key value now =>
    obtain ⟨b, c1, e, i, hcap, hst⟩ := set_strong sizeof_entry h key value now
    obtain ⟨b', c1', e', _, _, hh, hm, _⟩ := set_spec sizeof_entry h key value now
    rw [e] at e'
    have hc : c1 = c1' := congrArg Prod.snd (Option.some.inj e')
    subst hc
    exact ⟨c1, apply_set_eq sizeof_entry e, i, hcap, hst,
      (fun _ _ hop => by cases hop), fun _ => ⟨hh, hm⟩⟩
  | get key now =>
    obtain ⟨v, c1, e, i, hcap, hu, hst, hhit, hmiss⟩ := get_strong sizeof_entry h key now
    refine ⟨c1, apply_get_eq sizeof_entry e, i, le_of_eq hcap, ?_, ?_, ?_⟩
    · intro _ hs _
      rw [hst, hu]
      exact ⟨hs, Nat.le_add_right _ _⟩
    · intro key' now' hop
      cases hop
      exact ⟨fun hk => ⟨(hhit hk).1, (hhit hk).2.1⟩, fun hk => ⟨(hmiss hk).1, (hmiss hk).2.1⟩⟩
    · intro hne
      exact absurd rfl (hne key now)
  | remove key =>
    obtain ⟨b, c1, e, i, hcap, hh, hm, _, hfalse, htrue⟩ := remove_strong sizeof_entry h key
    refine ⟨c1, apply_remove_eq sizeof_entry e, i, le_of_eq hcap, ?_,
      (fun _ _ hop => by cases hop), fun _ => ⟨hh, hm⟩⟩
    intro _ hs _
    cases b with
    | false =>
      rw [hfalse rfl]
      exact ⟨hs, Nat.le_add_right _ _⟩
    | true =>
      obtain ⟨value, _, _, _, hsplit, husage, _⟩ := htrue rfl
      rw [husage, sub_wrap h.usage_lt (by omega)]
      constructor <;> omega
  | clear =>
    refine ⟨_, rfl, Inv_clear h, le_refl _, fun _ _ _ => ⟨?_, Nat.zero_le _⟩,
      (fun _ _ hop => by cases hop), fun _ => ⟨rfl, rfl⟩⟩
    simp [stored_bytes, contents, Cache.clear, LRUCache.clear]
  | set_max_capacity capacity =>
    obtain ⟨c1, e, hcap, hst⟩ := set_max_capacity_strong sizeof_entry h capacity hv
    obtain ⟨c1', m, e', i, _, hh, hm, _⟩ := set_max_capacity_spec h capacity hv
    rw [e] at e'
    have hc : c1 = c1' := Option.some.inj e'
    subst hc
    refine ⟨c1, e, i, hcap, ?_, (fun _ _ hop => by cases hop), fun _ => ⟨hh, hm⟩⟩
    intro h50 hs _
    exact ⟨(hst h50 hs).1, le_trans (hst h50 hs).2 (Nat.le_add_right _ _)⟩

/-- A sequence of calls on a consistent state: every call is defined, the
engine's entry limit never grows, and the memory counter stays at or above the
stored bytes while the bytes written cannot make it wrap. -/
theorem run_strong (sizeof_entry : Nat) (ops : List Op) :
    ∀ c : Cache, c.Inv → (∀ op ∈ ops, op.valid) →
      ∃ c1, c.run sizeof_entry ops = some c1 ∧ c1.Inv ∧
        c1.lru_cache_.capacity_ ≤ c.lru_cache_.capacity_ ∧
        (50 ≤ sizeof_entry → c.stored_bytes sizeof_entry ≤ c.current_memory_usage_ →
          c.current_memory_usage_ + written_bytes sizeof_entry ops < SIZE_T →
          c1.stored_bytes sizeof_entry ≤ c1.current_memory_usage_ ∧
          c1.current_memory_usage_ ≤
            c.current_memory_usage_ + written_bytes sizeof_entry ops) := by
  induction ops with
  | nil =>
    intro c h _
    exact ⟨c, rfl, h, le_refl _, fun _ hs _ => ⟨hs, Nat.le_add_right _ _⟩⟩
  | cons op ops ih =>
    intro c h hv
    obtain ⟨c1, e1, i1, hcap1, hst1, _⟩ :=
      apply_strong sizeof_entry h op (hv op (List.mem_cons_self _ _))
    obtain ⟨c2, e2, i2, hcap2, hst2⟩ := ih c1 i1 (fun o ho => hv o (List.mem_cons_of_mem _ ho))
    refine ⟨c2, by simp only [run, e1, Option.some_bind, e2], i2, le_trans hcap2 hcap1, ?_⟩
    intro h50 hs hlt
    have hw : written_bytes sizeof_entry (op :: ops) =
        op.written sizeof_entry + written_bytes sizeof_entry ops := by
      simp [written_bytes]
    rw [hw] at hlt ⊢
    obtain ⟨a1, a2⟩ := hst1 h50 hs (by omega)
    obtain ⟨b1, b2⟩ := hst2 h50 a1 (by omega)
    exact ⟨b1, by omega⟩

/-- The hit and miss counters over a sequence of calls: while they cannot wrap,
their sum grows by the number of `get` calls and neither goes down. -/
theorem run_counters (sizeof_entry : Nat) (ops : List Op) :
    ∀ c : Cache, c.Inv → (∀ op ∈ ops, op.valid) →
      c.hits_ + c.misses_ + get_count ops < SIZE_T →
      ∃ c1, c.run sizeof_entry ops = some c1 ∧ c1.Inv ∧
        c1.hits_ + c1.misses_ = c.hits_ + c.misses_ + get_count ops ∧
        c.hits_ ≤ c1.hits_ ∧ c.misses_ ≤ c1.misses_ := by
  induction ops with
  | nil =>
    intro c h _ _
    exact ⟨c, rfl, h, by simp [get_count], le_refl _, le_refl _⟩
  | cons op ops ih =>
    intro c h hv hlt
    obtain ⟨c1, e1, i1, _, _, hget, hother⟩ :=
      apply_strong sizeof_entry h op (hv op (List.mem_cons_self _ _))
    have hstep : c1.hits_ + c1.misses_ + get_count ops =
        c.hits_ + c.misses_ + get_count (op :: ops) ∧ c.hits_ ≤ c1.hits_ ∧
        c.misses_ ≤ c1.misses_ := by
      cases op with
      | get key now =>
        have hg : get_count (Op.get key now :: ops) = get_count ops + 1 := by
          simp [get_count, List.countP_cons]
        rw [hg] at hlt ⊢
        obtain ⟨hhit, hmiss⟩ := hget key now rfl
        by_cases hk : key ∈ c.lru_cache_.keys
        · obtain ⟨a, b⟩ := hhit hk
          rw [a, b, Nat.mod_eq_of_lt (by omega)]
          omega
        · obtain ⟨a, b⟩ := hmiss hk
          rw [a, b, Nat.mod_eq_of_lt (by omega)]
          omega
      | set key value now =>
        obtain ⟨a, b⟩ := hother (fun _ _ hop => by cases hop)
        rw [a, b]
        simp [get_count, List.countP_cons]
      | remove key =>
        obtain ⟨a, b⟩ := hother (fun _ _ hop => by cases hop)
        rw [a, b]
        simp [get_count, List.countP_cons]
      | clear =>
        obtain ⟨a, b⟩ := hother (fun _ _ hop => by cases hop)
        rw [a, b]
        simp [get_count, List.countP_cons]
      | set_max_capacity capacity =>
        obtain ⟨a, b⟩ := hother (fun _ _ hop => by cases hop)
        rw [a, b]
        simp [get_count, List.countP_cons]
    obtain ⟨c2, e2, i2, hsum, hh, hm⟩ :=
      ih c1 i1 (fun o ho => hv o (List.mem_cons_of_mem _ ho)) (by omega)
    exact ⟨c2, by simp only [run, e1, Option.some_bind, e2], i2, by omega, by omega, by omega⟩

end Cache

namespace Cache

theorem keys_eq_contents (c : Cache) :
    c.lru_cache_.keys = c.contents.map (fun e => e.1) := by
  simp [LRUCache.keys, contents, List.map_map, Function.comp_def]

theorem contents_unique {c : Cache} (h : c.Inv) {k v w : String}
    (hv : (k, v) ∈ c.contents) (hw : (k, w) ∈ c.contents) : v = w := by
  obtain ⟨n, hn, en⟩ := List.mem_map.1 hv
  obtain ⟨n', hn', en'⟩ := List.mem_map.1 hw
  have e1 : n.first = k := congrArg Prod.fst en
  have e2 : n'.first = k := congrArg Prod.fst en'
  have := List.inj_on_of_nodup_map h.wf.key_nodup hn hn' (by rw [e1, e2])
  subst this
  exact (congrArg Prod.snd en).symm.trans (congrArg Prod.snd en')

theorem stored_bytes_new (sizeof_entry max_capacity : Nat) :
    (Cache.new max_capacity).stored_bytes sizeof_entry = 0 := by
  simp [stored_bytes, contents, Cache.new, LRUCache.new]

end Cache

/-- C22. After `clear()`, in whatever state it is called, `size()` and
`memory_usage()` are zero, nothing is stored and `get` returns the empty string
for every key, while `hits()` and `misses()` keep their values. -/
theorem Cache.clear_resets_contents (c : Cache) :
    c.clear.size = 0 ∧ c.clear.memory_usage = 0 ∧ c.clear.contents = [] ∧
      (∀ key now, ∃ c1, c.clear.get key now = some ("", c1)) ∧
      c.clear.hits = c.hits ∧ c.clear.misses = c.misses := by
  refine ⟨?_, rfl, ?_, ?_, rfl, rfl⟩
  · simp [Cache.size, Cache.clear, LRUCache.clear, LRUCache.size]
  · simp [Cache.contents, Cache.clear, LRUCache.clear]
  · intro key now
    have hw : c.clear.lru_cache_.WF := LRUCache.WF_clear _
    have hk : key ∉ c.clear.lru_cache_.keys := by
      simp [Cache.clear, LRUCache.clear, LRUCache.keys]
    refine ⟨Cache.update_statistics c.clear false, ?_⟩
    simp only [Cache.get, LRUCache.get_miss hw hk, Option.some_bind]

/-- C23. From a fresh `Cache`, as long as fewer than `2 ^ 64` `get` calls have
been made, `hits() + misses()` is the number of `get` calls made so far, a
`get` adds one to `hits()` when its key is stored and one to `misses()` when
it is not, and no later call lowers either counter. -/
theorem Cache.hits_plus_misses_counts_gets (sizeof_entry max_capacity : Nat)
    (before after : List Cache.Op) (hmax : max_capacity < SIZE_T)
    (hv1 : ∀ op ∈ before, op.valid) (hv2 : ∀ op ∈ after, op.valid)
    (hlt : Cache.get_count (before ++ after) < SIZE_T) :
    ∃ c1 c2, (Cache.new max_capacity).run sizeof_entry before = some c1 ∧
      c1.run sizeof_entry after = some c2 ∧
      c1.hits + c1.misses = Cache.get_count before ∧
      c2.hits + c2.misses = Cache.get_count (before ++ after) ∧
      c1.hits ≤ c2.hits ∧ c1.misses ≤ c2.misses ∧
      ∀ key now, Cache.get_count before + 1 < SIZE_T →
        ∃ v c3, c1.get key now = some (v, c3) ∧
          (key ∈ c1.contents.map (fun e => e.1) →
            c3.hits = c1.hits + 1 ∧ c3.misses = c1.misses) ∧
          (key ∉ c1.contents.map (fun e => e.1) →
            c3.hits = c1.hits ∧ c3.misses = c1.misses + 1) := by
  have happ : Cache.get_count (before ++ after) =
      Cache.get_count before + Cache.get_count after := by
    simp [Cache.get_count, List.countP_append]
  rw [happ] at hlt ⊢
  have h0 := Cache.Inv_new max_capacity hmax
  have z1 : (Cache.new max_capacity).hits_ = 0 := rfl
  have z2 : (Cache.new max_capacity).misses_ = 0 := rfl
  obtain ⟨c1, e1, i1, s1, _, _⟩ :=
    Cache.run_counters sizeof_entry before _ h0 hv1 (by rw [z1, z2]; omega)
  rw [z1, z2] at s1
  obtain ⟨c2, e2, i2, s2, hh, hm⟩ :=
    Cache.run_counters sizeof_entry after c1 i1 hv2 (by omega)
  refine ⟨c1, c2, e1, e2, by simpa [Cache.hits, Cache.misses] using s1,
    by simp only [Cache.hits, Cache.misses]; omega, hh, hm, ?_⟩
  intro key now hone
  obtain ⟨v, c3, e3, _, _, _, _, hhit, hmiss⟩ := Cache.get_strong sizeof_entry i1 key now
  rw [← Cache.keys_eq_contents]
  refine ⟨v, c3, e3, ?_, ?_⟩
  · intro hk
    obtain ⟨a, b, _⟩ := hhit hk
    simp only [Cache.hits, Cache.misses]
    rw [a, b, Nat.mod_eq_of_lt (by omega)]
    exact ⟨rfl, rfl⟩
  · intro hk
    obtain ⟨a, b, _⟩ := hmiss hk
    simp only [Cache.hits, Cache.misses]
    rw [a, b, Nat.mod_eq_of_lt (by omega)]
    exact ⟨rfl, rfl⟩

theorem Cache.hits_plus_misses_counts_gets_witness :
    ∃ c1 c2,
      (Cache.new 1000).run 80 [Cache.Op.set "a" "1" 0, Cache.Op.get "a" 1] = some c1 ∧
      c1.run 80 [Cache.Op.get "b" 2, Cache.Op.clear, Cache.Op.get "a" 3] = some c2 ∧
      c1.hits + c1.misses =
        Cache.get_count [Cache.Op.set "a" "1" 0, Cache.Op.get "a" 1] ∧
      c2.hits + c2.misses =
        Cache.get_count ([Cache.Op.set "a" "1" 0, Cache.Op.get "a" 1] ++
          [Cache.Op.get "b" 2, Cache.Op.clear, Cache.Op.get "a" 3]) ∧
      c1.hits ≤ c2.hits ∧ c1.misses ≤ c2.misses ∧
      ∀ key now, Cache.get_count [Cache.Op.set "a" "1" 0, Cache.Op.get "a" 1] + 1 < SIZE_T →
        ∃ v c3, c1.get key now = some (v, c3) ∧
          (key ∈ c1.contents.map (fun e => e.1) →
            c3.hits = c1.hits + 1 ∧ c3.misses = c1.misses) ∧
          (key ∉ c1.contents.map (fun e => e.1) →
            c3.hits = c1.hits ∧ c3.misses = c1.misses + 1) :=
  Cache.hits_plus_misses_counts_gets 80 1000
    [Cache.Op.set "a" "1" 0, Cache.Op.get "a" 1]
    [Cache.Op.get "b" 2, Cache.Op.clear, Cache.Op.get "a" 3]
    (by simp [SIZE_T]) (by simp [Cache.Op.valid]) (by simp [Cache.Op.valid])
    (by simp [Cache.get_count, SIZE_T])

/-- C21. After any sequence of calls on a fresh `Cache` (with
`sizeof(CacheEntry)` at least 50 and fewer than `2 ^ 64` bytes written in all,
so that the memory counter has not wrapped), `remove(k)` returns true exactly
when `k` is stored. When it returns true, `size()` goes down by one,
`memory_usage()` goes down by exactly the entry size of the stored entry, and a
following `get(k)` returns the empty string. When it returns false the state is
unchanged. -/
theorem Cache.remove_returns_stored (sizeof_entry max_capacity : Nat) (ops : List Cache.Op)
    (k : String) (h50 : 50 ≤ sizeof_entry) (hmax : max_capacity < SIZE_T)
    (hv : ∀ op ∈ ops, op.valid) (hw : Cache.written_bytes sizeof_entry ops < SIZE_T) :
    ∃ c b c1, (Cache.new max_capacity).run sizeof_entry ops = some c ∧
      c.remove sizeof_entry k = some (b, c1) ∧
      (b = true ↔ k ∈ c.contents.map (fun e => e.1)) ∧
      (b = true →
        c1.size + 1 = c.size ∧
        (∃ v, (k, v) ∈ c.contents ∧
          c1.memory_usage + Cache.entry_size sizeof_entry k v = c.memory_usage) ∧
        c1.contents = c.contents.filter (fun e => e.1 ≠ k) ∧
        ∀ now, ∃ c2, c1.get k now = some ("", c2)) ∧
      (b = false → c1 = c) := by
  obtain ⟨c, e, i, _, hst⟩ :=
    Cache.run_strong sizeof_entry ops _ (Cache.Inv_new max_capacity hmax) hv
  have hs := (hst h50 (by rw [Cache.stored_bytes_new]; exact Nat.zero_le _)
    (by show 0 + _ < _; omega)).1
  obtain ⟨b, c1, e1, i1, _, _, _, hiff, hfalse, htrue⟩ := Cache.remove_strong sizeof_entry i k
  refine ⟨c, b, c1, e, e1, by rw [← Cache.keys_eq_contents]; exact hiff, ?_, hfalse⟩
  intro hb
  obtain ⟨v, hmem, hcont, hsize, hsplit, husage, hk⟩ := htrue hb
  refine ⟨hsize, ⟨v, hmem, ?_⟩, hcont, ?_⟩
  · show c1.current_memory_usage_ + _ = c.current_memory_usage_
    rw [husage, Cache.sub_wrap i.usage_lt (by omega)]
    omega
  · intro now
    obtain ⟨w, c2, e2, _, _, _, _, _, hmiss⟩ := Cache.get_strong sizeof_entry i1 k now
    rw [(hmiss hk).2.2] at e2
    exact ⟨c2, e2⟩

theorem Cache.remove_returns_stored_witness :
    ∃ c b c1,
      (Cache.new 1000).run 80 [Cache.Op.set "a" "1" 0, Cache.Op.set "b" "22" 1] = some c ∧
      c.remove 80 "a" = some (b, c1) ∧
      (b = true ↔ "a" ∈ c.contents.map (fun e => e.1)) ∧
      (b = true →
        c1.size + 1 = c.size ∧
        (∃ v, ("a", v) ∈ c.contents ∧
          c1.memory_usage + Cache.entry_size 80 "a" v = c.memory_usage) ∧
        c1.contents = c.contents.filter (fun e => e.1 ≠ "a") ∧
        ∀ now, ∃ c2, c1.get "a" now = some ("", c2)) ∧
      (b = false → c1 = c) :=
  Cache.remove_returns_stored 80 1000 [Cache.Op.set "a" "1" 0, Cache.Op.set "b" "22" 1] "a"
    (by decide) (by simp [SIZE_T]) (by simp [Cache.Op.valid])
    (by decide)

/-- C34. The accounting never counts too little: with `sizeof(CacheEntry)` at
least 50, after any sequence of calls on a fresh `Cache` that has written fewer
than `2 ^ 64` bytes in all, `memory_usage()` is at least the sum of the entry
sizes of the stored entries; the entry size of every stored entry is at most
`memory_usage()`, so the subtraction in `remove` does not wrap. -/
theorem Cache.accounting_never_undercounts (sizeof_entry max_capacity : Nat)
    (ops : List Cache.Op) (h50 : 50 ≤ sizeof_entry) (hmax : max_capacity < SIZE_T)
    (hv : ∀ op ∈ ops, op.valid) (hw : Cache.written_bytes sizeof_entry ops < SIZE_T) :
    ∃ c, (Cache.new max_capacity).run sizeof_entry ops = some c ∧
      c.stored_bytes sizeof_entry ≤ c.memory_usage ∧
      ∀ k v, (k, v) ∈ c.contents →
        Cache.entry_size sizeof_entry k v ≤ c.memory_usage ∧
        ∃ c1, c.remove sizeof_entry k = some (true, c1) ∧
          c1.memory_usage = c.memory_usage - Cache.entry_size sizeof_entry k v ∧
          c1.stored_bytes sizeof_entry ≤ c1.memory_usage := by
  obtain ⟨c, e, i, _, hst⟩ :=
    Cache.run_strong sizeof_entry ops _ (Cache.Inv_new max_capacity hmax) hv
  have hs := (hst h50 (by rw [Cache.stored_bytes_new]; exact Nat.zero_le _)
    (by show 0 + _ < _; omega)).1
  refine ⟨c, e, hs, ?_⟩
  intro k v hmem
  obtain ⟨b, c1, e1, i1, _, _, _, hiff, _, htrue⟩ := Cache.remove_strong sizeof_entry i k
  have hb : b = true := hiff.2 (by
    rw [Cache.keys_eq_contents]
    exact List.mem_map.2 ⟨(k, v), hmem, rfl⟩)
  subst hb
  obtain ⟨w, hmem', _, _, hsplit, husage, _⟩ := htrue rfl
  have hvw : v = w := Cache.contents_unique i hmem hmem'
  subst hvw
  have hle : Cache.entry_size sizeof_entry k v ≤ c.current_memory_usage_ := by omega
  refine ⟨hle, c1, e1, ?_, ?_⟩
  · show c1.current_memory_usage_ = c.current_memory_usage_ - _
    rw [husage, Cache.sub_wrap i.usage_lt hle]
  · show _ ≤ c1.current_memory_usage_
    rw [husage, Cache.sub_wrap i.usage_lt hle]
    omega

theorem Cache.accounting_never_undercounts_witness :
    ∃ c, (Cache.new 200).run 80
        [Cache.Op.set "a" "" 0, Cache.Op.set "b" "" 1, Cache.Op.set "c" "" 2,
          Cache.Op.set "c" "x" 3] = some c ∧
      c.stored_bytes 80 ≤ c.memory_usage ∧
      ∀ k v, (k, v) ∈ c.contents →
        Cache.entry_size 80 k v ≤ c.memory_usage ∧
        ∃ c1, c.remove 80 k = some (true, c1) ∧
          c1.memory_usage = c.memory_usage - Cache.entry_size 80 k v ∧
          c1.stored_bytes 80 ≤ c1.memory_usage :=
  Cache.accounting_never_undercounts 80 200
    [Cache.Op.set "a" "" 0, Cache.Op.set "b" "" 1, Cache.Op.set "c" "" 2,
      Cache.Op.set "c" "x" 3]
    (by decide) (by simp [SIZE_T]) (by simp [Cache.Op.valid])
    (by decide)

namespace Cache

theorem head_contents_take (l : List (ListNode String CacheEntry)) (m : Nat)
    (hm : 1 ≤ m) :
    ((l.take m).map (fun n => (n.first, n.second.value))).head? =
      (l.map (fun n => (n.first, n.second.value))).head? := by
  cases l with
  | nil => simp
  | cons x l =>
    obtain ⟨m, rfl⟩ : ∃ j, m = j + 1 := ⟨m - 1, by omega⟩
    simp

end Cache

/-- C35. The engine's entry limit only shrinks. It starts at 10000; in every
state reached from a fresh `Cache` it is at most 10000 and bounds `size()`; no
call raises it; an eviction step lowers it to the size it leaves, one less than
before, and from then on `size()` never exceeds that number, whatever calls
follow, `clear` and `set_max_capacity` included. -/
theorem Cache.engine_capacity_only_shrinks (sizeof_entry max_capacity : Nat)
    (ops : List Cache.Op) (hmax : max_capacity < SIZE_T) (hv : ∀ op ∈ ops, op.valid) :
    (Cache.new max_capacity).lru_cache_.capacity = 10000 ∧
    ∃ c, (Cache.new max_capacity).run sizeof_entry ops = some c ∧
      c.lru_cache_.capacity ≤ 10000 ∧ c.size ≤ c.lru_cache_.capacity ∧ c.size ≤ 10000 ∧
      (∀ op : Cache.Op, op.valid →
        ∃ c1, c.apply sizeof_entry op = some c1 ∧
          c1.lru_cache_.capacity ≤ c.lru_cache_.capacity) ∧
      (c.size > 1 →
        ∃ c1, c.evict_step = some c1 ∧ c1.lru_cache_.capacity = c.size - 1 ∧
          c1.size = c.size - 1 ∧
          ∀ later : List Cache.Op, (∀ op ∈ later, op.valid) →
            ∃ c2, c1.run sizeof_entry later = some c2 ∧ c2.size ≤ c1.size) := by
  refine ⟨rfl, ?_⟩
  obtain ⟨c, e, i, hcap, _⟩ :=
    Cache.run_strong sizeof_entry ops _ (Cache.Inv_new max_capacity hmax) hv
  have hsz : c.size = c.lru_cache_.access_order_.length := i.lru_size_eq
  have h10 : c.lru_cache_.capacity_ ≤ 10000 := hcap
  have hle := i.size_le
  refine ⟨c, e, h10, by rw [hsz]; exact hle, by rw [hsz]; omega, ?_, ?_⟩
  · intro op hop
    obtain ⟨c1, e1, _, hc1, _⟩ := Cache.apply_strong sizeof_entry i op hop
    exact ⟨c1, e1, hc1⟩
  · intro hbig
    obtain ⟨c1, e1, i1, _, hc1, hs1, _⟩ := Cache.evict_step_strong sizeof_entry i hbig
    have hs1' : c1.size = c.size - 1 := by
      show c1.lru_cache_.size = c.lru_cache_.size - 1
      omega
    refine ⟨c1, e1, hc1, hs1', ?_⟩
    intro later hl
    obtain ⟨c2, e2, i2, hc2, _⟩ := Cache.run_strong sizeof_entry later c1 i1 hl
    refine ⟨c2, e2, ?_⟩
    have h2 : c2.size = c2.lru_cache_.access_order_.length := i2.lru_size_eq
    have := i2.size_le
    have hcc : c1.lru_cache_.capacity_ = c.size - 1 := hc1
    omega

theorem Cache.engine_capacity_only_shrinks_witness :
    (Cache.new 200).lru_cache_.capacity = 10000 ∧
    ∃ c, (Cache.new 200).run 80 [Cache.Op.set "a" "" 0, Cache.Op.set "b" "" 1] = some c ∧
      c.lru_cache_.capacity ≤ 10000 ∧ c.size ≤ c.lru_cache_.capacity ∧ c.size ≤ 10000 ∧
      (∀ op : Cache.Op, op.valid →
        ∃ c1, c.apply 80 op = some c1 ∧ c1.lru_cache_.capacity ≤ c.lru_cache_.capacity) ∧
      (c.size > 1 →
        ∃ c1, c.evict_step = some c1 ∧ c1.lru_cache_.capacity = c.size - 1 ∧
          c1.size = c.size - 1 ∧
          ∀ later : List Cache.Op, (∀ op ∈ later, op.valid) →
            ∃ c2, c1.run 80 later = some c2 ∧ c2.size ≤ c1.size) :=
  Cache.engine_capacity_only_shrinks 80 200 [Cache.Op.set "a" "" 0, Cache.Op.set "b" "" 1]
    (by simp [SIZE_T]) (by simp [Cache.Op.valid])

/-- C36. The eviction routine never removes the most recently used entry and
never empties the cache: run on a reachable state that holds an entry, under
any byte bound, directly or through `set_max_capacity`, it leaves at least one
entry, and the head of the recency order is the same key with the same value. -/
theorem Cache.eviction_keeps_head (sizeof_entry : Nat) (c : Cache) (bound : Nat)
    (hr : Cache.Reachable sizeof_entry c) (hne : 1 ≤ c.size) (hb : bound < SIZE_T) :
    (∃ b c1, ({ c with max_capacity_ := bound } : Cache).evict_if_needed = some (b, c1) ∧
      1 ≤ c1.size ∧ c1.contents.head? = c.contents.head?) ∧
    (∃ c1, c.set_max_capacity bound = some c1 ∧
      1 ≤ c1.size ∧ c1.contents.head? = c.contents.head?) := by
  have i := hr.inv
  have hsz : c.size = c.lru_cache_.access_order_.length := i.lru_size_eq
  have hnil : c.lru_cache_.access_order_ ≠ [] := by
    intro e
    rw [e] at hsz
    simp at hsz
    omega
  have i' : Cache.Inv { c with max_capacity_ := bound } :=
    ⟨i.wf, i.cap_pos, i.size_le, i.key_eq, hb, i.usage_lt⟩
  constructor
  · obtain ⟨c1, m, e1, i1, _, _, _, hl, hm, _⟩ := Cache.evict_if_needed_spec i'
    have hm1 := hm hnil
    refine ⟨_, c1, e1, ?_, ?_⟩
    · have : c1.size = c1.lru_cache_.access_order_.length := i1.lru_size_eq
      rw [this, hl, List.length_take]
      have : 1 ≤ c.lru_cache_.access_order_.length := by omega
      exact le_min hm1 this
    · show (c1.lru_cache_.access_order_.map _).head? = _
      rw [hl]
      exact Cache.head_contents_take _ m hm1
  · obtain ⟨c1, m, e1, i1, _, _, _, hl, hm, _⟩ := Cache.set_max_capacity_spec i bound hb
    have hm1 := hm hnil
    refine ⟨c1, e1, ?_, ?_⟩
    · have : c1.size = c1.lru_cache_.access_order_.length := i1.lru_size_eq
      rw [this, hl, List.length_take]
      have : 1 ≤ c.lru_cache_.access_order_.length := by omega
      exact le_min hm1 this
    · show (c1.lru_cache_.access_order_.map _).head? = _
      rw [hl]
      exact Cache.head_contents_take _ m hm1

theorem Cache.eviction_keeps_head_witness :
    (∃ b c1,
      ({ ({ lru_cache_ :=
              { access_order_ := [⟨1, "a", ⟨"a", "", 0, 0⟩⟩]
                cache_map_ := [("a", 1)]
                capacity_ := 10000 }
            hits_ := 0
            misses_ := 0
            max_capacity_ := 1000
            current_memory_usage_ := 81 } : Cache) with
          max_capacity_ := 10 } : Cache).evict_if_needed = some (b, c1) ∧
      1 ≤ c1.size ∧ c1.contents.head? = some ("a", "")) ∧
    (∃ c1, Cache.set_max_capacity
        { lru_cache_ :=
            { access_order_ := [⟨1, "a", ⟨"a", "", 0, 0⟩⟩]
              cache_map_ := [("a", 1)]
              capacity_ := 10000 }
          hits_ := 0
          misses_ := 0
          max_capacity_ := 1000
          current_memory_usage_ := 81 } 10 = some c1 ∧
      1 ≤ c1.size ∧ c1.contents.head? = some ("a", "")) :=
  Cache.eviction_keeps_head 80 _ 10
    (Cache.Reachable.step (Cache.new 1000) _ (Cache.Op.set "a" "" 0)
      (Cache.Reachable.fresh 1000 (by decide)) trivial (by decide))
    (by decide) (by decide)

/-- A state that a run of valid calls reaches from a reachable state is
reachable. -/
theorem Cache.reachable_of_run (sizeof_entry : Nat) (ops : List Cache.Op) :
    ∀ c c1 : Cache, Cache.Reachable sizeof_entry c → (∀ op ∈ ops, op.valid) →
      c.run sizeof_entry ops = some c1 → Cache.Reachable sizeof_entry c1 := by
  induction ops with
  | nil =>
    intro c c1 hr _ e
    cases e
    exact hr
  | cons op ops ih =>
    intro c c1 hr hv e
    cases h : c.apply sizeof_entry op with
    | none => simp [Cache.run, h] at e
    | some c0 =>
      simp only [Cache.run, h, Option.some_bind] at e
      exact ih c0 c1 (Cache.Reachable.step c c0 op hr (hv op (List.mem_cons_self _ _)) h)
        (fun o ho => hv o (List.mem_cons_of_mem _ ho)) e

/-- C37. Tail eviction is well defined in the facade: in every reachable state
the engine's entry limit is at least one and bounds the number of entries, so
the recency list is not empty whenever it is full; every call of the facade,
`put` on the engine and `set_capacity` with any argument have a defined result
there. On an engine of capacity 0, `put` takes the last node of an empty list,
which the embedding reports as undefined. -/
theorem Cache.tail_eviction_defined (sizeof_entry : Nat) (c : Cache)
    (hr : Cache.Reachable sizeof_entry c) :
    1 ≤ c.lru_cache_.capacity ∧ c.size ≤ c.lru_cache_.capacity ∧
    (c.lru_cache_.capacity ≤ c.size → c.lru_cache_.access_order_ ≠ []) ∧
    (∀ op : Cache.Op, op.valid →
      ∃ c1, c.apply sizeof_entry op = some c1 ∧ Cache.Reachable sizeof_entry c1) ∧
    (∀ key entry, ∃ l, c.lru_cache_.put key entry = some l) ∧
    (∀ capacity, ∃ l, c.lru_cache_.set_capacity capacity = some l) ∧
    (LRUCache.new 0 : LRUCache String CacheEntry).put "k" ⟨"k", "v", 0, 0⟩ = none := by
  have i := hr.inv
  have hsz : c.size = c.lru_cache_.access_order_.length := i.lru_size_eq
  refine ⟨i.cap_pos, by rw [hsz]; exact i.size_le, ?_, ?_, ?_, ?_, by decide⟩
  · intro hfull e
    have h1 := i.cap_pos
    have h2 : c.lru_cache_.capacity_ ≤ c.size := hfull
    rw [hsz, e] at h2
    simp at h2
    omega
  · intro op hop
    obtain ⟨c1, e1, _⟩ := Cache.apply_spec sizeof_entry i op hop
    exact ⟨c1, e1, Cache.Reachable.step c c1 op hr hop e1⟩
  · intro key entry
    obtain ⟨_, l, _, el, _⟩ := LRUCache.put_spec i.wf i.cap_pos i.size_le key entry
    exact ⟨l, el⟩
  · intro capacity
    obtain ⟨l, el, _⟩ := LRUCache.set_capacity_spec i.wf capacity
    exact ⟨l, el⟩

theorem Cache.tail_eviction_defined_witness :
    ∃ c, (Cache.new 1000).run 80
        [Cache.Op.set "a" "" 0, Cache.Op.set "b" "" 1, Cache.Op.set_max_capacity 10] =
        some c ∧
      c.size = 1 ∧ c.lru_cache_.capacity = 1 ∧
      1 ≤ c.lru_cache_.capacity ∧ c.size ≤ c.lru_cache_.capacity ∧
      (c.lru_cache_.capacity ≤ c.size → c.lru_cache_.access_order_ ≠ []) ∧
      (∀ op : Cache.Op, op.valid →
        ∃ c1, c.apply 80 op = some c1 ∧ Cache.Reachable 80 c1) ∧
      (∀ key entry, ∃ l, c.lru_cache_.put key entry = some l) ∧
      (∀ capacity, ∃ l, c.lru_cache_.set_capacity capacity = some l) ∧
      (LRUCache.new 0 : LRUCache String CacheEntry).put "k" ⟨"k", "v", 0, 0⟩ = none :=
  ⟨⟨⟨[⟨2, "b", ⟨"b", "", 1, 0⟩⟩], [("b", 2)], 1⟩, 0, 0, 10, 112⟩, by decide, by decide,
    by decide,
    Cache.tail_eviction_defined 80 _
      (Cache.reachable_of_run 80
        [Cache.Op.set "a" "" 0, Cache.Op.set "b" "" 1, Cache.Op.set_max_capacity 10]
        (Cache.new 1000) _ (Cache.Reachable.fresh 1000 (by decide))
        (by simp [Cache.Op.valid, SIZE_T]) (by decide))⟩

/-- C40. The eviction routine terminates on every reachable state under every
byte bound: `size() + 1` iterations, or any larger number, bring the loop of
`evict_if_needed` to its exit; an iteration that stays in the loop lowers the
number of stored entries by one; the loop of `set_capacity` finishes with at
most the new capacity of entries, and with exactly that many when more were
stored. -/
theorem Cache.eviction_terminates (sizeof_entry : Nat) (c : Cache) (bound : Nat)
    (hr : Cache.Reachable sizeof_entry c) (hb : bound < SIZE_T) :
    (∃ r, ({ c with max_capacity_ := bound } : Cache).evict_if_needed = some r) ∧
    (∀ fuel, c.size < fuel →
      ∃ c1, Cache.evict_loop fuel { c with max_capacity_ := bound } = some c1) ∧
    (c.size > 1 → ∃ c1, c.evict_step = some c1 ∧ c1.size + 1 = c.size) ∧
    (∀ capacity, ∃ l, c.lru_cache_.set_capacity capacity = some l ∧
      l.size ≤ capacity ∧ l.size ≤ c.size ∧ (capacity < c.size → l.size = capacity)) := by
  have i := hr.inv
  have hsz : c.size = c.lru_cache_.access_order_.length := i.lru_size_eq
  have i' : Cache.Inv { c with max_capacity_ := bound } :=
    ⟨i.wf, i.cap_pos, i.size_le, i.key_eq, hb, i.usage_lt⟩
  refine ⟨?_, ?_, ?_, ?_⟩
  · obtain ⟨c1, m, e1, _⟩ := Cache.evict_if_needed_spec i'
    exact ⟨_, e1⟩
  · intro fuel hf
    obtain ⟨c1, m, e1, _⟩ := Cache.evict_loop_spec fuel _ i' (by
      show c.lru_cache_.access_order_.length < fuel
      omega)
    exact ⟨c1, e1⟩
  · intro hbig
    obtain ⟨c1, e1, _, _, _, hs, _⟩ := Cache.evict_step_strong sizeof_entry i hbig
    exact ⟨c1, e1, hs⟩
  · intro capacity
    obtain ⟨l, el, wl, _, ll⟩ := LRUCache.set_capacity_spec i.wf capacity
    have hl : l.size = l.access_order_.length := wl.size_eq
    refine ⟨l, el, ?_, ?_, ?_⟩
    · rw [hl, ll, List.length_take]; exact min_le_left _ _
    · rw [hl, ll, List.length_take, hsz]; exact min_le_right _ _
    · intro hlt
      rw [hl, ll, List.length_take]
      omega

theorem Cache.eviction_terminates_witness :
    ∃ c, (Cache.new 1000).run 80 [Cache.Op.set "a" "" 0, Cache.Op.set "b" "" 1] = some c ∧
      c.size = 2 ∧
      (({ c with max_capacity_ := 0 } : Cache).evict_if_needed.map fun r =>
        (r.1, r.2.size, r.2.memory_usage)) = some (false, 1, 112) ∧
      (∃ r, ({ c with max_capacity_ := 0 } : Cache).evict_if_needed = some r) ∧
      (∀ fuel, c.size < fuel →
        ∃ c1, Cache.evict_loop fuel { c with max_capacity_ := 0 } = some c1) ∧
      (c.size > 1 → ∃ c1, c.evict_step = some c1 ∧ c1.size + 1 = c.size) ∧
      (∀ capacity, ∃ l, c.lru_cache_.set_capacity capacity = some l ∧
        l.size ≤ capacity ∧ l.size ≤ c.size ∧ (capacity < c.size → l.size = capacity)) :=
  ⟨⟨⟨[⟨2, "b", ⟨"b", "", 1, 0⟩⟩, ⟨1, "a", ⟨"a", "", 0, 0⟩⟩], [("b", 2), ("a", 1)], 10000⟩,
      0, 0, 1000, 162⟩,
    by decide, by decide, by decide,
    Cache.eviction_terminates 80 _ 0
      (Cache.reachable_of_run 80 [Cache.Op.set "a" "" 0, Cache.Op.set "b" "" 1]
        (Cache.new 1000) _ (Cache.Reachable.fresh 1000 (by decide))
        (by simp [Cache.Op.valid]) (by decide))
      (by decide)⟩

/-- C31. `enqueue` fails fast on a stopped pool: with the stop flag set it
reports the error and leaves the pool as it was; with the flag clear it
succeeds and appends exactly the new task behind the tasks already queued,
which keep their order. -/
theorem ThreadPool.enqueue_fails_fast {Task : Type} (p : ThreadPool Task) (task : Task) :
    (p.stop_ = true →
      (p.enqueue task).1 = Except.error "enqueue on stopped ThreadPool" ∧
      (p.enqueue task).2 = p) ∧
    (p.stop_ = false →
      (p.enqueue task).1 = Except.ok () ∧
      (p.enqueue task).2.tasks_ = p.tasks_ ++ [task] ∧
      (p.enqueue task).2.tasks_.length = p.tasks_.length + 1 ∧
      (p.enqueue task).2.tasks_.take p.tasks_.length = p.tasks_ ∧
      (p.enqueue task).2.tasks_.getLast? = some task ∧
      (p.enqueue task).2.stop_ = false) := by
  constructor
  · intro h
    simp [ThreadPool.enqueue, h]
  · intro h
    simp [ThreadPool.enqueue, h]

theorem ThreadPool.enqueue_fails_fast_witness :
    ((⟨[1, 2], true⟩ : ThreadPool Nat).enqueue 3).2.tasks_ = [1, 2] ∧
    ((⟨[1, 2], false⟩ : ThreadPool Nat).enqueue 3).2.tasks_ = [1, 2] ++ [3] :=
  ⟨congrArg (fun q => q.tasks_)
      ((ThreadPool.enqueue_fails_fast (⟨[1, 2], true⟩ : ThreadPool Nat) 3).1 rfl).2,
    ((ThreadPool.enqueue_fails_fast (⟨[1, 2], false⟩ : ThreadPool Nat) 3).2 rfl).2.1⟩

/-- C32 fails on the code. A request larger than a pool is carved from a fresh
pool all the same: with pools of 1024 bytes, `allocate(4096)` opens a second
pool and records a block of 4096 bytes at its start; after `deallocate` the
free blocks hold 4096 bytes while `total_bytes()` is 2048, so
`fragmentation_ratio()` is 2. -/
theorem MemoryAllocator.fragmentation_ratio_exceeds_one :
    (MemoryAllocator.allocate (fun i => 1000000 * (i + 1))
        (MemoryAllocator.new (fun i => 1000000 * (i + 1)) 1024) 4096).1 = 2000000 ∧
    (MemoryAllocator.deallocate
        (MemoryAllocator.allocate (fun i => 1000000 * (i + 1))
          (MemoryAllocator.new (fun i => 1000000 * (i + 1)) 1024) 4096).2
        2000000 4096).blocks_ = [⟨2000000, 4096, false⟩] ∧
    (MemoryAllocator.deallocate
        (MemoryAllocator.allocate (fun i => 1000000 * (i + 1))
          (MemoryAllocator.new (fun i => 1000000 * (i + 1)) 1024) 4096).2
        2000000 4096).fragmentation_ratio = (4096, 2048) ∧
    (MemoryAllocator.deallocate
        (MemoryAllocator.allocate (fun i => 1000000 * (i + 1))
          (MemoryAllocator.new (fun i => 1000000 * (i + 1)) 1048576) 4194304).2
        2000000 4194304).fragmentation_ratio = (4194304, 2097152) := by
  refine ⟨by decide, by decide, by decide, by decide⟩

end cache
